import Mathlib

set_option maxHeartbeats 1000000

/-- Shallow embedding of struct Node (src/src/lib.rs, lines 11-23).  The f32
fields x and y are modelled as exact rationals: every quantity the layout
algorithm computes is an integer multiple of 25 far below 2^24, a range in
which f32 arithmetic is exact. -/
structure Node where
  id : Nat
  content : String
  children : List Nat
  parent : Option Nat
  x : Rat
  y : Rat
  created : Nat
  modified : Nat
  icons : List String
deriving DecidableEq

/-- Node store: association list from ids to nodes, modelling the
std HashMap of the source (only lookup, insert, in-place update and removal
are used, none of which depend on iteration order).  Ids are modelled as
naturals drawn from a per-tree counter; the source draws UUIDv4 strings whose
uniqueness the design notes of the spec allow an implementation to realise by
a tree-scoped monotone counter. -/
abbrev NodeMap := List (Nat × Node)

/-- Lookup of a key, modelling HashMap::get. -/
def NodeMap.find? (m : NodeMap) (k : Nat) : Option Node :=
  match m with
  | [] => none
  | (a, n) :: rest => if a = k then some n else NodeMap.find? rest k

/-- Key membership, modelling HashMap::contains_key. -/
def NodeMap.contains (m : NodeMap) (k : Nat) : Bool :=
  (NodeMap.find? m k).isSome

/-- Removal of a key, modelling HashMap::remove (the returned value is unused
by the source). -/
def NodeMap.eraseKey (m : NodeMap) (k : Nat) : NodeMap :=
  m.filter (fun kv => kv.1 != k)

/-- Insertion of a key-value pair, modelling HashMap::insert (overwrite
semantics). -/
def NodeMap.insert (m : NodeMap) (k : Nat) (v : Node) : NodeMap :=
  (k, v) :: NodeMap.eraseKey m k

/-- In-place modification of the node stored at a key, modelling the
HashMap::get_mut followed by field assignments idiom of the source; absent
keys are left untouched, matching the if-let guards. -/
def NodeMap.update (m : NodeMap) (k : Nat) (f : Node → Node) : NodeMap :=
  m.map (fun kv => if kv.1 = k then (kv.1, f kv.2) else kv)

/-- List of keys of the store. -/
def NodeMap.keys (m : NodeMap) : List Nat := m.map Prod.fst

/-- Shallow embedding of enum Navigation (src/src/lib.rs, lines 25-31). -/
inductive Navigation where
  | up
  | down
  | left
  | right
deriving DecidableEq

/-- Shallow embedding of struct MindMap (src/src/lib.rs, lines 33-38), plus
the fresh-id counter next_id that models the UUIDv4 generator of the source
(design notes of the spec: any generator of ids distinct from all existing
ids is acceptable). -/
structure MindMap where
  nodes : NodeMap
  root_id : Nat
  selected_node_id : Nat
  next_id : Nat
deriving DecidableEq

/-- MindMap::new (src/src/lib.rs, lines 41-67).  The current wall-clock time
read by the source is passed in as the parameter now. -/
def MindMap.new (now : Nat) : MindMap :=
  let root_id : Nat := 0
  let root : Node :=
    { id := root_id, content := "Central Node", children := [], parent := none,
      x := 0, y := 0, created := now, modified := now, icons := [] }
  { nodes := NodeMap.insert [] root_id root, root_id := root_id,
    selected_node_id := root_id, next_id := 1 }

/-- MindMap::add_child (src/src/lib.rs, lines 69-99).  Returns the result
value together with the state of the tree when the function returns. -/
def MindMap.add_child (t : MindMap) (parent_id : Nat) (content : String)
    (now : Nat) : Except String Nat × MindMap :=
  if ¬ (NodeMap.contains t.nodes parent_id = true) then
    (Except.error "Parent node not found", t)
  else
    let new_id := t.next_id
    let new_node : Node :=
      { id := new_id, content := content, children := [], parent := some parent_id,
        x := 0, y := 0, created := now, modified := now, icons := [] }
    let nodes1 := NodeMap.insert t.nodes new_id new_node
    let nodes2 := NodeMap.update nodes1 parent_id
      (fun n => { n with children := n.children ++ [new_id] })
    (Except.ok new_id, { t with nodes := nodes2, next_id := t.next_id + 1 })

/-- MindMap::change_node (src/src/lib.rs, lines 101-112). -/
def MindMap.change_node (t : MindMap) (node_id : Nat) (content : String)
    (now : Nat) : Except String Unit × MindMap :=
  if NodeMap.contains t.nodes node_id = true then
    let nodes2 := NodeMap.update t.nodes node_id
      (fun n => { n with content := content, modified := now })
    (Except.ok (), { t with nodes := nodes2 })
  else
    (Except.error "Node not found", t)

/-- Worklist sweep of MindMap::remove_node (src/src/lib.rs, lines 131-139):
the queue is the unprocessed suffix of the to_remove vector; each step pops
the head and appends its children.  The source loop terminates only on
acyclic stores, so the embedding carries fuel; remove_node passes fuel equal
to the number of stored nodes, which is proved sufficient on every tree
satisfying the invariants. -/
def collectRemove (m : NodeMap) : Nat → List Nat → List Nat
  | 0, _ => []
  | _ + 1, [] => []
  | fuel + 1, curr :: rest =>
    let kids := match NodeMap.find? m curr with
      | some n => n.children
      | none => []
    curr :: collectRemove m fuel (rest ++ kids)

/-- MindMap::remove_node (src/src/lib.rs, lines 114-146).  Note that the
source never touches selected_node_id here. -/
def MindMap.remove_node (t : MindMap) (node_id : Nat) :
    Except String Unit × MindMap :=
  if node_id = t.root_id then (Except.error "Cannot remove root node", t)
  else
    match NodeMap.find? t.nodes node_id with
    | none => (Except.error "Node not found", t)
    | some node =>
      match node.parent with
      | none => (Except.error "Node has no parent", t)
      | some parent_id =>
        let nodes1 := NodeMap.update t.nodes parent_id
          (fun n => { n with children := n.children.filter (fun id => id != node_id) })
        let to_remove := collectRemove nodes1 t.nodes.length [node_id]
        let nodes2 := to_remove.foldl (fun acc id => NodeMap.eraseKey acc id) nodes1
        (Except.ok (), { t with nodes := nodes2 })

/-- MindMap::add_sibling (src/src/lib.rs, lines 148-191). -/
def MindMap.add_sibling (t : MindMap) (node_id : Nat) (content : String)
    (now : Nat) : Except String Nat × MindMap :=
  if node_id = t.root_id then (Except.error "Cannot add sibling to root", t)
  else
    match NodeMap.find? t.nodes node_id with
    | none => (Except.error "Node not found", t)
    | some node =>
      match node.parent with
      | none => (Except.error "Node has no parent", t)
      | some parent_id =>
        let new_id := t.next_id
        let new_node : Node :=
          { id := new_id, content := content, children := [], parent := some parent_id,
            x := 0, y := 0, created := now, modified := now, icons := [] }
        let nodes1 := NodeMap.insert t.nodes new_id new_node
        let nodes2 := NodeMap.update nodes1 parent_id (fun n =>
          match n.children.findIdx? (fun id => id == node_id) with
          | some pos => { n with children := n.children.insertIdx (pos + 1) new_id }
          | none => { n with children := n.children ++ [new_id] })
        (Except.ok new_id, { t with nodes := nodes2, next_id := t.next_id + 1 })

/-- MindMap::add_icon (src/src/lib.rs, lines 193-204). -/
def MindMap.add_icon (t : MindMap) (node_id : Nat) (icon : String)
    (now : Nat) : Except String Unit × MindMap :=
  if NodeMap.contains t.nodes node_id = true then
    let nodes2 := NodeMap.update t.nodes node_id
      (fun n => { n with icons := n.icons ++ [icon], modified := now })
    (Except.ok (), { t with nodes := nodes2 })
  else
    (Except.error "Node not found", t)

/-- MindMap::remove_last_icon (src/src/lib.rs, lines 206-217); Vec::pop on an
empty vector is a no-op on the vector, as is List.dropLast on the empty
list. -/
def MindMap.remove_last_icon (t : MindMap) (node_id : Nat) (now : Nat) :
    Except String Unit × MindMap :=
  if NodeMap.contains t.nodes node_id = true then
    let nodes2 := NodeMap.update t.nodes node_id
      (fun n => { n with icons := n.icons.dropLast, modified := now })
    (Except.ok (), { t with nodes := nodes2 })
  else
    (Except.error "Node not found", t)

/-- MindMap::select_node (src/src/lib.rs, lines 266-273). -/
def MindMap.select_node (t : MindMap) (node_id : Nat) :
    Except String Unit × MindMap :=
  if NodeMap.contains t.nodes node_id = true then
    (Except.ok (), { t with selected_node_id := node_id })
  else
    (Except.error "Node not found", t)

/-- MindMap::navigate (src/src/lib.rs, lines 275-348).  The source function
is total (it returns no Result and every vector index is guarded), so the
embedding is a plain function on trees. -/
def MindMap.navigate (t : MindMap) (direction : Navigation) : MindMap :=
  let current_id := t.selected_node_id
  let new_selection : Option Nat :=
    match direction with
    | Navigation.right =>
      match NodeMap.find? t.nodes current_id with
      | some node => node.children.head?
      | none => none
    | Navigation.left =>
      match NodeMap.find? t.nodes current_id with
      | some node => node.parent
      | none => none
    | Navigation.down =>
      match NodeMap.find? t.nodes current_id with
      | some node =>
        match node.parent with
        | some parent_id =>
          match NodeMap.find? t.nodes parent_id with
          | some parent =>
            match parent.children.findIdx? (fun id => id == current_id) with
            | some pos =>
              if pos + 1 < parent.children.length then parent.children.get? (pos + 1)
              else none
            | none => none
          | none => none
        | none => none
      | none => none
    | Navigation.up =>
      match NodeMap.find? t.nodes current_id with
      | some node =>
        match node.parent with
        | some parent_id =>
          match NodeMap.find? t.nodes parent_id with
          | some parent =>
            match parent.children.findIdx? (fun id => id == current_id) with
            | some pos =>
              if 0 < pos then parent.children.get? (pos - 1)
              else none
            | none => none
          | none => none
        | none => none
      | none => none
  match new_selection with
  | some id => { t with selected_node_id := id }
  | none => t

/-- Estimated node width of MindMap::layout_node (src/src/lib.rs,
lines 226-230): 8 units per byte of content (Rust String::len counts bytes,
matching String.utf8ByteSize) plus 20 per icon plus 20 padding, at least
100. -/
def nodeWidth (node : Node) : Rat :=
  max ((node.content.utf8ByteSize : Rat) * 8 + (node.icons.length : Rat) * 20 + 20) 100

mutual

/-- MindMap::layout_node (src/src/lib.rs, lines 224-264).  The recursion of
the source terminates only on acyclic stores, so the embedding decreases a
fuel counter at each level of recursion; compute_layout passes fuel equal to
the number of stored nodes, proved sufficient on trees satisfying the
invariants. -/
def MindMap.layout_node (t : MindMap) (fuel : Nat) (node_id : Nat)
    (x start_y : Rat) : MindMap × Rat :=
  match fuel with
  | 0 => (t, 0)
  | fuel + 1 =>
    match NodeMap.find? t.nodes node_id with
    | none => (t, 0)
    | some node =>
      let node_width := nodeWidth node
      if node.children.isEmpty then
        let nodes2 := NodeMap.update t.nodes node_id
          (fun n => { n with x := x, y := start_y })
        ({ t with nodes := nodes2 }, 50)
      else
        let child_x := x + node_width + 50
        let res := MindMap.layout_children t fuel node.children child_x start_y
        let total_h := res.2 - start_y
        let parent_y := start_y + total_h / 2
        let nodes2 := NodeMap.update res.1.nodes node_id
          (fun n => { n with x := x, y := parent_y })
        ({ res.1 with nodes := nodes2 }, total_h)
termination_by (fuel, 0)

/-- The for-loop over children inside MindMap::layout_node (src/src/lib.rs,
lines 249-253); returns the final current_y. -/
def MindMap.layout_children (t : MindMap) (fuel : Nat) (cs : List Nat)
    (child_x current_y : Rat) : MindMap × Rat :=
  match cs with
  | [] => (t, current_y)
  | c :: rest =>
    let r := MindMap.layout_node t fuel c child_x current_y
    MindMap.layout_children r.1 fuel rest child_x (current_y + r.2)
termination_by (fuel, cs.length + 1)

end

/-- MindMap::compute_layout (src/src/lib.rs, lines 219-222). -/
def MindMap.compute_layout (t : MindMap) : MindMap :=
  (MindMap.layout_node t t.nodes.length t.root_id 0 0).1

/-- Subtree height in the sense of the layout algorithm, as a pure function
of the structure of the store: 50 for a childless (or absent) node, the sum
of the subtree heights of the children otherwise.  The fuel plays the same
role as in layout_node. -/
def subtreeH (m : NodeMap) : Nat → Nat → Rat
  | 0, _ => 0
  | fuel + 1, k =>
    match NodeMap.find? m k with
    | none => 0
    | some n =>
      if n.children.isEmpty then 50
      else (n.children.map (fun c => subtreeH m fuel c)).sum

/-- One mutating Tree Store command together with the data the source reads
from the outside world while executing it (the wall clock). -/
inductive Op where
  | addChild (parent_id : Nat) (content : String) (now : Nat)
  | addSibling (node_id : Nat) (content : String) (now : Nat)
  | setContent (node_id : Nat) (content : String) (now : Nat)
  | removeOp (node_id : Nat)
  | addIcon (node_id : Nat) (icon : String) (now : Nat)
  | removeLastIcon (node_id : Nat) (now : Nat)
  | selectOp (node_id : Nat)

/-- Whether an operation result is a success. -/
def isOk {α : Type} : Except String α → Bool
  | Except.ok _ => true
  | Except.error _ => false

/-- Runs one command on a tree; yields the tree state when the source method
returns, together with the success flag. -/
def runOp (op : Op) (t : MindMap) : MindMap × Bool :=
  match op with
  | Op.addChild p c now => let r := MindMap.add_child t p c now; (r.2, isOk r.1)
  | Op.addSibling v c now => let r := MindMap.add_sibling t v c now; (r.2, isOk r.1)
  | Op.setContent v c now => let r := MindMap.change_node t v c now; (r.2, isOk r.1)
  | Op.removeOp v => let r := MindMap.remove_node t v; (r.2, isOk r.1)
  | Op.addIcon v i now => let r := MindMap.add_icon t v i now; (r.2, isOk r.1)
  | Op.removeLastIcon v now => let r := MindMap.remove_last_icon t v now; (r.2, isOk r.1)
  | Op.selectOp v => let r := MindMap.select_node t v; (r.2, isOk r.1)

/-- Trees reachable from Tree creation by a sequence of successful
mutating operations. -/
inductive Reachable : MindMap → Prop
  | base (now : Nat) : Reachable (MindMap.new now)
  | step (t : MindMap) (op : Op) : Reachable t → (runOp op t).2 = true →
      Reachable (runOp op t).1

/-- Walks parent links upward from k, consuming one unit of fuel per hop,
and reports whether the root was reached. -/
def chainB (m : NodeMap) (root : Nat) : Nat → Nat → Bool
  | 0, _ => false
  | fuel + 1, k =>
    if k = root then true
    else
      match NodeMap.find? m k with
      | none => false
      | some n =>
        match n.parent with
        | none => false
        | some p => chainB m root fuel p

/-- Structural well-formedness of the node store, relative to a root id:
the spec invariants 1-4 of the data model section, together with two
auxiliary facts that the source maintains and that make the tree property
(acyclic, connected) explicit: every parent id precedes its child id
(ids are handed out by a monotone generator, so a parent is always older
than its child), and from every node the parent chain reaches the root,
within a number of hops bounded by the id (ids strictly decrease up the
chain). -/
structure MapOK (root : Nat) (m : NodeMap) : Prop where
  keysNodup : (NodeMap.keys m).Nodup
  idMatch : ∀ kv ∈ m, kv.2.id = kv.1
  rootMem : NodeMap.contains m root = true
  rootParent : ∀ kv ∈ m, kv.1 = root → kv.2.parent = none
  onlyRoot : ∀ kv ∈ m, kv.2.parent = none → kv.1 = root
  childMem : ∀ kv ∈ m, ∀ c ∈ kv.2.children, NodeMap.contains m c = true
  parentMem : ∀ kv ∈ m, ∀ p, kv.2.parent = some p → NodeMap.contains m p = true
  childNodup : ∀ kv ∈ m, kv.2.children.Nodup
  bidir : ∀ kv ∈ m, ∀ cw ∈ m, (cw.1 ∈ kv.2.children ↔ cw.2.parent = some kv.1)
  parentLt : ∀ kv ∈ m, ∀ p, kv.2.parent = some p → p < kv.1
  upChain : ∀ kv ∈ m, chainB m root (kv.1 + 1) kv.1 = true

/-- Full tree invariant: structural well-formedness of the store plus
freshness of the id counter.  Deliberately says nothing about
selected_node_id: the source leaves it dangling after removing the selected
subtree. -/
def Invariant (t : MindMap) : Prop :=
  MapOK t.root_id t.nodes ∧ ∀ kv ∈ t.nodes, kv.1 < t.next_id

instance decMapOK (root : Nat) (m : NodeMap) : Decidable (MapOK root m) :=
  decidable_of_iff ((NodeMap.keys m).Nodup ∧
    (∀ kv ∈ m, kv.2.id = kv.1) ∧
    NodeMap.contains m root = true ∧
    (∀ kv ∈ m, kv.1 = root → kv.2.parent = none) ∧
    (∀ kv ∈ m, kv.2.parent = none → kv.1 = root) ∧
    (∀ kv ∈ m, ∀ c ∈ kv.2.children, NodeMap.contains m c = true) ∧
    (∀ kv ∈ m, ∀ p, kv.2.parent = some p → NodeMap.contains m p = true) ∧
    (∀ kv ∈ m, kv.2.children.Nodup) ∧
    (∀ kv ∈ m, ∀ cw ∈ m, (cw.1 ∈ kv.2.children ↔ cw.2.parent = some kv.1)) ∧
    (∀ kv ∈ m, ∀ p, kv.2.parent = some p → p < kv.1) ∧
    (∀ kv ∈ m, chainB m root (kv.1 + 1) kv.1 = true))
    (by
      constructor
      · rintro ⟨h1, h2, h3, h4, h5, h6, h7, h8, h9, h10, h11⟩
        exact ⟨h1, h2, h3, h4, h5, h6, h7, h8, h9, h10, h11⟩
      · rintro ⟨h1, h2, h3, h4, h5, h6, h7, h8, h9, h10, h11⟩
        exact ⟨h1, h2, h3, h4, h5, h6, h7, h8, h9, h10, h11⟩)

instance decInvariant (t : MindMap) : Decidable (Invariant t) := by
  unfold Invariant
  infer_instance

/-- Descendant relation of the store: Desc m v u states that u lies in the
subtree rooted at v, following the children lists of m downward. -/
inductive Desc (m : NodeMap) (v : Nat) : Nat → Prop
  | refl : Desc m v v
  | step (u c : Nat) (n : Node) : Desc m v u → NodeMap.find? m u = some n →
      c ∈ n.children → Desc m v c

/-- The node store after the detach step of MindMap::remove_node: the removed
node is filtered out of the children of its parent. -/
def detachMap (t : MindMap) (v p : Nat) : NodeMap :=
  NodeMap.update t.nodes p
    (fun n => { n with children := n.children.filter (fun id => id != v) })

/-- The list to_remove collected by the worklist sweep of
MindMap::remove_node. -/
def removeList (t : MindMap) (v p : Nat) : List Nat :=
  collectRemove (detachMap t v p) t.nodes.length [v]

/-- The node store after MindMap::remove_node has deleted the collected
subtree. -/
def removedMap (t : MindMap) (v p : Nat) : NodeMap :=
  (removeList t v p).foldl (fun acc id => NodeMap.eraseKey acc id)
    (detachMap t v p)

/-- The node store built by the success path of MindMap::add_sibling. -/
def siblingMap (t : MindMap) (v p : Nat) (c : String) (now : Nat) : NodeMap :=
  NodeMap.update
    (NodeMap.insert t.nodes t.next_id
      { id := t.next_id, content := c, children := [], parent := some p,
        x := 0, y := 0, created := now, modified := now, icons := [] })
    p (fun n => match n.children.findIdx? (fun id => id == v) with
      | some pos => { n with children := n.children.insertIdx (pos + 1) t.next_id }
      | none => { n with children := n.children ++ [t.next_id] })

/-- Sample tree: freshly created map (root id 0). -/
def T0 : MindMap := MindMap.new 0

/-- Sample tree: root 0 with one child 1. -/
def T1 : MindMap := (MindMap.add_child T0 0 "" 0).2

/-- Sample tree: chain 0 - 1 - 2. -/
def T2 : MindMap := (MindMap.add_child T1 1 "" 0).2

/-- Sample tree: root 0 with children [1, 2]. -/
def Tnav : MindMap := (MindMap.add_child T1 0 "" 0).2

/-- Sample tree: Tnav with node 1 selected. -/
def TnavSel : MindMap := (MindMap.select_node Tnav 1).2

/-- Sample tree exhibiting the dangling cursor: child 1 of T1 is selected
and then removed. -/
def Tdang : MindMap := (MindMap.remove_node (MindMap.select_node T1 1).2 1).2

/-- Hand-built store violating bidirectional consistency: node 1 has parent 0
but is absent from the children list of 0 (exercises the defensive fallback
of add_sibling). -/
def Tfb : MindMap :=
  { nodes := [(0, { id := 0, content := "", children := [], parent := none,
                    x := 0, y := 0, created := 0, modified := 0, icons := [] }),
              (1, { id := 1, content := "", children := [], parent := some 0,
                    x := 0, y := 0, created := 0, modified := 0, icons := [] })],
    root_id := 0, selected_node_id := 0, next_id := 2 }

/-- Sample tree for the layout claims: root 0 with children [1, 4], node 1
with children [2, 3]. -/
def Tc6 : MindMap :=
  (MindMap.add_child (MindMap.add_child (MindMap.add_child (MindMap.add_child
    (MindMap.new 0) 0 "" 0).2 1 "" 0).2 1 "" 0).2 0 "" 0).2

/-- The structural fields of a node: everything except the derived x, y
position. -/
structure NodeStruct where
  id : Nat
  content : String
  children : List Nat
  parent : Option Nat
  created : Nat
  modified : Nat
  icons : List String
deriving DecidableEq

/-- Structural projection of a node. -/
def Node.struct (n : Node) : NodeStruct :=
  { id := n.id, content := n.content, children := n.children,
    parent := n.parent, created := n.created, modified := n.modified,
    icons := n.icons }

/-- Structural projection of a store: the layout pass rewrites x and y but
never this projection. -/
def structProj (m : NodeMap) : List (Nat × NodeStruct) :=
  m.map (fun kv => (kv.1, Node.struct kv.2))

/-- Top edge of the vertical band occupied by the subtree of k in a laid-out
store: the y of a childless node, and y minus half the subtree height
otherwise (the layout centers a parent over its children). -/
def bandStart (m : NodeMap) (k : Nat) : Rat :=
  match NodeMap.find? m k with
  | none => 0
  | some n =>
    if n.children.isEmpty then n.y else n.y - subtreeH m m.length k / 2

/-- The structural facts about a store that the layout proofs use: ids grow
along child edges, every child points back to its unique parent, children
lists are duplicate-free. -/
structure LayoutOK (m : NodeMap) : Prop where
  edge : ∀ u n c, NodeMap.find? m u = some n → c ∈ n.children → u < c
  childp : ∀ u n c, NodeMap.find? m u = some n → c ∈ n.children →
    ∃ w, NodeMap.find? m c = some w ∧ w.parent = some u
  chNodup : ∀ u n, NodeMap.find? m u = some n → n.children.Nodup

/-- Canonical subtree height: subtreeH at the fuel compute_layout uses. -/
def subH (m : NodeMap) (k : Nat) : Rat :=
  subtreeH m m.length k

/-- Postcondition of one layout_node call on a store m producing store res:
nodes outside the subtree of k are untouched; k itself is placed at the given
x, and vertically at the top of its band (childless) or centered over it;
inside the subtree every child sits one width-plus-gap to the right of its
parent, and the children of any node occupy consecutive vertical bands whose
widths are the subtree heights. -/
@[reducible] def layoutNodePost (m res : NodeMap) (k : Nat) (x sy : Rat) : Prop :=
  (∀ j, ¬ Desc m k j → NodeMap.find? res j = NodeMap.find? m j) ∧
  (∀ n0, NodeMap.find? m k = some n0 →
    ∃ n, NodeMap.find? res k = some n ∧ n.x = x ∧
      n.y = sy + (if n0.children.isEmpty then 0 else subH m k / 2)) ∧
  (∀ u nu c nc, Desc m k u → NodeMap.find? res u = some nu →
    c ∈ nu.children → NodeMap.find? res c = some nc →
    nc.x = nu.x + nodeWidth nu + 50) ∧
  (∀ u nu, Desc m k u → NodeMap.find? res u = some nu →
    ∀ i, (hi : i < nu.children.length) →
    ∃ nc n0c, NodeMap.find? m (nu.children.get ⟨i, hi⟩) = some n0c ∧
      NodeMap.find? res (nu.children.get ⟨i, hi⟩) = some nc ∧
      nc.y - (if n0c.children.isEmpty then 0
          else subH m (nu.children.get ⟨i, hi⟩) / 2) =
        (nu.y - subH m u / 2) +
          ((nu.children.take i).map (fun d => subH m d)).sum)

/-- Postcondition of the children loop: like layoutNodePost, for a row of
sibling subtrees stacked from cy. -/
@[reducible] def layoutChildrenPost (m res : NodeMap) (cs : List Nat)
    (cx cy : Rat) : Prop :=
  (∀ j, (∀ c ∈ cs, ¬ Desc m c j) → NodeMap.find? res j = NodeMap.find? m j) ∧
  (∀ i, (hi : i < cs.length) →
    ∃ n n0, NodeMap.find? m (cs.get ⟨i, hi⟩) = some n0 ∧
      NodeMap.find? res (cs.get ⟨i, hi⟩) = some n ∧ n.x = cx ∧
      n.y = (cy + ((cs.take i).map (fun d => subH m d)).sum) +
        (if n0.children.isEmpty then 0 else subH m (cs.get ⟨i, hi⟩) / 2)) ∧
  (∀ u nu c nc, (∃ c0 ∈ cs, Desc m c0 u) → NodeMap.find? res u = some nu →
    c ∈ nu.children → NodeMap.find? res c = some nc →
    nc.x = nu.x + nodeWidth nu + 50) ∧
  (∀ u nu, (∃ c0 ∈ cs, Desc m c0 u) → NodeMap.find? res u = some nu →
    ∀ i, (hi : i < nu.children.length) →
    ∃ nc n0c, NodeMap.find? m (nu.children.get ⟨i, hi⟩) = some n0c ∧
      NodeMap.find? res (nu.children.get ⟨i, hi⟩) = some nc ∧
      nc.y - (if n0c.children.isEmpty then 0
          else subH m (nu.children.get ⟨i, hi⟩) / 2) =
        (nu.y - subH m u / 2) +
          ((nu.children.take i).map (fun d => subH m d)).sum)

/-- The sibling no-overlap sentence of the spec exactly as worded: the
vertical interval of a sibling is its vertical center (the stored y) plus or
minus half its subtree extent, and the intervals of two distinct siblings
never share a point. -/
def SpecSiblingIntervalsDisjoint (t : MindMap) : Prop :=
  ∀ u nu c1 n1 c2 n2,
    NodeMap.find? t.nodes u = some nu → c1 ∈ nu.children → c2 ∈ nu.children →
    c1 ≠ c2 → NodeMap.find? t.nodes c1 = some n1 →
    NodeMap.find? t.nodes c2 = some n2 →
    ∀ p : Rat, ¬ (n1.y - subH t.nodes c1 / 2 ≤ p ∧
      p ≤ n1.y + subH t.nodes c1 / 2 ∧
      n2.y - subH t.nodes c2 / 2 ≤ p ∧
      p ≤ n2.y + subH t.nodes c2 / 2)

/-- The root node of Tc6. -/
def NcR : Node :=
  { id := 0, content := "Central Node", children := [1, 4], parent := none,
    x := 0, y := 0, created := 0, modified := 0, icons := [] }

/-- Node 1 of Tc6 (children [2, 3]). -/
def Nc1 : Node :=
  { id := 1, content := "", children := [2, 3], parent := some 0,
    x := 0, y := 0, created := 0, modified := 0, icons := [] }

/-- Leaf node 2 of Tc6. -/
def Nc2 : Node :=
  { id := 2, content := "", children := [], parent := some 1,
    x := 0, y := 0, created := 0, modified := 0, icons := [] }

/-- Leaf node 3 of Tc6. -/
def Nc3 : Node :=
  { id := 3, content := "", children := [], parent := some 1,
    x := 0, y := 0, created := 0, modified := 0, icons := [] }

/-- Leaf node 4 of Tc6 (second child of the root). -/
def Nc4 : Node :=
  { id := 4, content := "", children := [], parent := some 0,
    x := 0, y := 0, created := 0, modified := 0, icons := [] }

/-- The structural invariants restated through lookups rather than list
membership; on stores with distinct keys the two presentations agree. -/
structure FindOK (root : Nat) (m : NodeMap) : Prop where
  rootMem : NodeMap.contains m root = true
  idMatch : ∀ k n, NodeMap.find? m k = some n → n.id = k
  rootParent : ∀ n, NodeMap.find? m root = some n → n.parent = none
  onlyRoot : ∀ k n, NodeMap.find? m k = some n → n.parent = none → k = root
  childMem : ∀ k n, NodeMap.find? m k = some n →
    ∀ c ∈ n.children, NodeMap.contains m c = true
  parentMem : ∀ k n p, NodeMap.find? m k = some n → n.parent = some p →
    NodeMap.contains m p = true
  childNodup : ∀ k n, NodeMap.find? m k = some n → n.children.Nodup
  bidir : ∀ k n c w, NodeMap.find? m k = some n → NodeMap.find? m c = some w →
    (c ∈ n.children ↔ w.parent = some k)
  parentLt : ∀ k n p, NodeMap.find? m k = some n → n.parent = some p → p < k
  upChain : ∀ k n, NodeMap.find? m k = some n → chainB m root (k + 1) k = true

theorem find?_eraseKey (m : NodeMap) (k j : Nat) :
    NodeMap.find? (NodeMap.eraseKey m k) j =
      if j = k then none else NodeMap.find? m j := by
  induction m with
  | nil => simp [NodeMap.eraseKey, NodeMap.find?]
  | cons kv rest ih =>
    obtain ⟨a, n⟩ := kv
    by_cases hak : a = k <;> by_cases hja : j = a <;>
      simp_all [NodeMap.eraseKey, NodeMap.find?, List.filter_cons] <;>
      simp [Ne.symm hja]

theorem find?_insert (m : NodeMap) (k : Nat) (v : Node) (j : Nat) :
    NodeMap.find? (NodeMap.insert m k v) j =
      if j = k then some v else NodeMap.find? m j := by
  simp only [NodeMap.insert, NodeMap.find?, find?_eraseKey]
  by_cases h : j = k
  · simp [h]
  · simp [h, Ne.symm h]

theorem find?_update (m : NodeMap) (k : Nat) (f : Node → Node) (j : Nat) :
    NodeMap.find? (NodeMap.update m k f) j =
      if j = k then (NodeMap.find? m j).map f else NodeMap.find? m j := by
  induction m with
  | nil => simp [NodeMap.update, NodeMap.find?]
  | cons kv rest ih =>
    obtain ⟨a, n⟩ := kv
    simp only [NodeMap.update, List.map_cons] at ih ⊢
    by_cases hak : a = k
    · subst hak
      simp only [if_pos rfl]
      by_cases hja : j = a
      · subst hja
        simp [NodeMap.find?]
      · simp [NodeMap.find?, Ne.symm hja, hja, ih]
    · simp only [if_neg hak]
      by_cases hja : j = a
      · subst hja
        simp [NodeMap.find?, hak]
      · simp [NodeMap.find?, Ne.symm hja, hja, ih]

theorem keys_update (m : NodeMap) (k : Nat) (f : Node → Node) :
    NodeMap.keys (NodeMap.update m k f) = NodeMap.keys m := by
  induction m with
  | nil => rfl
  | cons kv rest ih =>
    by_cases h : kv.1 = k <;> simp_all [NodeMap.update, NodeMap.keys]

theorem length_update (m : NodeMap) (k : Nat) (f : Node → Node) :
    (NodeMap.update m k f).length = m.length := by
  simp [NodeMap.update]

theorem contains_iff_mem_keys (m : NodeMap) (k : Nat) :
    NodeMap.contains m k = true ↔ k ∈ NodeMap.keys m := by
  induction m with
  | nil => simp [NodeMap.contains, NodeMap.find?, NodeMap.keys]
  | cons kv rest ih =>
    obtain ⟨a, n⟩ := kv
    by_cases h : a = k
    · subst h
      simp [NodeMap.contains, NodeMap.find?, NodeMap.keys]
    · have hc : NodeMap.contains ((a, n) :: rest) k = NodeMap.contains rest k := by
        simp [NodeMap.contains, NodeMap.find?, h]
      rw [hc, ih]
      simp only [NodeMap.keys, List.map_cons, List.mem_cons]
      constructor
      · exact Or.inr
      · rintro (h1 | h2)
        · exact absurd h1.symm h
        · exact h2

theorem find?_eq_none_iff (m : NodeMap) (k : Nat) :
    NodeMap.find? m k = none ↔ ¬ k ∈ NodeMap.keys m := by
  rw [← contains_iff_mem_keys]
  cases hf : NodeMap.find? m k <;> simp [NodeMap.contains, hf]

theorem find?_some_mem {m : NodeMap} {k : Nat} {n : Node}
    (h : NodeMap.find? m k = some n) : (k, n) ∈ m := by
  induction m with
  | nil => simp [NodeMap.find?] at h
  | cons kv rest ih =>
    obtain ⟨a, v⟩ := kv
    by_cases hak : a = k
    · subst hak
      simp [NodeMap.find?] at h
      simp [h]
    · simp [NodeMap.find?, hak] at h
      exact List.mem_cons_of_mem _ (ih h)

theorem mem_find? {m : NodeMap} (hnd : (NodeMap.keys m).Nodup) {k : Nat} {n : Node}
    (h : (k, n) ∈ m) : NodeMap.find? m k = some n := by
  induction m with
  | nil => simp at h
  | cons kv rest ih =>
    obtain ⟨a, v⟩ := kv
    simp only [NodeMap.keys, List.map_cons, List.nodup_cons] at hnd
    rcases List.mem_cons.mp h with h1 | h2
    · cases h1
      simp [NodeMap.find?]
    · have hka : ¬ a = k := by
        intro e
        subst e
        exact hnd.1 (List.mem_map.mpr ⟨(a, n), h2, rfl⟩)
      simp [NodeMap.find?, hka]
      exact ih hnd.2 h2

theorem keys_eraseKey (m : NodeMap) (k : Nat) :
    NodeMap.keys (NodeMap.eraseKey m k) =
      (NodeMap.keys m).filter (fun a => a != k) := by
  induction m with
  | nil => rfl
  | cons kv rest ih =>
    by_cases h : kv.1 = k <;>
      simp_all [NodeMap.eraseKey, NodeMap.keys, List.filter_cons]

theorem eraseKey_not_mem {m : NodeMap} {k : Nat} (h : ¬ k ∈ NodeMap.keys m) :
    NodeMap.eraseKey m k = m := by
  induction m with
  | nil => rfl
  | cons kv rest ih =>
    simp only [NodeMap.keys, List.map_cons, List.mem_cons, not_or] at h
    have h1 : (kv.1 != k) = true := by
      simp only [bne_iff_ne, ne_eq]
      intro e
      exact h.1 e.symm
    have h2 : NodeMap.eraseKey rest k = rest := ih h.2
    show List.filter (fun kv => kv.1 != k) (kv :: rest) = kv :: rest
    rw [List.filter_cons, if_pos h1]
    exact congrArg (kv :: ·) h2

theorem length_eraseKey_of_mem {m : NodeMap} (hnd : (NodeMap.keys m).Nodup)
    {k : Nat} (h : k ∈ NodeMap.keys m) :
    (NodeMap.eraseKey m k).length + 1 = m.length := by
  induction m with
  | nil => simp [NodeMap.keys] at h
  | cons kv rest ih =>
    simp only [NodeMap.keys, List.map_cons, List.nodup_cons] at hnd
    simp only [NodeMap.keys, List.map_cons, List.mem_cons] at h
    by_cases e : kv.1 = k
    · have h1 : NodeMap.eraseKey (kv :: rest) k = NodeMap.eraseKey rest k := by
        simp [NodeMap.eraseKey, List.filter_cons, e]
      have h2 : NodeMap.eraseKey rest k = rest := eraseKey_not_mem (by
        intro hm
        exact hnd.1 (by rw [e]; exact hm))
      rw [h1, h2]
      simp
    · have h1 : NodeMap.eraseKey (kv :: rest) k = kv :: NodeMap.eraseKey rest k := by
        simp [NodeMap.eraseKey, List.filter_cons, e]
      have hk : k ∈ NodeMap.keys rest := by
        rcases h with hh | hh
        · exact absurd hh.symm e
        · exact hh
      rw [h1]
      have h3 := ih hnd.2 hk
      simp only [List.length_cons]
      omega

theorem mem_update_iff (m : NodeMap) (k : Nat) (f : Node → Node) (kv : Nat × Node) :
    kv ∈ NodeMap.update m k f ↔
      ∃ kv0, kv0 ∈ m ∧ (if kv0.1 = k then (kv0.1, f kv0.2) else kv0) = kv := by
  simp [NodeMap.update, List.mem_map]

theorem mem_eraseKey_iff (m : NodeMap) (k : Nat) (kv : Nat × Node) :
    kv ∈ NodeMap.eraseKey m k ↔ kv ∈ m ∧ ¬ kv.1 = k := by
  simp [NodeMap.eraseKey, List.mem_filter]

theorem mem_insert_iff (m : NodeMap) (k : Nat) (v : Node) (kv : Nat × Node) :
    kv ∈ NodeMap.insert m k v ↔ kv = (k, v) ∨ (kv ∈ m ∧ ¬ kv.1 = k) := by
  simp [NodeMap.insert, mem_eraseKey_iff]

theorem find?_foldl_eraseKey (L : List Nat) (m : NodeMap) (j : Nat) :
    NodeMap.find? (L.foldl (fun acc id => NodeMap.eraseKey acc id) m) j =
      if j ∈ L then none else NodeMap.find? m j := by
  induction L generalizing m with
  | nil => simp
  | cons a rest ih =>
    simp only [List.foldl_cons, ih, find?_eraseKey, List.mem_cons]
    by_cases h1 : j ∈ rest <;> by_cases h2 : j = a <;> simp [h1, h2]

theorem mem_foldl_eraseKey (L : List Nat) (m : NodeMap) (kv : Nat × Node) :
    kv ∈ L.foldl (fun acc id => NodeMap.eraseKey acc id) m ↔
      kv ∈ m ∧ ¬ kv.1 ∈ L := by
  induction L generalizing m with
  | nil => simp
  | cons a rest ih =>
    simp only [List.foldl_cons, ih, mem_eraseKey_iff, List.mem_cons]
    constructor
    · rintro ⟨⟨h1, h2⟩, h3⟩
      exact ⟨h1, by simp [h2, h3]⟩
    · rintro ⟨h1, h2⟩
      simp only [not_or] at h2
      exact ⟨⟨h1, h2.1⟩, h2.2⟩

theorem keys_nodup_foldl_eraseKey (L : List Nat) (m : NodeMap)
    (hnd : (NodeMap.keys m).Nodup) :
    (NodeMap.keys (L.foldl (fun acc id => NodeMap.eraseKey acc id) m)).Nodup := by
  induction L generalizing m with
  | nil => exact hnd
  | cons a rest ih =>
    simp only [List.foldl_cons]
    exact ih _ (by rw [keys_eraseKey]; exact hnd.filter _)

theorem length_foldl_eraseKey (L : List Nat) (m : NodeMap)
    (hnd : (NodeMap.keys m).Nodup) (hL : L.Nodup)
    (hsub : ∀ a ∈ L, a ∈ NodeMap.keys m) :
    (L.foldl (fun acc id => NodeMap.eraseKey acc id) m).length + L.length =
      m.length := by
  induction L generalizing m with
  | nil => simp
  | cons a rest ih =>
    simp only [List.foldl_cons]
    have hnd2 : (NodeMap.keys (NodeMap.eraseKey m a)).Nodup := by
      rw [keys_eraseKey]
      exact hnd.filter _
    have h2 : ∀ b ∈ rest, b ∈ NodeMap.keys (NodeMap.eraseKey m a) := by
      intro b hb
      rw [keys_eraseKey]
      refine List.mem_filter.mpr ⟨hsub b (List.mem_cons_of_mem _ hb), ?_⟩
      simp only [bne_iff_ne, ne_eq]
      intro e
      subst e
      exact (List.nodup_cons.mp hL).1 hb
    have h3 := ih (NodeMap.eraseKey m a) hnd2 (List.nodup_cons.mp hL).2 h2
    have h4 := length_eraseKey_of_mem hnd (hsub a (List.mem_cons_self a rest))
    simp only [List.length_cons]
    omega

theorem chainB_mono {m : NodeMap} {root : Nat} {f1 f2 k : Nat}
    (h : chainB m root f1 k = true) (hle : f1 ≤ f2) :
    chainB m root f2 k = true := by
  induction f1 generalizing f2 k with
  | zero => simp [chainB] at h
  | succ f ih =>
    obtain ⟨f', rfl⟩ : ∃ f', f2 = f' + 1 := ⟨f2 - 1, by omega⟩
    rw [chainB] at h
    rw [chainB]
    by_cases hk : k = root
    · simp [hk]
    · simp only [if_neg hk] at h ⊢
      cases hf : NodeMap.find? m k with
      | none => simp [hf] at h
      | some n =>
        simp only [hf] at h ⊢
        cases hp : n.parent with
        | none => simp [hp] at h
        | some p =>
          simp only [hp] at h ⊢
          exact ih h (by omega)

theorem chainB_congr {m1 m2 : NodeMap} {root : Nat}
    (hproj : ∀ j, (NodeMap.find? m1 j).map Node.parent =
      (NodeMap.find? m2 j).map Node.parent) (fuel k : Nat) :
    chainB m1 root fuel k = chainB m2 root fuel k := by
  induction fuel generalizing k with
  | zero => rfl
  | succ f ih =>
    rw [chainB, chainB]
    by_cases hk : k = root
    · simp [hk]
    · simp only [if_neg hk]
      have h := hproj k
      cases hf1 : NodeMap.find? m1 k with
      | none =>
        rw [hf1] at h
        cases hf2 : NodeMap.find? m2 k with
        | none => rfl
        | some n2 => rw [hf2] at h; exact absurd h (by simp)
      | some n1 =>
        rw [hf1] at h
        cases hf2 : NodeMap.find? m2 k with
        | none => rw [hf2] at h; exact absurd h (by simp)
        | some n2 =>
          rw [hf2] at h
          have h2 : n1.parent = n2.parent := by simpa using h
          show (match n1.parent with
            | none => false
            | some p => chainB m1 root f p) =
            (match n2.parent with
            | none => false
            | some p => chainB m2 root f p)
          rw [h2]
          cases n2.parent with
          | none => rfl
          | some p => exact ih p

theorem mem_update_proj {m : NodeMap} {k : Nat} {f : Node → Node} {kv : Nat × Node}
    (h : kv ∈ NodeMap.update m k f)
    (hid : ∀ n, (f n).id = n.id) (hch : ∀ n, (f n).children = n.children)
    (hpar : ∀ n, (f n).parent = n.parent) :
    ∃ kv0, kv0 ∈ m ∧ kv.1 = kv0.1 ∧ kv.2.id = kv0.2.id ∧
      kv.2.children = kv0.2.children ∧ kv.2.parent = kv0.2.parent := by
  rcases (mem_update_iff m k f kv).mp h with ⟨kv0, h0, he⟩
  by_cases hk : kv0.1 = k
  · rw [if_pos hk] at he
    refine ⟨kv0, h0, ?_⟩
    rw [← he]
    exact ⟨rfl, hid kv0.2, hch kv0.2, hpar kv0.2⟩
  · rw [if_neg hk] at he
    exact ⟨kv0, h0, by rw [he], by rw [he], by rw [he], by rw [he]⟩

theorem mapOK_update_keep {root : Nat} {m : NodeMap} (h : MapOK root m)
    {k : Nat} {f : Node → Node}
    (hid : ∀ n, (f n).id = n.id) (hch : ∀ n, (f n).children = n.children)
    (hpar : ∀ n, (f n).parent = n.parent) :
    MapOK root (NodeMap.update m k f) := by
  have hproj : ∀ j, (NodeMap.find? (NodeMap.update m k f) j).map Node.parent =
      (NodeMap.find? m j).map Node.parent := by
    intro j
    rw [find?_update]
    by_cases hj : j = k
    · rw [if_pos hj]
      cases NodeMap.find? m j with
      | none => simp
      | some n => simp [hpar]
    · rw [if_neg hj]
  refine ⟨?_, ?_, ?_, ?_, ?_, ?_, ?_, ?_, ?_, ?_, ?_⟩
  · rw [keys_update]
    exact h.keysNodup
  · intro kv hkv
    obtain ⟨kv0, h0, e1, e2, _, _⟩ := mem_update_proj hkv hid hch hpar
    rw [e1, e2]
    exact h.idMatch kv0 h0
  · rw [contains_iff_mem_keys, keys_update, ← contains_iff_mem_keys]
    exact h.rootMem
  · intro kv hkv hr
    obtain ⟨kv0, h0, e1, _, _, e3⟩ := mem_update_proj hkv hid hch hpar
    rw [e3]
    exact h.rootParent kv0 h0 (by rw [← e1]; exact hr)
  · intro kv hkv hp
    obtain ⟨kv0, h0, e1, _, _, e3⟩ := mem_update_proj hkv hid hch hpar
    rw [e1]
    exact h.onlyRoot kv0 h0 (by rw [← e3]; exact hp)
  · intro kv hkv c hc
    obtain ⟨kv0, h0, _, _, e2, _⟩ := mem_update_proj hkv hid hch hpar
    rw [contains_iff_mem_keys, keys_update, ← contains_iff_mem_keys]
    exact h.childMem kv0 h0 c (by rw [← e2]; exact hc)
  · intro kv hkv p hp
    obtain ⟨kv0, h0, _, _, _, e3⟩ := mem_update_proj hkv hid hch hpar
    rw [contains_iff_mem_keys, keys_update, ← contains_iff_mem_keys]
    exact h.parentMem kv0 h0 p (by rw [← e3]; exact hp)
  · intro kv hkv
    obtain ⟨kv0, h0, _, _, e2, _⟩ := mem_update_proj hkv hid hch hpar
    rw [e2]
    exact h.childNodup kv0 h0
  · intro kv hkv cw hcw
    obtain ⟨kv0, h0, e1, _, e2, _⟩ := mem_update_proj hkv hid hch hpar
    obtain ⟨cw0, g0, g1, _, _, g3⟩ := mem_update_proj hcw hid hch hpar
    rw [e1, e2, g1, g3]
    exact h.bidir kv0 h0 cw0 g0
  · intro kv hkv p hp
    obtain ⟨kv0, h0, e1, _, _, e3⟩ := mem_update_proj hkv hid hch hpar
    rw [e1]
    exact h.parentLt kv0 h0 p (by rw [← e3]; exact hp)
  · intro kv hkv
    obtain ⟨kv0, h0, e1, _, _, _⟩ := mem_update_proj hkv hid hch hpar
    rw [e1, chainB_congr hproj]
    exact h.upChain kv0 h0

theorem invariant_update_keep {t : MindMap} (h : Invariant t) (k : Nat)
    (f : Node → Node)
    (hid : ∀ n, (f n).id = n.id) (hch : ∀ n, (f n).children = n.children)
    (hpar : ∀ n, (f n).parent = n.parent) :
    Invariant { t with nodes := NodeMap.update t.nodes k f } := by
  refine ⟨mapOK_update_keep h.1 hid hch hpar, ?_⟩
  intro kv hkv
  obtain ⟨kv0, h0, e1, _, _, _⟩ := mem_update_proj hkv hid hch hpar
  rw [e1]
  exact h.2 kv0 h0

theorem invariant_new (now : Nat) : Invariant (MindMap.new now) := by
  constructor
  · refine ⟨?_, ?_, ?_, ?_, ?_, ?_, ?_, ?_, ?_, ?_, ?_⟩ <;>
      simp [MindMap.new, NodeMap.insert, NodeMap.eraseKey, NodeMap.keys,
        NodeMap.contains, NodeMap.find?, chainB]
  · intro kv hkv
    simp [MindMap.new, NodeMap.insert, NodeMap.eraseKey] at hkv
    rw [hkv]
    exact Nat.zero_lt_one

theorem contains_iff_find? (m : NodeMap) (k : Nat) :
    NodeMap.contains m k = true ↔ ∃ n, NodeMap.find? m k = some n := by
  rw [NodeMap.contains]
  cases h : NodeMap.find? m k <;> simp

theorem mem_keys_of_mem {m : NodeMap} {kv : Nat × Node} (h : kv ∈ m) :
    kv.1 ∈ NodeMap.keys m :=
  List.mem_map.mpr ⟨kv, h, rfl⟩

theorem mem_keys_lt_next {t : MindMap} (h : Invariant t) {k : Nat}
    (hk : k ∈ NodeMap.keys t.nodes) : k < t.next_id := by
  rcases List.mem_map.mp hk with ⟨kv, hkv, rfl⟩
  exact h.2 kv hkv

theorem insert_fresh_eq {m : NodeMap} {k : Nat} (v : Node)
    (hf : ¬ k ∈ NodeMap.keys m) : NodeMap.insert m k v = (k, v) :: m := by
  rw [NodeMap.insert, eraseKey_not_mem hf]

theorem findOK_of_mapOK {root : Nat} {m : NodeMap} (h : MapOK root m) :
    FindOK root m := by
  refine ⟨h.rootMem, ?_, ?_, ?_, ?_, ?_, ?_, ?_, ?_, ?_⟩
  · intro k n hf
    exact h.idMatch (k, n) (find?_some_mem hf)
  · intro n hf
    exact h.rootParent (root, n) (find?_some_mem hf) rfl
  · intro k n hf hp
    exact h.onlyRoot (k, n) (find?_some_mem hf) hp
  · intro k n hf c hc
    exact h.childMem (k, n) (find?_some_mem hf) c hc
  · intro k n p hf hp
    exact h.parentMem (k, n) (find?_some_mem hf) p hp
  · intro k n hf
    exact h.childNodup (k, n) (find?_some_mem hf)
  · intro k n c w hf hg
    exact h.bidir (k, n) (find?_some_mem hf) (c, w) (find?_some_mem hg)
  · intro k n p hf hp
    exact h.parentLt (k, n) (find?_some_mem hf) p hp
  · intro k n hf
    exact h.upChain (k, n) (find?_some_mem hf)

theorem mapOK_of_findOK {root : Nat} {m : NodeMap}
    (hnd : (NodeMap.keys m).Nodup) (h : FindOK root m) : MapOK root m := by
  have hfind : ∀ kv ∈ m, NodeMap.find? m kv.1 = some kv.2 := by
    intro kv hkv
    exact mem_find? hnd hkv
  refine ⟨hnd, ?_, h.rootMem, ?_, ?_, ?_, ?_, ?_, ?_, ?_, ?_⟩
  · intro kv hkv
    exact h.idMatch kv.1 kv.2 (hfind kv hkv)
  · intro kv hkv hr
    exact h.rootParent kv.2 (by rw [← hr]; exact hfind kv hkv)
  · intro kv hkv hp
    exact h.onlyRoot kv.1 kv.2 (hfind kv hkv) hp
  · intro kv hkv c hc
    exact h.childMem kv.1 kv.2 (hfind kv hkv) c hc
  · intro kv hkv p hp
    exact h.parentMem kv.1 kv.2 p (hfind kv hkv) hp
  · intro kv hkv
    exact h.childNodup kv.1 kv.2 (hfind kv hkv)
  · intro kv hkv cw hcw
    exact h.bidir kv.1 kv.2 cw.1 cw.2 (hfind kv hkv) (hfind cw hcw)
  · intro kv hkv p hp
    exact h.parentLt kv.1 kv.2 p (hfind kv hkv) hp
  · intro kv hkv
    exact h.upChain kv.1 kv.2 (hfind kv hkv)

theorem chainB_congr_on {m1 m2 : NodeMap} {root : Nat} (P : Nat → Prop)
    (hproj : ∀ j, P j → (NodeMap.find? m1 j).map Node.parent =
      (NodeMap.find? m2 j).map Node.parent)
    (hstep : ∀ j n p, P j → NodeMap.find? m1 j = some n → n.parent = some p →
      P p) :
    ∀ fuel k, P k → chainB m1 root fuel k = chainB m2 root fuel k := by
  intro fuel
  induction fuel with
  | zero => intro k _; rfl
  | succ f ih =>
    intro k hPk
    rw [chainB, chainB]
    by_cases hk : k = root
    · simp [hk]
    · simp only [if_neg hk]
      have h := hproj k hPk
      cases hf1 : NodeMap.find? m1 k with
      | none =>
        rw [hf1] at h
        cases hf2 : NodeMap.find? m2 k with
        | none => rfl
        | some n2 => rw [hf2] at h; exact absurd h (by simp)
      | some n1 =>
        rw [hf1] at h
        cases hf2 : NodeMap.find? m2 k with
        | none => rw [hf2] at h; exact absurd h (by simp)
        | some n2 =>
          rw [hf2] at h
          have h2 : n1.parent = n2.parent := by simpa using h
          show (match n1.parent with
            | none => false
            | some p => chainB m1 root f p) =
            (match n2.parent with
            | none => false
            | some p => chainB m2 root f p)
          rw [← h2]
          cases hp : n1.parent with
          | none => rfl
          | some p => exact ih p (hstep k n1 p hPk hf1 hp)

theorem findOK_add_node {root : Nat} {m : NodeMap} (hOK : FindOK root m)
    (hnd : (NodeMap.keys m).Nodup)
    {new : Nat} (hfresh : ∀ j, j ∈ NodeMap.keys m → j < new)
    {p : Nat} {pn : Node} (hp : NodeMap.find? m p = some pn)
    {nv : Node} (hnvid : nv.id = new) (hnvch : nv.children = [])
    (hnvpar : nv.parent = some p)
    {ch2 : List Nat} (hch2mem : ∀ x, x ∈ ch2 ↔ x ∈ pn.children ∨ x = new)
    (hch2nd : ch2.Nodup)
    {f : Node → Node} (hf : f pn = { pn with children := ch2 }) :
    FindOK root (NodeMap.update (NodeMap.insert m new nv) p f) ∧
    (NodeMap.keys (NodeMap.update (NodeMap.insert m new nv) p f)).Nodup ∧
    NodeMap.keys (NodeMap.update (NodeMap.insert m new nv) p f) =
      new :: NodeMap.keys m := by
  have hpk : p ∈ NodeMap.keys m := mem_keys_of_mem (find?_some_mem hp)
  have hpnew : p < new := hfresh p hpk
  have hpne : ¬ p = new := by omega
  have hfreshk : ¬ new ∈ NodeMap.keys m := by
    intro hk
    exact absurd (hfresh new hk) (lt_irrefl new)
  have hrootk : root ∈ NodeMap.keys m := (contains_iff_mem_keys m root).mp hOK.rootMem
  have hrootnew : ¬ root = new := by
    have := hfresh root hrootk
    omega
  set m2 := NodeMap.update (NodeMap.insert m new nv) p f with hm2
  have hkeys2 : NodeMap.keys m2 = new :: NodeMap.keys m := by
    rw [hm2, keys_update, insert_fresh_eq nv hfreshk]
    simp [NodeMap.keys]
  have hfind2 : ∀ j, NodeMap.find? m2 j =
      if j = p then some { pn with children := ch2 }
      else if j = new then some nv
      else NodeMap.find? m j := by
    intro j
    rw [hm2, find?_update, find?_insert]
    by_cases hj : j = p
    · rw [if_pos hj, if_pos hj, if_neg (by rw [hj]; exact hpne), hj, hp]
      simp [hf]
    · rw [if_neg hj, if_neg hj]
  have hclass : ∀ {j nn}, NodeMap.find? m2 j = some nn →
      (j = p ∧ nn = { pn with children := ch2 }) ∨
      (j = new ∧ nn = nv) ∨
      (¬ j = p ∧ ¬ j = new ∧ NodeMap.find? m j = some nn) := by
    intro j nn hj
    rw [hfind2 j] at hj
    by_cases h1 : j = p
    · rw [if_pos h1] at hj
      exact Or.inl ⟨h1, (Option.some.inj hj).symm⟩
    · rw [if_neg h1] at hj
      by_cases h2 : j = new
      · rw [if_pos h2] at hj
        exact Or.inr (Or.inl ⟨h2, (Option.some.inj hj).symm⟩)
      · rw [if_neg h2] at hj
        exact Or.inr (Or.inr ⟨h1, h2, hj⟩)
  have hcont2 : ∀ j, NodeMap.contains m2 j = true ↔
      (j = new ∨ j ∈ NodeMap.keys m) := by
    intro j
    rw [contains_iff_mem_keys, hkeys2, List.mem_cons]
  have holdchild : ∀ j n c, NodeMap.find? m j = some n → c ∈ n.children →
      c ∈ NodeMap.keys m := by
    intro j n c hj hc
    exact (contains_iff_mem_keys m c).mp (hOK.childMem j n hj c hc)
  have holdpar : ∀ j n q, NodeMap.find? m j = some n → n.parent = some q →
      q ∈ NodeMap.keys m := by
    intro j n q hj hq
    exact (contains_iff_mem_keys m q).mp (hOK.parentMem j n q hj hq)
  have hnd2 : (NodeMap.keys m2).Nodup := by
    rw [hkeys2]
    exact List.nodup_cons.mpr ⟨hfreshk, hnd⟩
  have hcong := @chainB_congr_on m m2 root (fun j => j ∈ NodeMap.keys m)
    (by
      intro j hj
      rw [hfind2 j]
      have hjnew : ¬ j = new := by
        have := hfresh j hj
        omega
      by_cases hjp : j = p
      · rw [if_pos hjp, hjp, hp]
        rfl
      · rw [if_neg hjp, if_neg hjnew])
    (by
      intro j nj q hj hfj hq
      exact holdpar j nj q hfj hq)
  refine ⟨⟨?_, ?_, ?_, ?_, ?_, ?_, ?_, ?_, ?_, ?_⟩, hnd2, hkeys2⟩
  · rw [hcont2]
    exact Or.inr hrootk
  · intro k n hfk
    rcases hclass hfk with ⟨e1, e2⟩ | ⟨e1, e2⟩ | ⟨_, _, hold⟩
    · rw [e1, e2]
      exact hOK.idMatch p pn hp
    · rw [e1, e2]
      exact hnvid
    · exact hOK.idMatch k n hold
  · intro n hfk
    rcases hclass hfk with ⟨e1, e2⟩ | ⟨e1, e2⟩ | ⟨_, _, hold⟩
    · rw [e2]
      show pn.parent = none
      exact hOK.rootParent pn (by rw [e1]; exact hp)
    · exact absurd e1 hrootnew
    · exact hOK.rootParent n hold
  · intro k n hfk hpar
    rcases hclass hfk with ⟨e1, e2⟩ | ⟨e1, e2⟩ | ⟨_, _, hold⟩
    · rw [e2] at hpar
      rw [e1]
      exact hOK.onlyRoot p pn hp hpar
    · rw [e2, hnvpar] at hpar
      cases hpar
    · exact hOK.onlyRoot k n hold hpar
  · intro k n hfk c hc
    rw [hcont2 c]
    rcases hclass hfk with ⟨e1, e2⟩ | ⟨e1, e2⟩ | ⟨_, _, hold⟩
    · rw [e2] at hc
      rcases (hch2mem c).mp hc with hcold | hcnew
      · exact Or.inr (holdchild p pn c hp hcold)
      · exact Or.inl hcnew
    · rw [e2, hnvch] at hc
      cases hc
    · exact Or.inr (holdchild k n c hold hc)
  · intro k n q hfk hq
    rw [hcont2 q]
    rcases hclass hfk with ⟨e1, e2⟩ | ⟨e1, e2⟩ | ⟨_, _, hold⟩
    · rw [e2] at hq
      exact Or.inr (holdpar p pn q hp hq)
    · rw [e2, hnvpar] at hq
      rw [← Option.some.inj hq]
      exact Or.inr hpk
    · exact Or.inr (holdpar k n q hold hq)
  · intro k n hfk
    rcases hclass hfk with ⟨e1, e2⟩ | ⟨e1, e2⟩ | ⟨_, _, hold⟩
    · rw [e2]
      exact hch2nd
    · rw [e2, hnvch]
      exact List.nodup_nil
    · exact hOK.childNodup k n hold
  · intro k n c w hfk hfc
    rcases hclass hfk with ⟨e1, e2⟩ | ⟨e1, e2⟩ | ⟨e1a, e1b, hold⟩ <;>
      rcases hclass hfc with ⟨g1, g2⟩ | ⟨g1, g2⟩ | ⟨g1a, g1b, gold⟩
    · rw [e1, e2, g1, g2]
      show p ∈ ch2 ↔ pn.parent = some p
      rw [hch2mem p]
      simp only [hpne, or_false]
      exact hOK.bidir p pn p pn hp hp
    · rw [e1, e2, g1, g2]
      show new ∈ ch2 ↔ nv.parent = some p
      rw [hnvpar]
      exact iff_of_true ((hch2mem new).mpr (Or.inr rfl)) rfl
    · rw [e1, e2]
      show c ∈ ch2 ↔ w.parent = some p
      rw [hch2mem c]
      simp only [g1b, or_false]
      exact hOK.bidir p pn c w hp gold
    · rw [e1, e2, g1, g2]
      show p ∈ nv.children ↔ pn.parent = some new
      rw [hnvch]
      constructor
      · intro hc
        cases hc
      · intro he
        exact absurd (holdpar p pn new hp he) hfreshk
    · rw [e1, e2, g1, g2]
      show new ∈ nv.children ↔ nv.parent = some new
      rw [hnvch, hnvpar]
      constructor
      · intro hc
        cases hc
      · intro he
        exact absurd (Option.some.inj he) hpne
    · rw [e1, e2]
      show c ∈ nv.children ↔ w.parent = some new
      rw [hnvch]
      constructor
      · intro hc
        cases hc
      · intro he
        exact absurd (holdpar c w new gold he) hfreshk
    · rw [g1, g2]
      show p ∈ n.children ↔ pn.parent = some k
      exact hOK.bidir k n p pn hold hp
    · rw [g1, g2]
      show new ∈ n.children ↔ nv.parent = some k
      rw [hnvpar]
      constructor
      · intro hc
        exact absurd (holdchild k n new hold hc) hfreshk
      · intro he
        exact absurd (Option.some.inj he).symm e1a
    · exact hOK.bidir k n c w hold gold
  · intro k n q hfk hq
    rcases hclass hfk with ⟨e1, e2⟩ | ⟨e1, e2⟩ | ⟨_, _, hold⟩
    · rw [e2] at hq
      rw [e1]
      exact hOK.parentLt p pn q hp hq
    · rw [e2, hnvpar] at hq
      rw [e1, ← Option.some.inj hq]
      exact hpnew
    · exact hOK.parentLt k n q hold hq
  · intro k n hfk
    rcases hclass hfk with ⟨e1, e2⟩ | ⟨e1, e2⟩ | ⟨_, _, hold⟩
    · rw [e1, ← hcong (p + 1) p hpk]
      exact hOK.upChain p pn hp
    · rw [e1]
      rw [chainB, if_neg (fun e => hrootnew (Eq.symm e)), hfind2 new,
        if_neg (fun e => hpne (Eq.symm e)), if_pos rfl]
      show (match nv.parent with
        | none => false
        | some q => chainB m2 root new q) = true
      rw [hnvpar]
      show chainB m2 root new p = true
      rw [← hcong new p hpk]
      exact chainB_mono (hOK.upChain p pn hp) (by omega)
    · rw [← hcong (k + 1) k (mem_keys_of_mem (find?_some_mem hold))]
      exact hOK.upChain k n hold

theorem invariant_add_child {t : MindMap} (h : Invariant t) (p : Nat)
    (c : String) (now : Nat) : Invariant (MindMap.add_child t p c now).2 := by
  rw [MindMap.add_child]
  split
  · exact h
  · rename_i hcon
    have hc : NodeMap.contains t.nodes p = true := not_not.mp hcon
    rcases (contains_iff_find? t.nodes p).mp hc with ⟨pn, hp⟩
    have hF := findOK_of_mapOK h.1
    have hfresh : ∀ j, j ∈ NodeMap.keys t.nodes → j < t.next_id := by
      intro j hj
      exact mem_keys_lt_next h hj
    have hch2mem : ∀ x, x ∈ pn.children ++ [t.next_id] ↔
        x ∈ pn.children ∨ x = t.next_id := by
      intro x
      simp
    have hch2nd : (pn.children ++ [t.next_id]).Nodup := by
      rw [List.nodup_append]
      refine ⟨hF.childNodup p pn hp, List.nodup_singleton _, ?_⟩
      intro a ha hb
      have : a ∈ NodeMap.keys t.nodes :=
        (contains_iff_mem_keys _ _).mp (hF.childMem p pn hp a ha)
      have := hfresh a this
      simp at hb
      omega
    have hmain := @findOK_add_node t.root_id t.nodes hF
      h.1.keysNodup t.next_id hfresh p pn hp
      { id := t.next_id, content := c, children := [], parent := some p,
        x := 0, y := 0, created := now, modified := now, icons := [] }
      rfl rfl rfl
      (pn.children ++ [t.next_id]) hch2mem hch2nd
      (fun n => { n with children := n.children ++ [t.next_id] })
      rfl
    refine ⟨mapOK_of_findOK hmain.2.1 hmain.1, ?_⟩
    intro kv hkv
    have hkeys := mem_keys_of_mem hkv
    rw [hmain.2.2] at hkeys
    show kv.1 < t.next_id + 1
    rcases List.mem_cons.mp hkeys with h1 | h2
    · omega
    · have := hfresh kv.1 h2
      omega

theorem invariant_add_sibling {t : MindMap} (h : Invariant t) (v : Nat)
    (c : String) (now : Nat) : Invariant (MindMap.add_sibling t v c now).2 := by
  rw [MindMap.add_sibling]
  split
  · exact h
  · split
    · exact h
    · rename_i node hv
      split
      · exact h
      · rename_i p hpar
        have hF := findOK_of_mapOK h.1
        rcases (contains_iff_find? t.nodes p).mp
          (hF.parentMem v node p hv hpar) with ⟨pn, hp⟩
        have hfresh : ∀ j, j ∈ NodeMap.keys t.nodes → j < t.next_id := by
          intro j hj
          exact mem_keys_lt_next h hj
        have hvch : v ∈ pn.children := (hF.bidir p pn v node hp hv).mpr hpar
        have hchsub : ∀ a, a ∈ pn.children → a < t.next_id := by
          intro a ha
          exact hfresh a ((contains_iff_mem_keys _ _).mp (hF.childMem p pn hp a ha))
        set ch2 := (match pn.children.findIdx? (fun id => id == v) with
          | some pos => pn.children.insertIdx (pos + 1) t.next_id
          | none => pn.children ++ [t.next_id]) with hch2
        have hch2mem : ∀ x, x ∈ ch2 ↔ x ∈ pn.children ∨ x = t.next_id := by
          intro x
          rw [hch2]
          cases hidx : pn.children.findIdx? (fun id => id == v) with
          | none => simp
          | some pos =>
            have hlt : pos < pn.children.length :=
              (List.findIdx?_eq_some_iff_findIdx_eq.mp hidx).1
            show x ∈ pn.children.insertIdx (pos + 1) t.next_id ↔ _
            rw [List.mem_insertIdx (by omega)]
            exact or_comm
        have hch2nd : ch2.Nodup := by
          rw [hch2]
          cases hidx : pn.children.findIdx? (fun id => id == v) with
          | none =>
            rw [List.nodup_append]
            refine ⟨hF.childNodup p pn hp, List.nodup_singleton _, ?_⟩
            intro a ha hb
            have := hchsub a ha
            simp at hb
            omega
          | some pos =>
            have hlt : pos < pn.children.length :=
              (List.findIdx?_eq_some_iff_findIdx_eq.mp hidx).1
            have hperm := List.perm_insertIdx t.next_id pn.children
              (show pos + 1 ≤ pn.children.length by omega)
            refine hperm.nodup_iff.mpr ?_
            rw [List.nodup_cons]
            refine ⟨?_, hF.childNodup p pn hp⟩
            intro hmem
            exact absurd (hchsub _ hmem) (lt_irrefl _)
        have hfch : (fun n => (match n.children.findIdx? (fun id => id == v) with
              | some pos => { n with children := n.children.insertIdx (pos + 1) t.next_id }
              | none => { n with children := n.children ++ [t.next_id] } : Node)) pn =
            { pn with children := ch2 } := by
          rw [hch2]
          cases hidx : pn.children.findIdx? (fun id => id == v) <;> simp [hidx]
        have hmain := @findOK_add_node t.root_id t.nodes hF
          h.1.keysNodup t.next_id hfresh p pn hp
          { id := t.next_id, content := c, children := [], parent := some p,
            x := 0, y := 0, created := now, modified := now, icons := [] }
          rfl rfl rfl
          ch2 hch2mem hch2nd
          (fun n => match n.children.findIdx? (fun id => id == v) with
            | some pos => { n with children := n.children.insertIdx (pos + 1) t.next_id }
            | none => { n with children := n.children ++ [t.next_id] })
          hfch
        refine ⟨mapOK_of_findOK hmain.2.1 hmain.1, ?_⟩
        intro kv hkv
        have hkeys := mem_keys_of_mem hkv
        rw [hmain.2.2] at hkeys
        show kv.1 < t.next_id + 1
        rcases List.mem_cons.mp hkeys with h1 | h2
        · omega
        · have := hfresh kv.1 h2
          omega

theorem invariant_change_node {t : MindMap} (h : Invariant t) (v : Nat)
    (c : String) (now : Nat) : Invariant (MindMap.change_node t v c now).2 := by
  rw [MindMap.change_node]
  split
  · exact invariant_update_keep h v _ (fun n => rfl) (fun n => rfl) (fun n => rfl)
  · exact h

theorem invariant_add_icon {t : MindMap} (h : Invariant t) (v : Nat)
    (i : String) (now : Nat) : Invariant (MindMap.add_icon t v i now).2 := by
  rw [MindMap.add_icon]
  split
  · exact invariant_update_keep h v _ (fun n => rfl) (fun n => rfl) (fun n => rfl)
  · exact h

theorem invariant_remove_last_icon {t : MindMap} (h : Invariant t) (v : Nat)
    (now : Nat) : Invariant (MindMap.remove_last_icon t v now).2 := by
  rw [MindMap.remove_last_icon]
  split
  · exact invariant_update_keep h v _ (fun n => rfl) (fun n => rfl) (fun n => rfl)
  · exact h

theorem invariant_select_node {t : MindMap} (h : Invariant t) (v : Nat) :
    Invariant (MindMap.select_node t v).2 := by
  rw [MindMap.select_node]
  split
  · exact ⟨h.1, h.2⟩
  · exact h

theorem Desc.trans {m : NodeMap} {a b x : Nat} (h1 : Desc m a b)
    (h2 : Desc m b x) : Desc m a x := by
  induction h2 with
  | refl => exact h1
  | step u c n hd hf hc ih => exact Desc.step u c n ih hf hc

theorem desc_le {m : NodeMap}
    (hedge : ∀ u n c, NodeMap.find? m u = some n → c ∈ n.children → u < c)
    {a b : Nat} (h : Desc m a b) : a ≤ b := by
  induction h with
  | refl => exact le_refl a
  | step u c n hd hf hc ih =>
    have := hedge u n c hf hc
    omega

theorem desc_bottom {m : NodeMap} {a x : Nat} (h : Desc m a x) :
    a = x ∨ ∃ u n, Desc m a u ∧ NodeMap.find? m u = some n ∧ x ∈ n.children := by
  cases h with
  | refl => exact Or.inl rfl
  | step u c n hd hf hc => exact Or.inr ⟨u, n, hd, hf, hc⟩

theorem desc_top {m : NodeMap} {a x : Nat} (h : Desc m a x) :
    a = x ∨ ∃ na c, NodeMap.find? m a = some na ∧ c ∈ na.children ∧
      Desc m c x := by
  induction h with
  | refl => exact Or.inl rfl
  | step u c n hd hf hc ih =>
    rcases ih with rfl | ⟨na, d, hfa, hd2, hdd⟩
    · exact Or.inr ⟨n, c, hf, hc, Desc.refl⟩
    · exact Or.inr ⟨na, d, hfa, hd2, Desc.step u c n hdd hf hc⟩

theorem desc_present {m : NodeMap} {a x : Nat} {na : Node}
    (ha : NodeMap.find? m a = some na)
    (hchild : ∀ u n c, NodeMap.find? m u = some n → c ∈ n.children →
      ∃ w, NodeMap.find? m c = some w ∧ w.parent = some u)
    (h : Desc m a x) : ∃ w, NodeMap.find? m x = some w := by
  induction h with
  | refl => exact ⟨na, ha⟩
  | step u c n hd hf hc ih =>
    rcases hchild u n c hf hc with ⟨w, hw, _⟩
    exact ⟨w, hw⟩

theorem desc_chain {m : NodeMap}
    (hchild : ∀ u n c, NodeMap.find? m u = some n → c ∈ n.children →
      ∃ w, NodeMap.find? m c = some w ∧ w.parent = some u)
    {a b x : Nat} (h1 : Desc m a x) (h2 : Desc m b x) :
    Desc m a b ∨ Desc m b a := by
  induction h2 generalizing a with
  | refl => exact Or.inl h1
  | step u c n hd hf hc ih =>
    rcases desc_bottom h1 with he | ⟨u2, n2, hd2, hf2, hc2⟩
    · exact Or.inr (by rw [he]; exact Desc.step u c n hd hf hc)
    · rcases hchild u n c hf hc with ⟨w, hw, hwp⟩
      rcases hchild u2 n2 c hf2 hc2 with ⟨w2, hw2, hwp2⟩
      rw [hw] at hw2
      have hww : w2 = w := (Option.some.inj hw2).symm
      rw [hww, hwp] at hwp2
      have huu : u2 = u := (Option.some.inj hwp2).symm
      rw [huu] at hd2
      exact ih hd2

theorem collectRemove_spec {M : NodeMap}
    (hedge : ∀ u n c, NodeMap.find? M u = some n → c ∈ n.children → u < c)
    (hchild : ∀ u n c, NodeMap.find? M u = some n → c ∈ n.children →
      ∃ w, NodeMap.find? M c = some w ∧ w.parent = some u)
    (hnodup : ∀ u n, NodeMap.find? M u = some n → n.children.Nodup) :
    ∀ (fuel : Nat) (Q : List Nat),
    (∀ q ∈ Q, ∃ n, NodeMap.find? M q = some n) →
    Q.Nodup →
    (∀ q1, q1 ∈ Q → ∀ q2, q2 ∈ Q → ∀ x, ¬ q1 = q2 →
      Desc M q1 x → Desc M q2 x → False) →
    Set.ncard {u | u ∈ NodeMap.keys M ∧ ∃ q ∈ Q, Desc M q u} ≤ fuel →
    (collectRemove M fuel Q).Nodup ∧
    (∀ u, u ∈ collectRemove M fuel Q ↔ ∃ q ∈ Q, Desc M q u) := by
  have hSfin : ∀ (Q : List Nat),
      Set.Finite {u | u ∈ NodeMap.keys M ∧ ∃ q ∈ Q, Desc M q u} :=
    fun Q => Set.Finite.subset (NodeMap.keys M).finite_toSet (fun u hu => hu.1)
  have hkeymem : ∀ {q nq}, NodeMap.find? M q = some nq → q ∈ NodeMap.keys M :=
    fun hq => mem_keys_of_mem (find?_some_mem hq)
  intro fuel
  induction fuel with
  | zero =>
    intro Q hpres hQnd hdisj hfuel
    have hempty : {u | u ∈ NodeMap.keys M ∧ ∃ q ∈ Q, Desc M q u} = ∅ :=
      (Set.ncard_eq_zero (hSfin Q)).mp (Nat.le_zero.mp hfuel)
    refine ⟨List.nodup_nil, ?_⟩
    intro u
    rw [show collectRemove M 0 Q = [] from rfl]
    simp only [List.not_mem_nil, false_iff]
    rintro ⟨q, hq, hd⟩
    rcases hpres q hq with ⟨nq, hnq⟩
    rcases desc_present hnq hchild hd with ⟨w, hw⟩
    have : u ∈ ({} : Set Nat) := by
      rw [← hempty]
      exact ⟨hkeymem hw, q, hq, hd⟩
    cases this
  | succ fuel ih =>
    intro Q hpres hQnd hdisj hfuel
    cases Q with
    | nil =>
      refine ⟨List.nodup_nil, ?_⟩
      intro u
      rw [show collectRemove M (fuel + 1) [] = [] from rfl]
      simp
    | cons q rest =>
      rcases hpres q (List.mem_cons_self q rest) with ⟨nq, hnq⟩
      have hcoll : collectRemove M (fuel + 1) (q :: rest) =
          q :: collectRemove M fuel (rest ++ nq.children) := by
        rw [collectRemove, hnq]
      have hqrest : ¬ q ∈ rest := (List.nodup_cons.mp hQnd).1
      have hrestnd : rest.Nodup := (List.nodup_cons.mp hQnd).2
      have hdescq : ∀ c ∈ nq.children, Desc M q c := by
        intro c hc
        exact Desc.step q c nq Desc.refl hnq hc
      have hsib : ∀ c1 c2, c1 ∈ nq.children → c2 ∈ nq.children →
          Desc M c1 c2 → c1 = c2 := by
        intro c1 c2 hc1 hc2 hd
        rcases desc_bottom hd with he | ⟨u2, n2, hd2, hf2, hc2b⟩
        · exact he
        · rcases hchild u2 n2 c2 hf2 hc2b with ⟨w, hw, hwp⟩
          rcases hchild q nq c2 hnq hc2 with ⟨w2, hw2, hwp2⟩
          rw [hw] at hw2
          have hww : w = w2 := Option.some.inj hw2
          rw [hww, hwp2] at hwp
          have huq : u2 = q := (Option.some.inj hwp).symm
          rw [huq] at hd2
          have h1 : c1 ≤ q := desc_le hedge hd2
          have h2 : q < c1 := hedge q nq c1 hnq hc1
          omega
      have hkidq : ∀ x, x ∈ nq.children → Desc M q x → x ∈ nq.children → True :=
        fun _ _ _ _ => trivial
      have hnotq : ∀ q', q' ∈ rest ++ nq.children → ¬ Desc M q' q := by
        intro q' hq' hd
        rcases List.mem_append.mp hq' with hr | hk
        · exact hdisj q' (List.mem_cons_of_mem _ hr) q (List.mem_cons_self q rest)
            q (fun e => hqrest (e ▸ hr)) hd Desc.refl
        · have h1 : q' ≤ q := desc_le hedge hd
          have h2 : q < q' := hedge q nq q' hnq hk
          omega
      have hpres2 : ∀ q' ∈ rest ++ nq.children, ∃ n, NodeMap.find? M q' = some n := by
        intro q' hq'
        rcases List.mem_append.mp hq' with hr | hk
        · exact hpres q' (List.mem_cons_of_mem _ hr)
        · rcases hchild q nq q' hnq hk with ⟨w, hw, _⟩
          exact ⟨w, hw⟩
      have hnd2 : (rest ++ nq.children).Nodup := by
        rw [List.nodup_append]
        refine ⟨hrestnd, hnodup q nq hnq, ?_⟩
        intro a ha hb
        exact hdisj q (List.mem_cons_self q rest) a (List.mem_cons_of_mem _ ha) a
          (fun e => hqrest (e ▸ ha)) (hdescq a hb) Desc.refl
      have hdisj2 : ∀ q1, q1 ∈ rest ++ nq.children → ∀ q2, q2 ∈ rest ++ nq.children →
          ∀ x, ¬ q1 = q2 → Desc M q1 x → Desc M q2 x → False := by
        intro q1 hq1 q2 hq2 x hne hd1 hd2
        rcases List.mem_append.mp hq1 with hr1 | hk1 <;>
          rcases List.mem_append.mp hq2 with hr2 | hk2
        · exact hdisj q1 (List.mem_cons_of_mem _ hr1) q2 (List.mem_cons_of_mem _ hr2)
            x hne hd1 hd2
        · have hd2q : Desc M q x := Desc.trans (hdescq q2 hk2) hd2
          exact hdisj q1 (List.mem_cons_of_mem _ hr1) q (List.mem_cons_self q rest)
            x (fun e => hqrest (e ▸ hr1)) hd1 hd2q
        · have hd1q : Desc M q x := Desc.trans (hdescq q1 hk1) hd1
          exact hdisj q (List.mem_cons_self q rest) q2 (List.mem_cons_of_mem _ hr2)
            x (fun e => hqrest (e.symm ▸ hr2)) hd1q hd2
        · rcases desc_chain hchild hd1 hd2 with hc | hc
          · exact hne (hsib q1 q2 hk1 hk2 hc)
          · exact hne (hsib q2 q1 hk2 hk1 hc).symm
      have hmeas : Set.ncard {u | u ∈ NodeMap.keys M ∧
          ∃ q' ∈ rest ++ nq.children, Desc M q' u} ≤ fuel := by
        have hsub : {u | u ∈ NodeMap.keys M ∧ ∃ q' ∈ rest ++ nq.children, Desc M q' u} ⊆
            {u | u ∈ NodeMap.keys M ∧ ∃ q' ∈ q :: rest, Desc M q' u} := by
          rintro u ⟨hu, q', hq', hd⟩
          rcases List.mem_append.mp hq' with hr | hk
          · exact ⟨hu, q', List.mem_cons_of_mem _ hr, hd⟩
          · exact ⟨hu, q, List.mem_cons_self q rest, Desc.trans (hdescq q' hk) hd⟩
        have hqin : q ∈ {u | u ∈ NodeMap.keys M ∧ ∃ q' ∈ q :: rest, Desc M q' u} :=
          ⟨hkeymem hnq, q, List.mem_cons_self q rest, Desc.refl⟩
        have hqout : ¬ q ∈ {u | u ∈ NodeMap.keys M ∧
            ∃ q' ∈ rest ++ nq.children, Desc M q' u} := by
          rintro ⟨_, q', hq', hd⟩
          exact hnotq q' hq' hd
        have hss : {u | u ∈ NodeMap.keys M ∧ ∃ q' ∈ rest ++ nq.children, Desc M q' u} ⊂
            {u | u ∈ NodeMap.keys M ∧ ∃ q' ∈ q :: rest, Desc M q' u} :=
          ⟨hsub, fun hback => hqout (hback hqin)⟩
        have := Set.ncard_lt_ncard hss (hSfin (q :: rest))
        omega
      rcases ih (rest ++ nq.children) hpres2 hnd2 hdisj2 hmeas with ⟨ihnd, ihmem⟩
      rw [hcoll]
      constructor
      · rw [List.nodup_cons]
        refine ⟨?_, ihnd⟩
        intro hmem
        rcases (ihmem q).mp hmem with ⟨q', hq', hd⟩
        exact hnotq q' hq' hd
      · intro u
        rw [List.mem_cons, ihmem u]
        constructor
        · rintro (rfl | ⟨q', hq', hd⟩)
          · exact ⟨u, List.mem_cons_self u rest, Desc.refl⟩
          · rcases List.mem_append.mp hq' with hr | hk
            · exact ⟨q', List.mem_cons_of_mem _ hr, hd⟩
            · exact ⟨q, List.mem_cons_self q rest, Desc.trans (hdescq q' hk) hd⟩
        · rintro ⟨q', hq', hd⟩
          rcases List.mem_cons.mp hq' with rfl | hr
          · rcases desc_top hd with he | ⟨na, c, hfa, hcm, hdc⟩
            · exact Or.inl he.symm
            · rw [hnq] at hfa
              have hna : nq = na := Option.some.inj hfa
              refine Or.inr ⟨c, List.mem_append.mpr (Or.inr ?_), hdc⟩
              rw [hna]
              exact hcm
          · exact Or.inr ⟨q', List.mem_append.mpr (Or.inl hr), hd⟩

theorem remove_node_eq {t : MindMap} {v : Nat} {node : Node}
    (hv : NodeMap.find? t.nodes v = some node) (hvroot : ¬ v = t.root_id)
    {p : Nat} (hpar : node.parent = some p) :
    MindMap.remove_node t v =
      (Except.ok (), { t with nodes := removedMap t v p }) := by
  rw [MindMap.remove_node, if_neg hvroot, hv]
  show (match node.parent with
    | none => (Except.error "Node has no parent", t)
    | some parent_id =>
      let nodes1 := NodeMap.update t.nodes parent_id
        (fun n => { n with children := n.children.filter (fun id => id != v) })
      let to_remove := collectRemove nodes1 t.nodes.length [v]
      let nodes2 := to_remove.foldl (fun acc id => NodeMap.eraseKey acc id) nodes1
      (Except.ok (), { t with nodes := nodes2 })) = _
  rw [hpar]
  rfl

theorem remove_core {t : MindMap} (h : Invariant t) {v : Nat} {node : Node}
    (hv : NodeMap.find? t.nodes v = some node) (hvroot : ¬ v = t.root_id)
    {p : Nat} (hpar : node.parent = some p) :
    (∀ u, u ∈ removeList t v p ↔ Desc t.nodes v u) ∧
    (removeList t v p).Nodup ∧
    Invariant { t with nodes := removedMap t v p } ∧
    (removedMap t v p).length + (removeList t v p).length = t.nodes.length ∧
    (∀ k n, NodeMap.find? (removedMap t v p) k = some n →
      ∀ c ∈ n.children, ¬ c ∈ removeList t v p) ∧
    (∀ u, u ∈ NodeMap.keys (removedMap t v p) ↔
      (u ∈ NodeMap.keys t.nodes ∧ ¬ u ∈ removeList t v p)) := by
  obtain ⟨hOK, hlt⟩ := h
  have hF := findOK_of_mapOK hOK
  have hedgeM : ∀ u n c, NodeMap.find? t.nodes u = some n → c ∈ n.children →
      u < c := by
    intro u n c hu hc
    rcases (contains_iff_find? _ _).mp (hF.childMem u n hu c hc) with ⟨w, hw⟩
    exact hF.parentLt c w u hw ((hF.bidir u n c w hu hw).mp hc)
  have hchildM : ∀ u n c, NodeMap.find? t.nodes u = some n → c ∈ n.children →
      ∃ w, NodeMap.find? t.nodes c = some w ∧ w.parent = some u := by
    intro u n c hu hc
    rcases (contains_iff_find? _ _).mp (hF.childMem u n hu c hc) with ⟨w, hw⟩
    exact ⟨w, hw, (hF.bidir u n c w hu hw).mp hc⟩
  rcases (contains_iff_find? _ _).mp (hF.parentMem v node p hv hpar) with ⟨pn, hp⟩
  have hpv : p < v := hF.parentLt v node p hv hpar
  have hvp : ¬ v = p := by omega
  have hpvne : ¬ p = v := by omega
  set pd : Node := { pn with children := pn.children.filter (fun id => id != v) }
    with hpd
  have hfind1 : ∀ j, NodeMap.find? (detachMap t v p) j =
      if j = p then some pd else NodeMap.find? t.nodes j := by
    intro j
    rw [detachMap, find?_update]
    by_cases hj : j = p
    · rw [if_pos hj, if_pos hj, hj, hp]
      rfl
    · rw [if_neg hj, if_neg hj]
  have hpdmem : ∀ c, c ∈ pd.children ↔ (c ∈ pn.children ∧ ¬ c = v) := by
    intro c
    show c ∈ pn.children.filter (fun id => id != v) ↔ _
    rw [List.mem_filter]
    simp [bne_iff_ne]
  have hm1sub : ∀ {u n}, NodeMap.find? (detachMap t v p) u = some n →
      ∃ n0, NodeMap.find? t.nodes u = some n0 ∧
        (∀ x, x ∈ n.children → x ∈ n0.children) ∧ n.parent = n0.parent := by
    intro u n hu
    rw [hfind1 u] at hu
    by_cases hup : u = p
    · rw [if_pos hup] at hu
      cases hu
      refine ⟨pn, by rw [hup]; exact hp, ?_, rfl⟩
      intro x hx
      exact ((hpdmem x).mp hx).1
    · rw [if_neg hup] at hu
      exact ⟨n, hu, fun x hx => hx, rfl⟩
  have hedge1 : ∀ u n c, NodeMap.find? (detachMap t v p) u = some n →
      c ∈ n.children → u < c := by
    intro u n c hu hc
    rcases hm1sub hu with ⟨n0, hu0, hsub, _⟩
    exact hedgeM u n0 c hu0 (hsub c hc)
  have hchild1 : ∀ u n c, NodeMap.find? (detachMap t v p) u = some n →
      c ∈ n.children →
      ∃ w, NodeMap.find? (detachMap t v p) c = some w ∧ w.parent = some u := by
    intro u n c hu hc
    rcases hm1sub hu with ⟨n0, hu0, hsub, _⟩
    rcases hchildM u n0 c hu0 (hsub c hc) with ⟨w, hw, hwp⟩
    rw [hfind1 c]
    by_cases hcp : c = p
    · refine ⟨pd, by rw [if_pos hcp], ?_⟩
      show pn.parent = some u
      have hwpn : w = pn := by
        rw [hcp, hp] at hw
        exact (Option.some.inj hw).symm
      rw [← hwpn]
      exact hwp
    · exact ⟨w, by rw [if_neg hcp]; exact hw, hwp⟩
  have hnodup1 : ∀ u n, NodeMap.find? (detachMap t v p) u = some n →
      n.children.Nodup := by
    intro u n hu
    rw [hfind1 u] at hu
    by_cases hup : u = p
    · rw [if_pos hup] at hu
      cases hu
      exact (hF.childNodup p pn hp).filter _
    · rw [if_neg hup] at hu
      exact hF.childNodup u n hu
  have hdesc10 : ∀ {b}, Desc (detachMap t v p) v b → Desc t.nodes v b := by
    intro b hd
    induction hd with
    | refl => exact Desc.refl
    | step u c n hdu hf hc ih =>
      rcases hm1sub hf with ⟨n0, hf0, hsub, _⟩
      exact Desc.step u c n0 ih hf0 (hsub c hc)
  have hdesc01 : ∀ {b}, Desc t.nodes v b → Desc (detachMap t v p) v b := by
    intro b hd
    induction hd with
    | refl => exact Desc.refl
    | step u c n hdu hf hc ih =>
      have hup : ¬ u = p := by
        have h1 : v ≤ u := desc_le hedgeM hdu
        omega
      refine Desc.step u c n ih ?_ hc
      rw [hfind1 u, if_neg hup]
      exact hf
  have hv1 : NodeMap.find? (detachMap t v p) v = some node := by
    rw [hfind1 v, if_neg hvp]
    exact hv
  have hkeys1 : NodeMap.keys (detachMap t v p) = NodeMap.keys t.nodes := by
    rw [detachMap, keys_update]
  have hmeas : Set.ncard {u | u ∈ NodeMap.keys (detachMap t v p) ∧
      ∃ q ∈ [v], Desc (detachMap t v p) q u} ≤ t.nodes.length := by
    have h1 : {u | u ∈ NodeMap.keys (detachMap t v p) ∧
        ∃ q ∈ [v], Desc (detachMap t v p) q u} ⊆
        {u | u ∈ NodeMap.keys (detachMap t v p)} := fun u hu => hu.1
    have h2 := Set.ncard_le_ncard h1 (NodeMap.keys (detachMap t v p)).finite_toSet
    have h3 : Set.ncard {u | u ∈ NodeMap.keys (detachMap t v p)} ≤
        t.nodes.length := by
      rw [← List.coe_toFinset, Set.ncard_coe_Finset]
      have h4 := (NodeMap.keys (detachMap t v p)).toFinset_card_le
      have h5 : (NodeMap.keys (detachMap t v p)).length = t.nodes.length := by
        rw [hkeys1]
        simp [NodeMap.keys]
      omega
    omega
  have hbfs := collectRemove_spec hedge1 hchild1 hnodup1 t.nodes.length [v]
    (by
      intro q hq
      rw [List.mem_singleton] at hq
      rw [hq]
      exact ⟨node, hv1⟩)
    (List.nodup_singleton v)
    (by
      intro q1 hq1 q2 hq2 x hne hd1 hd2
      rw [List.mem_singleton] at hq1 hq2
      rw [hq1, hq2] at hne
      exact hne rfl)
    hmeas
  have hLnd : (removeList t v p).Nodup := hbfs.1
  have hLdesc : ∀ u, u ∈ removeList t v p ↔ Desc t.nodes v u := by
    intro u
    rw [removeList, hbfs.2 u]
    constructor
    · rintro ⟨q, hq, hd⟩
      rw [List.mem_singleton] at hq
      rw [hq] at hd
      exact hdesc10 hd
    · intro hd
      exact ⟨v, List.mem_singleton.mpr rfl, hdesc01 hd⟩
  have hvL : v ∈ removeList t v p := (hLdesc v).mpr Desc.refl
  have hpL : ¬ p ∈ removeList t v p := by
    intro hm
    have := desc_le hedgeM ((hLdesc p).mp hm)
    omega
  have hrootL : ¬ t.root_id ∈ removeList t v p := by
    intro hm
    rcases desc_bottom ((hLdesc _).mp hm) with he | ⟨u, n, _, hf, hc⟩
    · exact hvroot he
    · rcases hchildM u n _ hf hc with ⟨w, hw, hwp⟩
      rcases (contains_iff_find? _ _).mp hF.rootMem with ⟨rn, hrn⟩
      have hrw : w = rn := by
        rw [hrn] at hw
        exact (Option.some.inj hw).symm
      rw [hrw, hF.rootParent rn hrn] at hwp
      cases hwp
  have hsurvchild : ∀ k n c, ¬ k ∈ removeList t v p →
      NodeMap.find? t.nodes k = some n → c ∈ n.children → ¬ c = v →
      ¬ c ∈ removeList t v p := by
    intro k n c hkL hk hc hcv hcL
    rcases desc_bottom ((hLdesc c).mp hcL) with he | ⟨u, n2, hdu, hf2, hc2⟩
    · exact hcv he.symm
    · rcases hchildM u n2 c hf2 hc2 with ⟨w, hw, hwp⟩
      rcases hchildM k n c hk hc with ⟨w2, hw2, hwp2⟩
      rw [hw] at hw2
      have hww : w = w2 := Option.some.inj hw2
      rw [hww, hwp2] at hwp
      have hku : u = k := (Option.some.inj hwp).symm
      have huL : u ∈ removeList t v p := (hLdesc u).mpr hdu
      rw [hku] at huL
      exact hkL huL
  have hvchild_p : ∀ k n, NodeMap.find? t.nodes k = some n → v ∈ n.children →
      k = p := by
    intro k n hk hc
    rcases hchildM k n v hk hc with ⟨w, hw, hwp⟩
    have hwn : w = node := by
      rw [hv] at hw
      exact (Option.some.inj hw).symm
    rw [hwn, hpar] at hwp
    exact (Option.some.inj hwp).symm
  have hsurvpar : ∀ k n q, ¬ k ∈ removeList t v p →
      NodeMap.find? t.nodes k = some n → n.parent = some q →
      ¬ q ∈ removeList t v p := by
    intro k n q hkL hk hq hqL
    rcases (contains_iff_find? _ _).mp (hF.parentMem k n q hk hq) with ⟨qn, hqn⟩
    have hkch : k ∈ qn.children := (hF.bidir q qn k n hqn hk).mpr hq
    have hdk : Desc t.nodes v k :=
      Desc.step q k qn ((hLdesc q).mp hqL) hqn hkch
    exact hkL ((hLdesc k).mpr hdk)
  have hfind3 : ∀ j, NodeMap.find? (removedMap t v p) j =
      if j ∈ removeList t v p then none
      else NodeMap.find? (detachMap t v p) j := by
    intro j
    rw [removedMap]
    exact find?_foldl_eraseKey _ _ j
  have hclass2 : ∀ {j n}, NodeMap.find? (removedMap t v p) j = some n →
      ¬ j ∈ removeList t v p ∧
      ((j = p ∧ n = pd) ∨ (¬ j = p ∧ NodeMap.find? t.nodes j = some n)) := by
    intro j n hj
    rw [hfind3 j] at hj
    by_cases hjL : j ∈ removeList t v p
    · rw [if_pos hjL] at hj
      cases hj
    · rw [if_neg hjL, hfind1 j] at hj
      refine ⟨hjL, ?_⟩
      by_cases hjp : j = p
      · rw [if_pos hjp] at hj
        exact Or.inl ⟨hjp, (Option.some.inj hj).symm⟩
      · rw [if_neg hjp] at hj
        exact Or.inr ⟨hjp, hj⟩
  have hmem2 : ∀ j, ¬ j ∈ removeList t v p → j ∈ NodeMap.keys t.nodes →
      ∃ w, NodeMap.find? (removedMap t v p) j = some w := by
    intro j hjL hjk
    rw [hfind3 j, if_neg hjL, hfind1 j]
    by_cases hjp : j = p
    · exact ⟨pd, by rw [if_pos hjp]⟩
    · rcases (contains_iff_find? _ _).mp ((contains_iff_mem_keys _ _).mpr hjk)
        with ⟨w, hw⟩
      exact ⟨w, by rw [if_neg hjp]; exact hw⟩
  have hcong := @chainB_congr_on t.nodes (removedMap t v p) t.root_id
    (fun j => j ∈ NodeMap.keys t.nodes ∧ ¬ j ∈ removeList t v p)
    (by
      intro j hj
      rw [hfind3 j, if_neg hj.2, hfind1 j]
      by_cases hjp : j = p
      · rw [if_pos hjp, hjp, hp]
        rfl
      · rw [if_neg hjp])
    (by
      intro j nj q hj hfj hq
      exact ⟨(contains_iff_mem_keys _ _).mp (hF.parentMem j nj q hfj hq),
        hsurvpar j nj q hj.2 hfj hq⟩)
  have hOK2 : FindOK t.root_id (removedMap t v p) := by
    refine ⟨?_, ?_, ?_, ?_, ?_, ?_, ?_, ?_, ?_, ?_⟩
    · rw [contains_iff_find?]
      exact hmem2 t.root_id hrootL ((contains_iff_mem_keys _ _).mp hF.rootMem)
    · intro k n hfk
      rcases hclass2 hfk with ⟨hkL, ⟨e1, e2⟩ | ⟨e1, hold⟩⟩
      · rw [e1, e2]
        show pn.id = p
        exact hF.idMatch p pn hp
      · exact hF.idMatch k n hold
    · intro n hfk
      rcases hclass2 hfk with ⟨hkL, ⟨e1, e2⟩ | ⟨e1, hold⟩⟩
      · rw [e2]
        show pn.parent = none
        exact hF.rootParent pn (by rw [e1]; exact hp)
      · exact hF.rootParent n hold
    · intro k n hfk hpn
      rcases hclass2 hfk with ⟨hkL, ⟨e1, e2⟩ | ⟨e1, hold⟩⟩
      · rw [e2] at hpn
        rw [e1]
        exact hF.onlyRoot p pn hp hpn
      · exact hF.onlyRoot k n hold hpn
    · intro k n hfk c hc
      rcases hclass2 hfk with ⟨hkL, hcase⟩
      rw [contains_iff_find?]
      rcases hcase with ⟨e1, e2⟩ | ⟨e1, hold⟩
      · rw [e2] at hc
        rcases (hpdmem c).mp hc with ⟨hcm, hcv⟩
        have hcL : ¬ c ∈ removeList t v p := hsurvchild p pn c hpL hp hcm hcv
        exact hmem2 c hcL
          ((contains_iff_mem_keys _ _).mp (hF.childMem p pn hp c hcm))
      · have hcv : ¬ c = v := by
          intro e
          rw [e] at hc
          exact e1 (hvchild_p k n hold hc)
        have hcL : ¬ c ∈ removeList t v p := hsurvchild k n c hkL hold hc hcv
        exact hmem2 c hcL
          ((contains_iff_mem_keys _ _).mp (hF.childMem k n hold c hc))
    · intro k n q hfk hq
      rcases hclass2 hfk with ⟨hkL, ⟨e1, e2⟩ | ⟨e1, hold⟩⟩
      · rw [e2] at hq
        have hq0 : pn.parent = some q := hq
        exact (contains_iff_find? _ _).mpr
          (hmem2 q (hsurvpar p pn q hpL hp hq0)
            ((contains_iff_mem_keys _ _).mp (hF.parentMem p pn q hp hq0)))
      · exact (contains_iff_find? _ _).mpr
          (hmem2 q (hsurvpar k n q hkL hold hq)
            ((contains_iff_mem_keys _ _).mp (hF.parentMem k n q hold hq)))
    · intro k n hfk
      rcases hclass2 hfk with ⟨hkL, ⟨e1, e2⟩ | ⟨e1, hold⟩⟩
      · rw [e2]
        exact (hF.childNodup p pn hp).filter _
      · exact hF.childNodup k n hold
    · intro k n c w hfk hfc
      rcases hclass2 hfk with ⟨hkL, hkcase⟩
      rcases hclass2 hfc with ⟨hcL, hccase⟩
      have hcv : ¬ c = v := by
        intro e
        rw [e] at hcL
        exact hcL hvL
      rcases hkcase with ⟨e1, e2⟩ | ⟨e1, hkold⟩ <;>
        rcases hccase with ⟨g1, g2⟩ | ⟨g1, hcold⟩
      · rw [e1, e2, g1, g2]
        show p ∈ pd.children ↔ pd.parent = some p
        rw [hpdmem p]
        show p ∈ pn.children ∧ ¬ p = v ↔ pn.parent = some p
        simp only [hpvne, not_false_iff, and_true]
        exact hF.bidir p pn p pn hp hp
      · rw [e1, e2]
        show c ∈ pd.children ↔ w.parent = some p
        rw [hpdmem c]
        simp only [hcv, not_false_iff, and_true]
        exact hF.bidir p pn c w hp hcold
      · rw [g1, g2]
        show p ∈ n.children ↔ pd.parent = some k
        show p ∈ n.children ↔ pn.parent = some k
        exact hF.bidir k n p pn hkold hp
      · exact hF.bidir k n c w hkold hcold
    · intro k n q hfk hq
      rcases hclass2 hfk with ⟨hkL, ⟨e1, e2⟩ | ⟨e1, hold⟩⟩
      · rw [e2] at hq
        rw [e1]
        exact hF.parentLt p pn q hp hq
      · exact hF.parentLt k n q hold hq
    · intro k n hfk
      rcases hclass2 hfk with ⟨hkL, hkcase⟩
      have hkk : k ∈ NodeMap.keys t.nodes := by
        rcases hkcase with ⟨e1, _⟩ | ⟨_, hold⟩
        · rw [e1]
          exact mem_keys_of_mem (find?_some_mem hp)
        · exact mem_keys_of_mem (find?_some_mem hold)
      rw [← hcong (k + 1) k ⟨hkk, hkL⟩]
      rcases hkcase with ⟨e1, _⟩ | ⟨_, hold⟩
      · rw [e1]
        exact hF.upChain p pn hp
      · exact hF.upChain k n hold
  have hnd1 : (NodeMap.keys (detachMap t v p)).Nodup := by
    rw [hkeys1]
    exact hOK.keysNodup
  have hnd2 : (NodeMap.keys (removedMap t v p)).Nodup := by
    rw [removedMap]
    exact keys_nodup_foldl_eraseKey _ _ hnd1
  have hinv2 : Invariant { t with nodes := removedMap t v p } := by
    refine ⟨mapOK_of_findOK hnd2 hOK2, ?_⟩
    intro kv hkv
    have hkv1 : kv ∈ detachMap t v p := by
      rw [show ({ t with nodes := removedMap t v p } : MindMap).nodes =
        removedMap t v p from rfl, removedMap] at hkv
      exact ((mem_foldl_eraseKey _ _ kv).mp hkv).1
    rcases (mem_update_iff _ _ _ kv).mp hkv1 with ⟨kv0, h0, he⟩
    have hk1 : kv.1 = kv0.1 := by
      by_cases hk : kv0.1 = p
      · rw [if_pos hk] at he
        rw [← he]
      · rw [if_neg hk] at he
        rw [← he]
    show kv.1 < t.next_id
    rw [hk1]
    exact hlt kv0 h0
  have hlen1 : (detachMap t v p).length = t.nodes.length := by
    rw [detachMap, length_update]
  have hlen : (removedMap t v p).length + (removeList t v p).length =
      t.nodes.length := by
    have hmain := length_foldl_eraseKey (removeList t v p) (detachMap t v p)
      hnd1 hLnd
      (by
        intro a ha
        have hda : Desc (detachMap t v p) v a := hdesc01 ((hLdesc a).mp ha)
        rcases desc_present hv1 hchild1 hda with ⟨w, hw⟩
        exact mem_keys_of_mem (find?_some_mem hw))
    rw [hlen1] at hmain
    rw [removedMap]
    exact hmain
  have hnochild : ∀ k n, NodeMap.find? (removedMap t v p) k = some n →
      ∀ c ∈ n.children, ¬ c ∈ removeList t v p := by
    intro k n hfk c hc
    rcases hclass2 hfk with ⟨hkL, ⟨e1, e2⟩ | ⟨e1, hold⟩⟩
    · rw [e2] at hc
      rcases (hpdmem c).mp hc with ⟨hcm, hcv⟩
      exact hsurvchild p pn c hpL hp hcm hcv
    · have hcv : ¬ c = v := by
        intro e
        rw [e] at hc
        exact e1 (hvchild_p k n hold hc)
      exact hsurvchild k n c hkL hold hc hcv
  have hkeys3 : ∀ u, u ∈ NodeMap.keys (removedMap t v p) ↔
      (u ∈ NodeMap.keys t.nodes ∧ ¬ u ∈ removeList t v p) := by
    intro u
    constructor
    · intro hu
      rcases (contains_iff_find? _ _).mp ((contains_iff_mem_keys _ _).mpr hu)
        with ⟨w, hw⟩
      rcases hclass2 hw with ⟨huL, hcase⟩
      refine ⟨?_, huL⟩
      rcases hcase with ⟨e1, _⟩ | ⟨_, hold⟩
      · rw [e1]
        exact mem_keys_of_mem (find?_some_mem hp)
      · exact mem_keys_of_mem (find?_some_mem hold)
    · rintro ⟨hu, huL⟩
      rcases hmem2 u huL hu with ⟨w, hw⟩
      exact (contains_iff_mem_keys _ _).mp ((contains_iff_find? _ _).mpr ⟨w, hw⟩)
  exact ⟨hLdesc, hLnd, hinv2, hlen, hnochild, hkeys3⟩

theorem invariant_remove_node {t : MindMap} (h : Invariant t) (v : Nat) :
    Invariant (MindMap.remove_node t v).2 := by
  rw [MindMap.remove_node]
  split
  · exact h
  · rename_i hvroot
    split
    · exact h
    · rename_i node hv
      split
      · exact h
      · rename_i p hpar
        exact (remove_core h hv hvroot hpar).2.2.1

theorem invariant_runOp {t : MindMap} (h : Invariant t) (op : Op) :
    Invariant (runOp op t).1 := by
  cases op with
  | addChild p c now => exact invariant_add_child h p c now
  | addSibling v c now => exact invariant_add_sibling h v c now
  | setContent v c now => exact invariant_change_node h v c now
  | removeOp v => exact invariant_remove_node h v
  | addIcon v i now => exact invariant_add_icon h v i now
  | removeLastIcon v now => exact invariant_remove_last_icon h v now
  | selectOp v => exact invariant_select_node h v

theorem reachable_invariant {t : MindMap} (h : Reachable t) : Invariant t := by
  induction h with
  | base now => exact invariant_new now
  | step t0 op h0 hsucc ih => exact invariant_runOp ih op

theorem add_child_error (t : MindMap) (p : Nat) (c : String) (now : Nat) :
    isOk (MindMap.add_child t p c now).1 = false →
    (MindMap.add_child t p c now).2 = t := by
  rw [MindMap.add_child]
  split
  · intro _
    rfl
  · intro hfail
    exact absurd hfail (by simp [isOk])

theorem add_sibling_error (t : MindMap) (v : Nat) (c : String) (now : Nat) :
    isOk (MindMap.add_sibling t v c now).1 = false →
    (MindMap.add_sibling t v c now).2 = t := by
  rw [MindMap.add_sibling]
  split
  · intro _
    rfl
  · split
    · intro _
      rfl
    · split
      · intro _
        rfl
      · intro hfail
        exact absurd hfail (by simp [isOk])

theorem change_node_error (t : MindMap) (v : Nat) (c : String) (now : Nat) :
    isOk (MindMap.change_node t v c now).1 = false →
    (MindMap.change_node t v c now).2 = t := by
  rw [MindMap.change_node]
  split
  · intro hfail
    exact absurd hfail (by simp [isOk])
  · intro _
    rfl

theorem remove_node_error (t : MindMap) (v : Nat) :
    isOk (MindMap.remove_node t v).1 = false →
    (MindMap.remove_node t v).2 = t := by
  rw [MindMap.remove_node]
  split
  · intro _
    rfl
  · split
    · intro _
      rfl
    · split
      · intro _
        rfl
      · intro hfail
        exact absurd hfail (by simp [isOk])

theorem add_icon_error (t : MindMap) (v : Nat) (i : String) (now : Nat) :
    isOk (MindMap.add_icon t v i now).1 = false →
    (MindMap.add_icon t v i now).2 = t := by
  rw [MindMap.add_icon]
  split
  · intro hfail
    exact absurd hfail (by simp [isOk])
  · intro _
    rfl

theorem remove_last_icon_error (t : MindMap) (v : Nat) (now : Nat) :
    isOk (MindMap.remove_last_icon t v now).1 = false →
    (MindMap.remove_last_icon t v now).2 = t := by
  rw [MindMap.remove_last_icon]
  split
  · intro hfail
    exact absurd hfail (by simp [isOk])
  · intro _
    rfl

theorem select_node_error (t : MindMap) (v : Nat) :
    isOk (MindMap.select_node t v).1 = false →
    (MindMap.select_node t v).2 = t := by
  rw [MindMap.select_node]
  split
  · intro hfail
    exact absurd hfail (by simp [isOk])
  · intro _
    rfl

theorem runOp_error_eq (op : Op) (t : MindMap) :
    (runOp op t).2 = false → (runOp op t).1 = t := by
  cases op with
  | addChild p c now => exact add_child_error t p c now
  | addSibling v c now => exact add_sibling_error t v c now
  | setContent v c now => exact change_node_error t v c now
  | removeOp v => exact remove_node_error t v
  | addIcon v i now => exact add_icon_error t v i now
  | removeLastIcon v now => exact remove_last_icon_error t v now
  | selectOp v => exact select_node_error t v

theorem findIdx?_beq_of_mem {l : List Nat} {a : Nat} (h : a ∈ l) :
    l.findIdx? (fun x => x == a) = some (l.indexOf a) := by
  rw [List.findIdx?_eq_some_iff_findIdx_eq]
  exact ⟨List.indexOf_lt_length.mpr h, rfl⟩

theorem findIdx?_beq_of_not_mem {l : List Nat} {a : Nat} (h : ¬ a ∈ l) :
    l.findIdx? (fun x => x == a) = none := by
  rw [List.findIdx?_eq_none_iff]
  intro x hx
  simp only [beq_eq_false_iff_ne, ne_eq]
  intro e
  rw [e] at hx
  exact h hx

theorem navigate_right_eq (t : MindMap) :
    MindMap.navigate t Navigation.right =
      (match (match NodeMap.find? t.nodes t.selected_node_id with
        | some node => node.children.head?
        | none => none : Option Nat) with
      | some id => { t with selected_node_id := id }
      | none => t) := rfl

theorem navigate_left_eq (t : MindMap) :
    MindMap.navigate t Navigation.left =
      (match (match NodeMap.find? t.nodes t.selected_node_id with
        | some node => node.parent
        | none => none : Option Nat) with
      | some id => { t with selected_node_id := id }
      | none => t) := rfl

theorem navigate_down_eq (t : MindMap) :
    MindMap.navigate t Navigation.down =
      (match (match NodeMap.find? t.nodes t.selected_node_id with
        | some node =>
          match node.parent with
          | some parent_id =>
            match NodeMap.find? t.nodes parent_id with
            | some parent =>
              match parent.children.findIdx? (fun id => id == t.selected_node_id) with
              | some pos =>
                if pos + 1 < parent.children.length then
                  parent.children.get? (pos + 1)
                else none
              | none => none
            | none => none
          | none => none
        | none => none : Option Nat) with
      | some id => { t with selected_node_id := id }
      | none => t) := rfl

theorem navigate_up_eq (t : MindMap) :
    MindMap.navigate t Navigation.up =
      (match (match NodeMap.find? t.nodes t.selected_node_id with
        | some node =>
          match node.parent with
          | some parent_id =>
            match NodeMap.find? t.nodes parent_id with
            | some parent =>
              match parent.children.findIdx? (fun id => id == t.selected_node_id) with
              | some pos =>
                if 0 < pos then parent.children.get? (pos - 1)
                else none
              | none => none
            | none => none
          | none => none
        | none => none : Option Nat) with
      | some id => { t with selected_node_id := id }
      | none => t) := rfl

theorem navigate_dangling_eq {t : MindMap}
    (hd : NodeMap.find? t.nodes t.selected_node_id = none) (d : Navigation) :
    MindMap.navigate t d = t := by
  cases d
  · rw [navigate_up_eq, hd]
  · rw [navigate_down_eq, hd]
  · rw [navigate_left_eq, hd]
  · rw [navigate_right_eq, hd]

theorem navigate_behavior {t : MindMap} (h : Invariant t) {n : Node}
    (hsel : NodeMap.find? t.nodes t.selected_node_id = some n) :
    (∀ c, n.children.head? = some c →
      MindMap.navigate t Navigation.right = { t with selected_node_id := c }) ∧
    (n.children = [] → MindMap.navigate t Navigation.right = t) ∧
    (∀ q, n.parent = some q →
      MindMap.navigate t Navigation.left = { t with selected_node_id := q }) ∧
    (n.parent = none → MindMap.navigate t Navigation.left = t) ∧
    (n.parent = none → MindMap.navigate t Navigation.down = t) ∧
    (n.parent = none → MindMap.navigate t Navigation.up = t) ∧
    (∀ q qn, n.parent = some q → NodeMap.find? t.nodes q = some qn →
      ((qn.children.indexOf t.selected_node_id + 1 < qn.children.length →
        ∀ z, qn.children.get? (qn.children.indexOf t.selected_node_id + 1) = some z →
        MindMap.navigate t Navigation.down = { t with selected_node_id := z }) ∧
      (¬ qn.children.indexOf t.selected_node_id + 1 < qn.children.length →
        MindMap.navigate t Navigation.down = t) ∧
      (0 < qn.children.indexOf t.selected_node_id →
        ∀ z, qn.children.get? (qn.children.indexOf t.selected_node_id - 1) = some z →
        MindMap.navigate t Navigation.up = { t with selected_node_id := z }) ∧
      (qn.children.indexOf t.selected_node_id = 0 →
        MindMap.navigate t Navigation.up = t))) := by
  have hF := findOK_of_mapOK h.1
  refine ⟨?_, ?_, ?_, ?_, ?_, ?_, ?_⟩
  · intro c hc
    simp only [navigate_right_eq, hsel, hc]
  · intro hc
    simp only [navigate_right_eq, hsel, hc, List.head?_nil]
  · intro q hq
    simp only [navigate_left_eq, hsel, hq]
  · intro hq
    simp only [navigate_left_eq, hsel, hq]
  · intro hq
    simp only [navigate_down_eq, hsel, hq]
  · intro hq
    simp only [navigate_up_eq, hsel, hq]
  · intro q qn hq hqn
    have hmem : t.selected_node_id ∈ qn.children :=
      (hF.bidir q qn t.selected_node_id n hqn hsel).mpr hq
    have hidx := findIdx?_beq_of_mem hmem
    refine ⟨?_, ?_, ?_, ?_⟩
    · intro hlt z hz
      simp only [navigate_down_eq, hsel, hq, hqn, hidx, if_pos hlt, hz]
    · intro hlt
      simp only [navigate_down_eq, hsel, hq, hqn, hidx, if_neg hlt]
    · intro hpos z hz
      simp only [navigate_up_eq, hsel, hq, hqn, hidx, if_pos hpos, hz]
    · intro hzero
      simp only [navigate_up_eq, hsel, hq, hqn, hidx,
        if_neg (show ¬ 0 < qn.children.indexOf t.selected_node_id by omega)]

theorem add_sibling_eq {t : MindMap} {v : Nat} {node : Node}
    (hvroot : ¬ v = t.root_id)
    (hv : NodeMap.find? t.nodes v = some node)
    {p : Nat} (hpar : node.parent = some p) (c : String) (now : Nat) :
    MindMap.add_sibling t v c now =
      (Except.ok t.next_id,
        { t with nodes := siblingMap t v p c now, next_id := t.next_id + 1 }) := by
  rw [MindMap.add_sibling, if_neg hvroot, hv]
  show (match node.parent with
    | none => (Except.error "Node has no parent", t)
    | some parent_id =>
      let new_id := t.next_id
      let new_node : Node :=
        { id := new_id, content := c, children := [], parent := some parent_id,
          x := 0, y := 0, created := now, modified := now, icons := [] }
      let nodes1 := NodeMap.insert t.nodes new_id new_node
      let nodes2 := NodeMap.update nodes1 parent_id (fun n =>
        match n.children.findIdx? (fun id => id == v) with
        | some pos => { n with children := n.children.insertIdx (pos + 1) new_id }
        | none => { n with children := n.children ++ [new_id] })
      (Except.ok new_id, { t with nodes := nodes2, next_id := t.next_id + 1 })) = _
  rw [hpar]
  rfl

theorem add_sibling_core {t : MindMap} {v : Nat} {node : Node}
    (hfresh : ∀ kv ∈ t.nodes, kv.1 < t.next_id)
    (hvroot : ¬ v = t.root_id)
    (hv : NodeMap.find? t.nodes v = some node)
    {p : Nat} (hpar : node.parent = some p)
    {pn : Node} (hp : NodeMap.find? t.nodes p = some pn)
    (c : String) (now : Nat) :
    (MindMap.add_sibling t v c now).1 = Except.ok t.next_id ∧
    NodeMap.find? (MindMap.add_sibling t v c now).2.nodes t.next_id =
      some { id := t.next_id, content := c, children := [], parent := some p,
             x := 0, y := 0, created := now, modified := now, icons := [] } ∧
    (v ∈ pn.children →
      NodeMap.find? (MindMap.add_sibling t v c now).2.nodes p =
        some { pn with children :=
                 pn.children.insertIdx (pn.children.indexOf v + 1) t.next_id }) ∧
    (¬ v ∈ pn.children →
      NodeMap.find? (MindMap.add_sibling t v c now).2.nodes p =
        some { pn with children := pn.children ++ [t.next_id] }) := by
  have hpk : p < t.next_id := hfresh (p, pn) (find?_some_mem hp)
  have hvk : v < t.next_id := hfresh (v, node) (find?_some_mem hv)
  have hpne : ¬ p = t.next_id := by omega
  have heq := add_sibling_eq hvroot hv hpar c now
  refine ⟨by rw [heq], ?_, ?_, ?_⟩
  · rw [heq]
    show NodeMap.find? (siblingMap t v p c now) t.next_id = _
    rw [siblingMap, find?_update, if_neg (fun e => hpne (Eq.symm e)),
      find?_insert, if_pos rfl]
  · intro hmem
    rw [heq]
    show NodeMap.find? (siblingMap t v p c now) p = _
    rw [siblingMap, find?_update, if_pos rfl, find?_insert, if_neg hpne, hp]
    simp only [Option.map_some']
    rw [findIdx?_beq_of_mem hmem]
  · intro hmem
    rw [heq]
    show NodeMap.find? (siblingMap t v p c now) p = _
    rw [siblingMap, find?_update, if_pos rfl, find?_insert, if_neg hpne, hp]
    simp only [Option.map_some']
    rw [findIdx?_beq_of_not_mem hmem]

theorem get?_insertIdx_self {l : List Nat} {a : Nat} {i : Nat}
    (h : i ≤ l.length) : (l.insertIdx i a).get? i = some a := by
  have hlen : (l.insertIdx i a).length = l.length + 1 :=
    List.length_insertIdx i l h
  rw [List.get?_eq_getElem?, List.getElem?_eq_getElem (by omega)]
  simp [List.getElem_insertIdx_self l a i h]

/-- C1: the spec requires that after remove the cursor selected_id is always
a valid key of nodes, reassigned when it pointed into the removed subtree.
The source violates this: on the concrete tree with root 0 and selected
child 1, remove_node 1 succeeds yet leaves selected_node_id = 1, which is no
longer a key of the store — the dangling-cursor defect the spec itself
flags as an open question. -/
theorem c1_remove_dangling_cursor :
    isOk (MindMap.remove_node (MindMap.select_node T1 1).2 1).1 = true ∧
    Tdang.selected_node_id = 1 ∧
    NodeMap.contains Tdang.nodes 1 = false := by decide

/-- C2: every tree reachable from Tree creation by a sequence of successful
operations (add_child, add_sibling, set_content, remove, add_icon,
remove_last_icon, select) satisfies the structural invariants, bundled in
Invariant: every id referenced as a child, as a parent or as root_id is a
key of nodes; children lists are duplicate-free and bidirectionally
consistent with the parent links; the parent/child graph is a
single-rooted connected acyclic tree (only root_id lacks a parent, every
parent id precedes its child, and every parent chain reaches root_id). -/
theorem c2_invariants_hold (t : MindMap) (h : Reachable t) : Invariant t :=
  reachable_invariant h

theorem c2_invariants_hold_witness :
    Invariant (runOp (Op.addChild 0 "a" 5) (MindMap.new 3)).1 :=
  c2_invariants_hold _
    (Reachable.step (MindMap.new 3) (Op.addChild 0 "a" 5)
      (Reachable.base 3) (by decide))

/-- C3: on a well-formed tree, removing a non-root node v with a recorded
parent succeeds and deletes exactly v together with its descendants
(membership in the swept list removeList coincides with the descendant
relation Desc, the list has no duplicates and contains v, so the store
shrinks by exactly N + 1 where N is the number of proper descendants);
every other node survives, and no removed id remains in the children list
of any surviving node. -/
theorem c3_remove_cascades {t : MindMap} (h : Invariant t) {v : Nat}
    {node : Node} (hv : NodeMap.find? t.nodes v = some node)
    (hvroot : ¬ v = t.root_id) {p : Nat} (hpar : node.parent = some p) :
    MindMap.remove_node t v =
      (Except.ok (), { t with nodes := removedMap t v p }) ∧
    (∀ u, u ∈ removeList t v p ↔ Desc t.nodes v u) ∧
    v ∈ removeList t v p ∧
    (removeList t v p).Nodup ∧
    (removedMap t v p).length + (removeList t v p).length = t.nodes.length ∧
    (∀ u, u ∈ NodeMap.keys (removedMap t v p) ↔
      (u ∈ NodeMap.keys t.nodes ∧ ¬ u ∈ removeList t v p)) ∧
    (∀ k n, NodeMap.find? (removedMap t v p) k = some n →
      ∀ c ∈ n.children, ¬ c ∈ removeList t v p) := by
  have hc := remove_core h hv hvroot hpar
  exact ⟨remove_node_eq hv hvroot hpar, hc.1, (hc.1 v).mpr Desc.refl, hc.2.1,
    hc.2.2.2.1, hc.2.2.2.2.2, hc.2.2.2.2.1⟩

theorem c3_remove_cascades_witness :
    MindMap.remove_node T2 1 =
      (Except.ok (), { T2 with nodes := removedMap T2 1 0 }) ∧
    (removedMap T2 1 0).length + (removeList T2 1 0).length =
      T2.nodes.length ∧
    1 ∈ removeList T2 1 0 ∧ 2 ∈ removeList T2 1 0 := by
  have happ := @c3_remove_cascades T2 (by decide) 1
    { id := 1, content := "", children := [2], parent := some 0,
      x := 0, y := 0, created := 0, modified := 0, icons := [] }
    rfl (by decide) 0 rfl
  exact ⟨happ.1, happ.2.2.2.2.1, (happ.2.1 1).mpr Desc.refl,
    (happ.2.1 2).mpr (Desc.step 1 2
      { id := 1, content := "", children := [2], parent := some 0,
        x := 0, y := 0, created := 0, modified := 0, icons := [] }
      Desc.refl rfl (by decide))⟩

/-- C4: on a store with a fresh id counter, add_sibling on a non-root node v
whose parent P is present succeeds with the fresh id, creates the new node
with parent P, and inserts the new id immediately after v in the children
list of P (insertIdx at position k + 1 when v sits at index k, so the new
id becomes the (k+1)-th entry and all other children keep their relative
order); when v is defensively absent from that children list, the new id is
appended at the end instead. -/
theorem c4_sibling_order {t : MindMap} {v : Nat} {node : Node}
    (hfresh : ∀ kv ∈ t.nodes, kv.1 < t.next_id)
    (hvroot : ¬ v = t.root_id)
    (hv : NodeMap.find? t.nodes v = some node)
    {p : Nat} (hpar : node.parent = some p)
    {pn : Node} (hp : NodeMap.find? t.nodes p = some pn)
    (c : String) (now : Nat) :
    (MindMap.add_sibling t v c now).1 = Except.ok t.next_id ∧
    NodeMap.find? (MindMap.add_sibling t v c now).2.nodes t.next_id =
      some { id := t.next_id, content := c, children := [], parent := some p,
             x := 0, y := 0, created := now, modified := now, icons := [] } ∧
    (v ∈ pn.children →
      NodeMap.find? (MindMap.add_sibling t v c now).2.nodes p =
        some { pn with children :=
                 pn.children.insertIdx (pn.children.indexOf v + 1) t.next_id } ∧
      (pn.children.insertIdx (pn.children.indexOf v + 1) t.next_id).get?
        (pn.children.indexOf v + 1) = some t.next_id) ∧
    (¬ v ∈ pn.children →
      NodeMap.find? (MindMap.add_sibling t v c now).2.nodes p =
        some { pn with children := pn.children ++ [t.next_id] }) := by
  have hc := add_sibling_core hfresh hvroot hv hpar hp c now
  refine ⟨hc.1, hc.2.1, ?_, hc.2.2.2⟩
  intro hmem
  refine ⟨hc.2.2.1 hmem, ?_⟩
  refine get?_insertIdx_self ?_
  have := List.indexOf_lt_length.mpr hmem
  omega

theorem c4_sibling_order_witness :
    NodeMap.find? (MindMap.add_sibling T1 1 "" 0).2.nodes 0 =
      some { id := 0, content := "Central Node", children := [1, 2],
             parent := none, x := 0, y := 0, created := 0, modified := 0,
             icons := [] } ∧
    NodeMap.find? (MindMap.add_sibling Tfb 1 "" 0).2.nodes 0 =
      some { id := 0, content := "", children := [2], parent := none,
             x := 0, y := 0, created := 0, modified := 0, icons := [] } := by
  have happ1 := @c4_sibling_order T1 1
    { id := 1, content := "", children := [], parent := some 0,
      x := 0, y := 0, created := 0, modified := 0, icons := [] }
    (by decide) (by decide) rfl 0 rfl
    { id := 0, content := "Central Node", children := [1], parent := none,
      x := 0, y := 0, created := 0, modified := 0, icons := [] }
    rfl "" 0
  have happ2 := @c4_sibling_order Tfb 1
    { id := 1, content := "", children := [], parent := some 0,
      x := 0, y := 0, created := 0, modified := 0, icons := [] }
    (by decide) (by decide) rfl 0 rfl
    { id := 0, content := "", children := [], parent := none,
      x := 0, y := 0, created := 0, modified := 0, icons := [] }
    rfl "" 0
  exact ⟨(happ1.2.2.1 (by decide)).1, happ2.2.2.2 (by decide)⟩

/-- C8: on a tree satisfying the invariants whose cursor points at a stored
node n, navigate behaves exactly as specified: Right moves to the first
child of n when n has children; Left moves to the parent of n when n has
one; Down moves to the sibling at the position after n in the children of
its parent when n has a parent and is not the last sibling; Up moves to
the sibling at the position before n when n has a parent and is not the
first sibling; and in every other case (no children for Right, no parent
for Left, Up, Down, first or last sibling for Up or Down) the whole tree,
cursor included, is left unchanged — no wraparound and no error. -/
theorem c8_navigation {t : MindMap} (h : Invariant t) {n : Node}
    (hsel : NodeMap.find? t.nodes t.selected_node_id = some n) :
    (∀ c, n.children.head? = some c →
      MindMap.navigate t Navigation.right = { t with selected_node_id := c }) ∧
    (n.children = [] → MindMap.navigate t Navigation.right = t) ∧
    (∀ q, n.parent = some q →
      MindMap.navigate t Navigation.left = { t with selected_node_id := q }) ∧
    (n.parent = none → MindMap.navigate t Navigation.left = t) ∧
    (n.parent = none → MindMap.navigate t Navigation.down = t) ∧
    (n.parent = none → MindMap.navigate t Navigation.up = t) ∧
    (∀ q qn, n.parent = some q → NodeMap.find? t.nodes q = some qn →
      ((qn.children.indexOf t.selected_node_id + 1 < qn.children.length →
        ∀ z, qn.children.get? (qn.children.indexOf t.selected_node_id + 1) =
          some z →
        MindMap.navigate t Navigation.down = { t with selected_node_id := z }) ∧
      (¬ qn.children.indexOf t.selected_node_id + 1 < qn.children.length →
        MindMap.navigate t Navigation.down = t) ∧
      (0 < qn.children.indexOf t.selected_node_id →
        ∀ z, qn.children.get? (qn.children.indexOf t.selected_node_id - 1) =
          some z →
        MindMap.navigate t Navigation.up = { t with selected_node_id := z }) ∧
      (qn.children.indexOf t.selected_node_id = 0 →
        MindMap.navigate t Navigation.up = t))) :=
  navigate_behavior h hsel

theorem c8_navigation_witness :
    MindMap.navigate Tnav Navigation.right =
      { Tnav with selected_node_id := 1 } ∧
    MindMap.navigate TnavSel Navigation.down =
      { TnavSel with selected_node_id := 2 } := by
  have happ1 := @c8_navigation Tnav (by decide)
    { id := 0, content := "Central Node", children := [1, 2], parent := none,
      x := 0, y := 0, created := 0, modified := 0, icons := [] }
    rfl
  have happ2 := @c8_navigation TnavSel (by decide)
    { id := 1, content := "", children := [], parent := some 0,
      x := 0, y := 0, created := 0, modified := 0, icons := [] }
    rfl
  refine ⟨happ1.1 1 rfl, ?_⟩
  exact (happ2.2.2.2.2.2.2 0
    { id := 0, content := "Central Node", children := [1, 2], parent := none,
      x := 0, y := 0, created := 0, modified := 0, icons := [] }
    rfl rfl).1 (by decide) 2 (by decide)

/-- C9: every mutating operation is atomic on failure: whenever an
operation reports an error, the full tree state (nodes, root_id,
selected_node_id and the id counter) at return is exactly the state at
entry. -/
theorem c9_failed_ops_atomic (op : Op) (t : MindMap) :
    (runOp op t).2 = false → (runOp op t).1 = t :=
  runOp_error_eq op t

theorem c9_failed_ops_atomic_witness :
    (runOp (Op.removeOp 0) T0).2 = false ∧ (runOp (Op.removeOp 0) T0).1 = T0 :=
  ⟨by decide, c9_failed_ops_atomic (Op.removeOp 0) T0 (by decide)⟩

/-- C10: navigate is total — modelled as a plain function, it returns on
every input — and when the cursor is dangling (selected_node_id is not a
key of nodes, the state reachable after removing the selected subtree)
every direction leaves the entire tree, cursor included, unchanged. -/
theorem c10_navigate_dangling {t : MindMap}
    (hd : NodeMap.find? t.nodes t.selected_node_id = none) (d : Navigation) :
    MindMap.navigate t d = t :=
  navigate_dangling_eq hd d

theorem c10_navigate_dangling_witness :
    MindMap.navigate Tdang Navigation.up = Tdang ∧
    MindMap.navigate Tdang Navigation.down = Tdang ∧
    MindMap.navigate Tdang Navigation.left = Tdang ∧
    MindMap.navigate Tdang Navigation.right = Tdang :=
  ⟨c10_navigate_dangling (by decide) Navigation.up,
   c10_navigate_dangling (by decide) Navigation.down,
   c10_navigate_dangling (by decide) Navigation.left,
   c10_navigate_dangling (by decide) Navigation.right⟩

theorem layout_node_zero (t : MindMap) (k : Nat) (x sy : Rat) :
    MindMap.layout_node t 0 k x sy = (t, 0) := by
  rw [MindMap.layout_node]

theorem layout_children_nil (t : MindMap) (fuel : Nat) (cx cy : Rat) :
    MindMap.layout_children t fuel [] cx cy = (t, cy) := by
  rw [MindMap.layout_children]

theorem layout_children_cons (t : MindMap) (fuel : Nat) (c : Nat)
    (rest : List Nat) (cx cy : Rat) :
    MindMap.layout_children t fuel (c :: rest) cx cy =
      MindMap.layout_children (MindMap.layout_node t fuel c cx cy).1 fuel rest
        cx (cy + (MindMap.layout_node t fuel c cx cy).2) := by
  rw [MindMap.layout_children]

theorem layout_node_succ (t : MindMap) (fuel : Nat) (k : Nat) (x sy : Rat) :
    MindMap.layout_node t (fuel + 1) k x sy =
      (match NodeMap.find? t.nodes k with
      | none => (t, 0)
      | some node =>
        if node.children.isEmpty then
          let m2 := NodeMap.update t.nodes k (fun n => { n with x := x, y := sy })
          ({ t with nodes := m2 }, 50)
        else
          let res := MindMap.layout_children t fuel node.children
            (x + nodeWidth node + 50) sy
          let m2 := NodeMap.update res.1.nodes k
            (fun n => { n with x := x, y := sy + (res.2 - sy) / 2 })
          ({ res.1 with nodes := m2 }, res.2 - sy)) := by
  rw [MindMap.layout_node]

theorem structProj_update {m : NodeMap} {k : Nat} {f : Node → Node}
    (hf : ∀ n, Node.struct (f n) = Node.struct n) :
    structProj (NodeMap.update m k f) = structProj m := by
  induction m with
  | nil => rfl
  | cons kv rest ih =>
    show structProj ((if kv.1 = k then (kv.1, f kv.2) else kv) ::
      NodeMap.update rest k f) = structProj (kv :: rest)
    rw [structProj, List.map_cons, structProj, List.map_cons]
    have h2 : structProj (NodeMap.update rest k f) = structProj rest := ih
    rw [structProj] at h2
    rw [h2]
    by_cases hk : kv.1 = k
    · rw [if_pos hk, hf kv.2]
      rfl
    · rw [if_neg hk]
      rfl

theorem keys_eq_of_structProj {m m' : NodeMap}
    (h : structProj m = structProj m') : NodeMap.keys m = NodeMap.keys m' := by
  have h1 : (structProj m).map Prod.fst = (structProj m').map Prod.fst := by
    rw [h]
  rw [structProj, structProj, List.map_map, List.map_map] at h1
  exact h1

theorem find?_struct_congr {m m' : NodeMap}
    (h : structProj m = structProj m') (j : Nat) :
    (NodeMap.find? m j).map Node.struct =
      (NodeMap.find? m' j).map Node.struct := by
  induction m generalizing m' with
  | nil =>
    cases m' with
    | nil => rfl
    | cons kv rest => exact absurd h (by simp [structProj])
  | cons kv rest ih =>
    cases m' with
    | nil => exact absurd h (by simp [structProj])
    | cons kv' rest' =>
      obtain ⟨a, n⟩ := kv
      obtain ⟨a', n'⟩ := kv'
      simp only [structProj, List.map_cons, List.cons.injEq, Prod.mk.injEq] at h
      obtain ⟨⟨hk, hs⟩, hrest⟩ := h
      rw [NodeMap.find?, NodeMap.find?]
      by_cases hj : a = j
      · rw [if_pos hj, if_pos (by rw [← hk]; exact hj)]
        simp only [Option.map_some']
        rw [hs]
      · rw [if_neg hj, if_neg (by rw [← hk]; exact hj)]
        exact ih (by rw [structProj, structProj]; exact hrest)

theorem find?_struct_transfer {m m' : NodeMap}
    (h : structProj m = structProj m') {j : Nat} {n : Node}
    (hj : NodeMap.find? m j = some n) :
    ∃ n', NodeMap.find? m' j = some n' ∧ Node.struct n' = Node.struct n := by
  have hc := find?_struct_congr h j
  rw [hj] at hc
  cases hf : NodeMap.find? m' j with
  | none => rw [hf] at hc; exact absurd hc (by simp)
  | some n' =>
    rw [hf] at hc
    simp only [Option.map_some'] at hc
    exact ⟨n', rfl, (Option.some.inj hc).symm⟩

theorem desc_congr {m m' : NodeMap} (h : structProj m = structProj m')
    {a b : Nat} (hd : Desc m a b) : Desc m' a b := by
  induction hd with
  | refl => exact Desc.refl
  | step u c n hdu hf hc ih =>
    rcases find?_struct_transfer h hf with ⟨n', hf', hs⟩
    refine Desc.step u c n' ih hf' ?_
    have : n'.children = n.children := congrArg NodeStruct.children hs
    rw [this]
    exact hc

theorem subtreeH_congr {m m' : NodeMap} (h : structProj m = structProj m') :
    ∀ fuel k, subtreeH m fuel k = subtreeH m' fuel k := by
  intro fuel
  induction fuel with
  | zero => intro k; rfl
  | succ f ih =>
    intro k
    rw [subtreeH, subtreeH]
    cases hf : NodeMap.find? m k with
    | none =>
      have hc := find?_struct_congr h k
      rw [hf] at hc
      cases hf' : NodeMap.find? m' k with
      | none => rfl
      | some n' => rw [hf'] at hc; exact absurd hc (by simp)
    | some n =>
      rcases find?_struct_transfer h hf with ⟨n', hf', hs⟩
      rw [hf']
      show (if n.children.isEmpty then (50 : Rat)
          else (n.children.map (fun c => subtreeH m f c)).sum) =
        (if n'.children.isEmpty then (50 : Rat)
          else (n'.children.map (fun c => subtreeH m' f c)).sum)
      have hch : n'.children = n.children := congrArg NodeStruct.children hs
      rw [hch]
      by_cases he : n.children.isEmpty
      · rw [if_pos he, if_pos he]
      · rw [if_neg he, if_neg he]
        simp only [ih]

theorem layout_struct (fuel : Nat) :
    (∀ t k x sy,
      structProj (MindMap.layout_node t fuel k x sy).1.nodes =
        structProj t.nodes ∧
      (MindMap.layout_node t fuel k x sy).1.root_id = t.root_id ∧
      (MindMap.layout_node t fuel k x sy).1.selected_node_id =
        t.selected_node_id ∧
      (MindMap.layout_node t fuel k x sy).1.next_id = t.next_id) ∧
    (∀ cs t cx cy,
      structProj (MindMap.layout_children t fuel cs cx cy).1.nodes =
        structProj t.nodes ∧
      (MindMap.layout_children t fuel cs cx cy).1.root_id = t.root_id ∧
      (MindMap.layout_children t fuel cs cx cy).1.selected_node_id =
        t.selected_node_id ∧
      (MindMap.layout_children t fuel cs cx cy).1.next_id = t.next_id) := by
  induction fuel with
  | zero =>
    constructor
    · intro t k x sy
      rw [layout_node_zero]
      exact ⟨rfl, rfl, rfl, rfl⟩
    · intro cs
      induction cs with
      | nil =>
        intro t cx cy
        rw [layout_children_nil]
        exact ⟨rfl, rfl, rfl, rfl⟩
      | cons c rest ihc =>
        intro t cx cy
        rw [layout_children_cons, layout_node_zero]
        exact ihc t cx (cy + 0)
  | succ f ih =>
    have hnode : ∀ t k x sy,
        structProj (MindMap.layout_node t (f + 1) k x sy).1.nodes =
          structProj t.nodes ∧
        (MindMap.layout_node t (f + 1) k x sy).1.root_id = t.root_id ∧
        (MindMap.layout_node t (f + 1) k x sy).1.selected_node_id =
          t.selected_node_id ∧
        (MindMap.layout_node t (f + 1) k x sy).1.next_id = t.next_id := by
      intro t k x sy
      cases hf : NodeMap.find? t.nodes k with
      | none =>
        simp only [layout_node_succ, hf]
        refine ⟨?_, ?_, ?_, ?_⟩ <;> trivial
      | some node =>
        by_cases he : node.children.isEmpty
        · simp only [layout_node_succ, hf, he, if_true]
          refine ⟨?_, ?_, ?_, ?_⟩
          · exact structProj_update (fun n => rfl)
          · trivial
          · trivial
          · trivial
        · have he2 : node.children.isEmpty = false := by
            simpa using he
          simp only [layout_node_succ, hf, he2, Bool.false_eq_true, if_false]
          have hch := ih.2 node.children t (x + nodeWidth node + 50) sy
          refine ⟨?_, ?_, ?_, ?_⟩
          · rw [show structProj (NodeMap.update (MindMap.layout_children t f
                node.children (x + nodeWidth node + 50) sy).1.nodes k
                (fun n => { n with x := x, y := sy +
                  ((MindMap.layout_children t f node.children
                    (x + nodeWidth node + 50) sy).2 - sy) / 2 })) =
              structProj (MindMap.layout_children t f node.children
                (x + nodeWidth node + 50) sy).1.nodes
              from structProj_update (fun n => rfl)]
            exact hch.1
          · exact hch.2.1
          · exact hch.2.2.1
          · exact hch.2.2.2
    refine ⟨hnode, ?_⟩
    intro cs
    induction cs with
    | nil =>
      intro t cx cy
      rw [layout_children_nil]
      exact ⟨rfl, rfl, rfl, rfl⟩
    | cons c rest ihc =>
      intro t cx cy
      rw [layout_children_cons]
      have h1 := hnode t c cx cy
      have h2 := ihc (MindMap.layout_node t (f + 1) c cx cy).1 cx
        (cy + (MindMap.layout_node t (f + 1) c cx cy).2)
      refine ⟨?_, ?_, ?_, ?_⟩
      · rw [h2.1, h1.1]
      · rw [h2.2.1, h1.2.1]
      · rw [h2.2.2.1, h1.2.2.1]
      · rw [h2.2.2.2, h1.2.2.2]

theorem layout_height (fuel : Nat) :
    (∀ t k x sy, (MindMap.layout_node t fuel k x sy).2 =
      subtreeH t.nodes fuel k) ∧
    (∀ cs t cx cy, (MindMap.layout_children t fuel cs cx cy).2 =
      cy + (cs.map (fun c => subtreeH t.nodes fuel c)).sum) := by
  induction fuel with
  | zero =>
    constructor
    · intro t k x sy
      rw [layout_node_zero, subtreeH]
    · intro cs
      induction cs with
      | nil =>
        intro t cx cy
        rw [layout_children_nil]
        simp
      | cons c rest ihc =>
        intro t cx cy
        rw [layout_children_cons, layout_node_zero]
        show (MindMap.layout_children t 0 rest cx (cy + 0)).2 = _
        rw [ihc t cx (cy + 0)]
        show cy + 0 + (rest.map (fun c => subtreeH t.nodes 0 c)).sum =
          cy + (subtreeH t.nodes 0 c + (rest.map (fun c => subtreeH t.nodes 0 c)).sum)
        rw [subtreeH]
        ring
  | succ f ih =>
    have hnode : ∀ t k x sy, (MindMap.layout_node t (f + 1) k x sy).2 =
        subtreeH t.nodes (f + 1) k := by
      intro t k x sy
      cases hf : NodeMap.find? t.nodes k with
      | none =>
        simp only [layout_node_succ, hf, subtreeH]
      | some node =>
        by_cases he : node.children.isEmpty
        · simp only [layout_node_succ, hf, he, if_true, subtreeH]
        · have he2 : node.children.isEmpty = false := by simpa using he
          simp only [layout_node_succ, hf, he2, Bool.false_eq_true, if_false,
            subtreeH]
          rw [ih.2 node.children t (x + nodeWidth node + 50) sy]
          ring
    refine ⟨hnode, ?_⟩
    intro cs
    induction cs with
    | nil =>
      intro t cx cy
      rw [layout_children_nil]
      simp
    | cons c rest ihc =>
      intro t cx cy
      rw [layout_children_cons]
      rw [ihc (MindMap.layout_node t (f + 1) c cx cy).1 cx
        (cy + (MindMap.layout_node t (f + 1) c cx cy).2)]
      rw [hnode t c cx cy]
      have hstruct := (layout_struct (f + 1)).1 t c cx cy
      have hcong := subtreeH_congr hstruct.1
      show cy + subtreeH t.nodes (f + 1) c +
        (rest.map (fun d => subtreeH
          (MindMap.layout_node t (f + 1) c cx cy).1.nodes (f + 1) d)).sum =
        cy + (subtreeH t.nodes (f + 1) c +
          (rest.map (fun d => subtreeH t.nodes (f + 1) d)).sum)
    
      have hmap : rest.map (fun d => subtreeH
          (MindMap.layout_node t (f + 1) c cx cy).1.nodes (f + 1) d) =
          rest.map (fun d => subtreeH t.nodes (f + 1) d) := by
        apply List.map_congr_left
        intro d _
        exact hcong (f + 1) d
      rw [hmap]
      ring

theorem layoutOK_of_invariant {t : MindMap} (h : Invariant t) :
    LayoutOK t.nodes := by
  have hF := findOK_of_mapOK h.1
  refine ⟨?_, ?_, ?_⟩
  · intro u n c hu hc
    rcases (contains_iff_find? _ _).mp (hF.childMem u n hu c hc) with ⟨w, hw⟩
    exact hF.parentLt c w u hw ((hF.bidir u n c w hu hw).mp hc)
  · intro u n c hu hc
    rcases (contains_iff_find? _ _).mp (hF.childMem u n hu c hc) with ⟨w, hw⟩
    exact ⟨w, hw, (hF.bidir u n c w hu hw).mp hc⟩
  · intro u n hu
    exact hF.childNodup u n hu

theorem layoutOK_congr {m m' : NodeMap} (h : structProj m = structProj m')
    (hOK : LayoutOK m) : LayoutOK m' := by
  refine ⟨?_, ?_, ?_⟩
  · intro u n c hu hc
    rcases find?_struct_transfer h.symm hu with ⟨n0, hu0, hs⟩
    refine hOK.edge u n0 c hu0 ?_
    rw [show n0.children = n.children from congrArg NodeStruct.children hs]
    exact hc
  · intro u n c hu hc
    rcases find?_struct_transfer h.symm hu with ⟨n0, hu0, hs⟩
    rcases hOK.childp u n0 c hu0 (by
      rw [show n0.children = n.children from congrArg NodeStruct.children hs]
      exact hc) with ⟨w, hw, hwp⟩
    rcases find?_struct_transfer h hw with ⟨w', hw', hs'⟩
    refine ⟨w', hw', ?_⟩
    rw [show w'.parent = w.parent from congrArg NodeStruct.parent hs']
    exact hwp
  · intro u n hu
    rcases find?_struct_transfer h.symm hu with ⟨n0, hu0, hs⟩
    have := hOK.chNodup u n0 hu0
    rw [show n0.children = n.children from congrArg NodeStruct.children hs] at this
    exact this

theorem subtree_measure_lt {m : NodeMap} (hOK : LayoutOK m) {k : Nat}
    {n : Node} {c : Nat} (hk : NodeMap.find? m k = some n)
    (hc : c ∈ n.children) :
    Set.ncard {u | u ∈ NodeMap.keys m ∧ Desc m c u} <
      Set.ncard {u | u ∈ NodeMap.keys m ∧ Desc m k u} := by
  have hfin : Set.Finite {u | u ∈ NodeMap.keys m ∧ Desc m k u} :=
    Set.Finite.subset (NodeMap.keys m).finite_toSet (fun u hu => hu.1)
  refine Set.ncard_lt_ncard ?_ hfin
  constructor
  · rintro u ⟨hu, hd⟩
    exact ⟨hu, Desc.trans (Desc.step k c n Desc.refl hk hc) hd⟩
  · intro hback
    have hkin : k ∈ {u | u ∈ NodeMap.keys m ∧ Desc m k u} :=
      ⟨mem_keys_of_mem (find?_some_mem hk), Desc.refl⟩
    have hkc := hback hkin
    have h1 : c ≤ k := desc_le hOK.edge hkc.2
    have h2 : k < c := hOK.edge k n c hk hc
    omega

theorem subtreeH_zero_of_empty {m : NodeMap}
    (hmeas : Set.ncard {u | u ∈ NodeMap.keys m ∧ Desc m k u} ≤ 0)
    (hk : k ∈ NodeMap.keys m) : False := by
  have hfin : Set.Finite {u | u ∈ NodeMap.keys m ∧ Desc m k u} :=
    Set.Finite.subset (NodeMap.keys m).finite_toSet (fun u hu => hu.1)
  have hempty := (Set.ncard_eq_zero hfin).mp (Nat.le_zero.mp hmeas)
  have : k ∈ {u | u ∈ NodeMap.keys m ∧ Desc m k u} := ⟨hk, Desc.refl⟩
  rw [hempty] at this
  cases this

theorem subtreeH_stable {m : NodeMap} (hOK : LayoutOK m) :
    ∀ fuel1 fuel2 k,
    Set.ncard {u | u ∈ NodeMap.keys m ∧ Desc m k u} ≤ fuel1 →
    Set.ncard {u | u ∈ NodeMap.keys m ∧ Desc m k u} ≤ fuel2 →
    subtreeH m fuel1 k = subtreeH m fuel2 k := by
  intro fuel1
  induction fuel1 with
  | zero =>
    intro fuel2 k h1 h2
    have hnone : NodeMap.find? m k = none := by
      cases hf : NodeMap.find? m k with
      | none => rfl
      | some n =>
        exact absurd hf (fun hf => subtreeH_zero_of_empty h1
          (mem_keys_of_mem (find?_some_mem hf)))
    cases fuel2 with
    | zero => rfl
    | succ f2 =>
      rw [subtreeH, subtreeH, hnone]
  | succ f1 ih =>
    intro fuel2 k h1 h2
    cases hf : NodeMap.find? m k with
    | none =>
      cases fuel2 with
      | zero => rw [subtreeH, subtreeH, hf]
      | succ f2 => rw [subtreeH, subtreeH, hf]
    | some n =>
      cases fuel2 with
      | zero =>
        exact absurd hf (fun hf => subtreeH_zero_of_empty h2
          (mem_keys_of_mem (find?_some_mem hf)))
      | succ f2 =>
        rw [subtreeH, subtreeH, hf]
        show (if n.children.isEmpty then (50 : Rat)
            else (n.children.map (fun c => subtreeH m f1 c)).sum) =
          (if n.children.isEmpty then (50 : Rat)
            else (n.children.map (fun c => subtreeH m f2 c)).sum)
        by_cases he : n.children.isEmpty
        · rw [if_pos he, if_pos he]
        · rw [if_neg he, if_neg he]
          have hmap : n.children.map (fun c => subtreeH m f1 c) =
              n.children.map (fun c => subtreeH m f2 c) := by
            apply List.map_congr_left
            intro c hc
            have hlt := subtree_measure_lt hOK hf hc
            exact ih f2 c (by omega) (by omega)
          rw [hmap]

theorem rat_sum_ge {l : List Rat} (h : ∀ x ∈ l, (50 : Rat) ≤ x)
    (hne : ¬ l = []) : (50 : Rat) ≤ l.sum := by
  cases l with
  | nil => exact absurd rfl hne
  | cons a rest =>
    have h1 : (50 : Rat) ≤ a := h a (List.mem_cons_self a rest)
    have h2 : (0 : Rat) ≤ rest.sum := by
      apply List.sum_nonneg
      intro x hx
      have := h x (List.mem_cons_of_mem _ hx)
      linarith
    rw [List.sum_cons]
    linarith

theorem subtreeH_pos {m : NodeMap} (hOK : LayoutOK m) :
    ∀ fuel k n, NodeMap.find? m k = some n →
    Set.ncard {u | u ∈ NodeMap.keys m ∧ Desc m k u} ≤ fuel →
    (50 : Rat) ≤ subtreeH m fuel k := by
  intro fuel
  induction fuel with
  | zero =>
    intro k n hk hmeas
    exact absurd hk (fun hk => subtreeH_zero_of_empty hmeas
      (mem_keys_of_mem (find?_some_mem hk)))
  | succ f ih =>
    intro k n hk hmeas
    rw [subtreeH, hk]
    show (50 : Rat) ≤ (if n.children.isEmpty then (50 : Rat)
      else (n.children.map (fun c => subtreeH m f c)).sum)
    by_cases he : n.children.isEmpty
    · rw [if_pos he]
    · rw [if_neg he]
      refine rat_sum_ge ?_ (by
        intro hnil
        rw [List.map_eq_nil_iff.mp hnil] at he
        exact he rfl)
      intro x hx
      rcases List.mem_map.mp hx with ⟨c, hc, rfl⟩
      rcases hOK.childp k n c hk hc with ⟨w, hw, _⟩
      have hlt := subtree_measure_lt hOK hk hc
      exact ih c w hw (by omega)

theorem desc_of_chainB {m : NodeMap} {root : Nat}
    (hbid : ∀ k n q, NodeMap.find? m k = some n → n.parent = some q →
      ∃ w, NodeMap.find? m q = some w ∧ k ∈ w.children) :
    ∀ fuel k, chainB m root fuel k = true → Desc m root k := by
  intro fuel
  induction fuel with
  | zero =>
    intro k h
    rw [chainB] at h
    cases h
  | succ f ih =>
    intro k h
    rw [chainB] at h
    by_cases hk : k = root
    · rw [hk]
      exact Desc.refl
    · rw [if_neg hk] at h
      cases hf : NodeMap.find? m k with
      | none => simp [hf] at h
      | some n =>
        simp only [hf] at h
        cases hp : n.parent with
        | none => simp [hp] at h
        | some q =>
          simp only [hp] at h
          rcases hbid k n q hf hp with ⟨w, hw, hkc⟩
          exact Desc.step q k w (ih q h) hw hkc

theorem nodeWidth_set_pos (n : Node) (a b : Rat) :
    nodeWidth { n with x := a, y := b } = nodeWidth n := rfl

theorem nodeWidth_struct {n n' : Node} (h : Node.struct n = Node.struct n') :
    nodeWidth n = nodeWidth n' := by
  rw [nodeWidth, nodeWidth,
    show n.content = n'.content from congrArg NodeStruct.content h,
    show n.icons = n'.icons from congrArg NodeStruct.icons h]

theorem nodeWidth_ge (n : Node) : (100 : Rat) ≤ nodeWidth n :=
  le_max_right _ _

theorem measure_le_length (m : NodeMap) (k : Nat) :
    Set.ncard {u | u ∈ NodeMap.keys m ∧ Desc m k u} ≤ m.length := by
  have h1 : {u | u ∈ NodeMap.keys m ∧ Desc m k u} ⊆
      ↑(NodeMap.keys m).toFinset := by
    intro u hu
    simpa using hu.1
  calc Set.ncard {u | u ∈ NodeMap.keys m ∧ Desc m k u}
      ≤ Set.ncard ↑(NodeMap.keys m).toFinset :=
        Set.ncard_le_ncard h1 (Set.finite_coe_iff.mp (by
          rw [Set.finite_coe_iff]
          exact (NodeMap.keys m).toFinset.finite_toSet))
    _ = (NodeMap.keys m).toFinset.card := Set.ncard_coe_Finset _
    _ ≤ (NodeMap.keys m).length := (NodeMap.keys m).toFinset_card_le
    _ = m.length := List.length_map m Prod.fst

theorem length_eq_of_structProj {m m' : NodeMap}
    (h : structProj m = structProj m') : m.length = m'.length := by
  have := congrArg List.length (keys_eq_of_structProj h)
  rw [NodeMap.keys, NodeMap.keys, List.length_map, List.length_map] at this
  exact this

theorem measure_congr {m m' : NodeMap} (h : structProj m = structProj m')
    (k : Nat) :
    Set.ncard {u | u ∈ NodeMap.keys m ∧ Desc m k u} =
      Set.ncard {u | u ∈ NodeMap.keys m' ∧ Desc m' k u} := by
  have hset : {u | u ∈ NodeMap.keys m ∧ Desc m k u} =
      {u | u ∈ NodeMap.keys m' ∧ Desc m' k u} := by
    ext u
    constructor
    · rintro ⟨h1, h2⟩
      exact ⟨by rw [← keys_eq_of_structProj h]; exact h1, desc_congr h h2⟩
    · rintro ⟨h1, h2⟩
      exact ⟨by rw [keys_eq_of_structProj h]; exact h1, desc_congr h.symm h2⟩
  rw [hset]

theorem subH_congr {m m' : NodeMap} (h : structProj m = structProj m')
    (k : Nat) : subH m k = subH m' k := by
  rw [subH, subH, length_eq_of_structProj h, subtreeH_congr h]

theorem subtreeH_eq_subH {m : NodeMap} (hOK : LayoutOK m) {fuel k : Nat}
    (hmeas : Set.ncard {u | u ∈ NodeMap.keys m ∧ Desc m k u} ≤ fuel) :
    subtreeH m fuel k = subH m k :=
  subtreeH_stable hOK fuel m.length k hmeas (measure_le_length m k)

theorem length_pos_of_find? {m : NodeMap} {k : Nat} {n : Node}
    (h : NodeMap.find? m k = some n) : 0 < m.length :=
  List.length_pos.mpr (List.ne_nil_of_mem (find?_some_mem h))

theorem subH_leaf {m : NodeMap} {k : Nat} {n : Node}
    (h : NodeMap.find? m k = some n) (he : n.children.isEmpty) :
    subH m k = 50 := by
  obtain ⟨L, hL⟩ : ∃ L, m.length = L + 1 :=
    ⟨m.length - 1, by have := length_pos_of_find? h; omega⟩
  rw [subH, hL, subtreeH, h]
  show (if n.children.isEmpty then (50 : Rat)
    else (n.children.map (fun c => subtreeH m L c)).sum) = 50
  rw [if_pos he]

theorem subH_children {m : NodeMap} (hOK : LayoutOK m) {k : Nat} {n : Node}
    (h : NodeMap.find? m k = some n) (he : ¬ n.children.isEmpty) :
    subH m k = (n.children.map (fun c => subH m c)).sum := by
  obtain ⟨L, hL⟩ : ∃ L, m.length = L + 1 :=
    ⟨m.length - 1, by have := length_pos_of_find? h; omega⟩
  rw [subH, hL, subtreeH, h]
  show (if n.children.isEmpty then (50 : Rat)
    else (n.children.map (fun c => subtreeH m L c)).sum) = _
  rw [if_neg he]
  apply congrArg List.sum
  apply List.map_congr_left
  intro c hc
  have hlt := subtree_measure_lt hOK h hc
  have hk := measure_le_length m k
  exact subtreeH_eq_subH hOK (by omega)

theorem subH_pos {m : NodeMap} (hOK : LayoutOK m) {k : Nat} {n : Node}
    (h : NodeMap.find? m k = some n) : (50 : Rat) ≤ subH m k :=
  subtreeH_pos hOK m.length k n h (measure_le_length m k)

theorem sibling_disjoint {m : NodeMap} (hOK : LayoutOK m) {u : Nat} {n : Node}
    (hu : NodeMap.find? m u = some n) {c1 c2 : Nat} (hc1 : c1 ∈ n.children)
    (hc2 : c2 ∈ n.children) (hne : c1 ≠ c2) {j : Nat} (hd1 : Desc m c1 j)
    (hd2 : Desc m c2 j) : False := by
  have hsib : ∀ a b, a ∈ n.children → b ∈ n.children → Desc m a b → a = b := by
    intro a b ha hb hd
    rcases desc_bottom hd with he | ⟨u2, n2, hd2b, hf2, hc2b⟩
    · exact he
    · rcases hOK.childp u2 n2 b hf2 hc2b with ⟨w, hw, hwp⟩
      rcases hOK.childp u n b hu hb with ⟨w2, hw2, hwp2⟩
      rw [hw] at hw2
      have hww : w = w2 := Option.some.inj hw2
      rw [hww, hwp2] at hwp
      have huq : u2 = u := (Option.some.inj hwp).symm
      rw [huq] at hd2b
      have h1 : a ≤ u := desc_le hOK.edge hd2b
      have h2 : u < a := hOK.edge u n a hu ha
      omega
  rcases desc_chain hOK.childp hd1 hd2 with hc | hc
  · exact hne (hsib c1 c2 hc1 hc2 hc)
  · exact hne ((hsib c2 c1 hc2 hc1 hc).symm)

theorem layout_pos (fuel : Nat) :
    (∀ t k x sy, LayoutOK t.nodes →
      (∃ n0, NodeMap.find? t.nodes k = some n0) →
      Set.ncard {u | u ∈ NodeMap.keys t.nodes ∧ Desc t.nodes k u} ≤ fuel →
      layoutNodePost t.nodes (MindMap.layout_node t fuel k x sy).1.nodes
        k x sy) ∧
    (∀ cs t cx cy, LayoutOK t.nodes →
      (∀ c ∈ cs, ∃ w, NodeMap.find? t.nodes c = some w) →
      (∀ c ∈ cs,
        Set.ncard {u | u ∈ NodeMap.keys t.nodes ∧ Desc t.nodes c u} ≤ fuel) →
      cs.Nodup →
      (∀ c1 c2, c1 ∈ cs → c2 ∈ cs → c1 ≠ c2 → ∀ j, Desc t.nodes c1 j →
        Desc t.nodes c2 j → False) →
      layoutChildrenPost t.nodes
        (MindMap.layout_children t fuel cs cx cy).1.nodes cs cx cy) := by
  induction fuel with
  | zero =>
    constructor
    · rintro t k x sy hOK ⟨n0, hk⟩ hmeas
      exact (subtreeH_zero_of_empty hmeas
        (mem_keys_of_mem (find?_some_mem hk))).elim
    · intro cs t cx cy hOK hpres hmeas hnd hdisj
      cases cs with
      | nil =>
        refine ⟨?_, ?_, ?_, ?_⟩
        · intro j _
          rw [layout_children_nil]
        · intro i hi
          exact absurd hi (by simp)
        · rintro u nu c nc ⟨c0, hc0, _⟩ _ _ _
          exact absurd hc0 (List.not_mem_nil c0)
        · rintro u nu ⟨c0, hc0, _⟩ _ _ _
          exact absurd hc0 (List.not_mem_nil c0)
      | cons c rest =>
        rcases hpres c (List.mem_cons_self c rest) with ⟨w, hw⟩
        exact (subtreeH_zero_of_empty (hmeas c (List.mem_cons_self c rest))
          (mem_keys_of_mem (find?_some_mem hw))).elim
  | succ f ih =>
    have hnode : ∀ t k x sy, LayoutOK t.nodes →
        (∃ n0, NodeMap.find? t.nodes k = some n0) →
        Set.ncard {u | u ∈ NodeMap.keys t.nodes ∧ Desc t.nodes k u} ≤ f + 1 →
        layoutNodePost t.nodes
          (MindMap.layout_node t (f + 1) k x sy).1.nodes k x sy := by
      rintro t k x sy hOK ⟨n0, hk⟩ hmeas
      by_cases he : n0.children.isEmpty
      · -- childless node: a single update at k
        have hchnil : n0.children = [] := List.isEmpty_iff.mp he
        have hfin : (MindMap.layout_node t (f + 1) k x sy).1.nodes =
            NodeMap.update t.nodes k (fun n => { n with x := x, y := sy }) := by
          simp only [layout_node_succ, hk, he, if_true]
        have huk : ∀ u, Desc t.nodes k u → u = k := by
          intro u hdu
          rcases desc_top hdu with he2 | ⟨na, d, hfa, hdm, _⟩
          · exact he2.symm
          · rw [hk] at hfa
            have hna : na = n0 := (Option.some.inj hfa).symm
            rw [hna, hchnil] at hdm
            cases hdm
        refine ⟨?_, ?_, ?_, ?_⟩
        · intro j hnd
          have hjk : j ≠ k := fun e => hnd (e ▸ Desc.refl)
          rw [hfin, find?_update, if_neg hjk]
        · intro n0' hk'
          have hn : n0 = n0' := Option.some.inj (hk.symm.trans hk')
          refine ⟨{ n0 with x := x, y := sy }, ?_, rfl, ?_⟩
          · rw [hfin, find?_update, if_pos rfl, hk, Option.map_some']
          · show sy = sy + (if n0'.children.isEmpty then 0
              else subH t.nodes k / 2)
            rw [← hn, if_pos he, add_zero]
        · intro u nu c nc hdu hfu hc _
          have hu : u = k := huk u hdu
          subst hu
          rw [hfin, find?_update, if_pos rfl, hk, Option.map_some'] at hfu
          have hnu : nu = { n0 with x := x, y := sy } :=
            (Option.some.inj hfu).symm
          rw [hnu, show ({ n0 with x := x, y := sy } : Node).children =
            n0.children from rfl, hchnil] at hc
          cases hc
        · intro u nu hdu hfu i hi
          have hu : u = k := huk u hdu
          subst hu
          rw [hfin, find?_update, if_pos rfl, hk, Option.map_some'] at hfu
          have hnu : nu = { n0 with x := x, y := sy } :=
            (Option.some.inj hfu).symm
          rw [hnu, show ({ n0 with x := x, y := sy } : Node).children =
            n0.children from rfl, hchnil] at hi
          exact absurd hi (by simp)
      · -- node with children
        have heb : n0.children.isEmpty = false := by simpa using he
        have hfin : (MindMap.layout_node t (f + 1) k x sy).1.nodes =
            NodeMap.update
              (MindMap.layout_children t f n0.children
                (x + nodeWidth n0 + 50) sy).1.nodes k
              (fun n =>
                { n with
                    x := x,
                    y := sy + ((MindMap.layout_children t f n0.children
                        (x + nodeWidth n0 + 50) sy).2 - sy) / 2 }) := by
          simp only [layout_node_succ, hk, heb, Bool.false_eq_true, if_false]
        have hpresC : ∀ c ∈ n0.children, ∃ w, NodeMap.find? t.nodes c = some w := by
          intro c hc
          rcases hOK.childp k n0 c hk hc with ⟨w, hw, _⟩
          exact ⟨w, hw⟩
        have hmeasC : ∀ c ∈ n0.children,
            Set.ncard {u | u ∈ NodeMap.keys t.nodes ∧ Desc t.nodes c u} ≤ f := by
          intro c hc
          have := subtree_measure_lt hOK hk hc
          omega
        have hndC := hOK.chNodup k n0 hk
        have hdisjC : ∀ c1 c2, c1 ∈ n0.children → c2 ∈ n0.children → c1 ≠ c2 →
            ∀ j, Desc t.nodes c1 j → Desc t.nodes c2 j → False :=
          fun c1 c2 h1 h2 hne j hd1 hd2 =>
            sibling_disjoint hOK hk h1 h2 hne hd1 hd2
        obtain ⟨C1, C2, C3, C4⟩ := ih.2 n0.children t (x + nodeWidth n0 + 50) sy
          hOK hpresC hmeasC hndC hdisjC
        have hstructR : structProj (MindMap.layout_children t f n0.children
            (x + nodeWidth n0 + 50) sy).1.nodes = structProj t.nodes :=
          ((layout_struct f).2 n0.children t (x + nodeWidth n0 + 50) sy).1
        have hsum : ((n0.children).map (fun c => subtreeH t.nodes f c)).sum =
            subH t.nodes k := by
          rw [show (n0.children).map (fun c => subtreeH t.nodes f c) =
              (n0.children).map (fun c => subH t.nodes c) from
            List.map_congr_left (fun c hc =>
              subtreeH_eq_subH hOK (hmeasC c hc))]
          exact (subH_children hOK hk he).symm
        have hR2 : (MindMap.layout_children t f n0.children
            (x + nodeWidth n0 + 50) sy).2 = sy + subH t.nodes k := by
          rw [(layout_height f).2 n0.children t (x + nodeWidth n0 + 50) sy, hsum]
        have hknotin : ∀ c ∈ n0.children, ¬ Desc t.nodes c k := by
          intro c hc hd
          have h1 := desc_le hOK.edge hd
          have h2 := hOK.edge k n0 c hk hc
          omega
        have hkR : NodeMap.find? (MindMap.layout_children t f n0.children
            (x + nodeWidth n0 + 50) sy).1.nodes k = some n0 :=
          (C1 k hknotin).trans hk
        have hc0of : ∀ u, Desc t.nodes k u → u ≠ k →
            ∃ c0 ∈ n0.children, Desc t.nodes c0 u := by
          intro u hdu hu
          rcases desc_top hdu with he2 | ⟨na, d, hfa, hdm, hdc⟩
          · exact absurd he2.symm hu
          · rw [hk] at hfa
            have hna : na = n0 := (Option.some.inj hfa).symm
            exact ⟨d, by rw [← hna]; exact hdm, hdc⟩
        refine ⟨?_, ?_, ?_, ?_⟩
        · intro j hnd
          have hjk : j ≠ k := fun e => hnd (e ▸ Desc.refl)
          have hjc : ∀ c ∈ n0.children, ¬ Desc t.nodes c j := by
            intro c hc hd
            exact hnd (Desc.trans (Desc.step k c n0 Desc.refl hk hc) hd)
          rw [hfin, find?_update, if_neg hjk]
          exact C1 j hjc
        · intro n0' hk'
          have hn : n0 = n0' := Option.some.inj (hk.symm.trans hk')
          refine ⟨{ n0 with
              x := x,
              y := sy + ((MindMap.layout_children t f n0.children
                  (x + nodeWidth n0 + 50) sy).2 - sy) / 2 }, ?_, rfl, ?_⟩
          · rw [hfin, find?_update, if_pos rfl, hkR, Option.map_some']
          · show sy + ((MindMap.layout_children t f n0.children
                (x + nodeWidth n0 + 50) sy).2 - sy) / 2 =
              sy + (if n0'.children.isEmpty then 0 else subH t.nodes k / 2)
            rw [← hn, heb]
            simp only [Bool.false_eq_true, if_false]
            rw [hR2]
            ring
        · intro u nu c nc hdu hfu hc hfc
          by_cases huk : u = k
          · subst u
            rw [hfin, find?_update, if_pos rfl, hkR, Option.map_some'] at hfu
            have hnu : nu =
                { n0 with
                    x := x,
                    y := sy + ((MindMap.layout_children t f n0.children
                        (x + nodeWidth n0 + 50) sy).2 - sy) / 2 } :=
              (Option.some.inj hfu).symm
            subst hnu
            have hcm : c ∈ n0.children := hc
            have hck : c ≠ k := by
              have := hOK.edge k n0 c hk hcm
              omega
            rw [hfin, find?_update, if_neg hck] at hfc
            rcases List.mem_iff_get.mp hcm with ⟨⟨i, hi⟩, hgi⟩
            rcases C2 i hi with ⟨n, n0c, hfc0, hfcR, hx, _⟩
            rw [hgi] at hfcR
            have hnnc : n = nc := Option.some.inj (hfcR.symm.trans hfc)
            show nc.x = x + nodeWidth n0 + 50
            rw [← hnnc, hx]
          · rcases hc0of u hdu huk with ⟨c0, hc0m, hdc0u⟩
            rw [hfin, find?_update, if_neg huk] at hfu
            rcases find?_struct_transfer hstructR hfu with ⟨nu0, hfu0, hsnu⟩
            have hdc : Desc t.nodes c0 c :=
              Desc.trans hdc0u (Desc.step u c nu0 Desc.refl hfu0
                (by rw [show nu0.children = nu.children from
                  congrArg NodeStruct.children hsnu]; exact hc))
            have hck : c ≠ k := by
              have h1 := desc_le hOK.edge hdc
              have h2 := hOK.edge k n0 c0 hk hc0m
              omega
            rw [hfin, find?_update, if_neg hck] at hfc
            exact C3 u nu c nc ⟨c0, hc0m, hdc0u⟩ hfu hc hfc
        · intro u nu hdu hfu i hi
          by_cases huk : u = k
          · subst u
            rw [hfin, find?_update, if_pos rfl, hkR, Option.map_some'] at hfu
            have hnu : nu =
                { n0 with
                    x := x,
                    y := sy + ((MindMap.layout_children t f n0.children
                        (x + nodeWidth n0 + 50) sy).2 - sy) / 2 } :=
              (Option.some.inj hfu).symm
            subst hnu
            rcases C2 i hi with ⟨n, n0c, hfc0, hfcR, _, hy⟩
            have hdm : n0.children.get ⟨i, hi⟩ ∈ n0.children :=
              List.get_mem n0.children i hi
            have hdk : n0.children.get ⟨i, hi⟩ ≠ k := by
              have := hOK.edge k n0 _ hk hdm
              omega
            refine ⟨n, n0c, hfc0, ?_, ?_⟩
            · show NodeMap.find? (MindMap.layout_node t (f + 1) k x sy).1.nodes
                (n0.children.get ⟨i, hi⟩) = some n
              rw [hfin, find?_update, if_neg hdk]
              exact hfcR
            · show n.y - (if n0c.children.isEmpty then 0
                  else subH t.nodes (n0.children.get ⟨i, hi⟩) / 2) =
                ((sy + ((MindMap.layout_children t f n0.children
                  (x + nodeWidth n0 + 50) sy).2 - sy) / 2) -
                    subH t.nodes k / 2) +
                  ((n0.children.take i).map (fun d => subH t.nodes d)).sum
              rw [hy, hR2]
              ring
          · rcases hc0of u hdu huk with ⟨c0, hc0m, hdc0u⟩
            rw [hfin, find?_update, if_neg huk] at hfu
            rcases find?_struct_transfer hstructR hfu with ⟨nu0, hfu0, hsnu⟩
            rcases C4 u nu ⟨c0, hc0m, hdc0u⟩ hfu i hi with
              ⟨nc, n0c, hf0, hfR, heq⟩
            have hdm : nu.children.get ⟨i, hi⟩ ∈ nu.children :=
              List.get_mem nu.children i hi
            have hdd : Desc t.nodes c0 (nu.children.get ⟨i, hi⟩) :=
              Desc.trans hdc0u (Desc.step u _ nu0 Desc.refl hfu0
                (by rw [show nu0.children = nu.children from
                  congrArg NodeStruct.children hsnu]; exact hdm))
            have hdk : nu.children.get ⟨i, hi⟩ ≠ k := by
              have h1 := desc_le hOK.edge hdd
              have h2 := hOK.edge k n0 c0 hk hc0m
              omega
            refine ⟨nc, n0c, hf0, ?_, heq⟩
            rw [hfin, find?_update, if_neg hdk]
            exact hfR
    refine ⟨hnode, ?_⟩
    intro cs
    induction cs with
    | nil =>
      intro t cx cy hOK hpres hmeas hnd hdisj
      refine ⟨?_, ?_, ?_, ?_⟩
      · intro j _
        rw [layout_children_nil]
      · intro i hi
        exact absurd hi (by simp)
      · rintro u nu c nc ⟨c0, hc0, _⟩ _ _ _
        exact absurd hc0 (List.not_mem_nil c0)
      · rintro u nu ⟨c0, hc0, _⟩ _ _ _
        exact absurd hc0 (List.not_mem_nil c0)
    | cons c rest ihc =>
      intro t cx cy hOK hpres hmeas hnd hdisj
      rcases hpres c (List.mem_cons_self c rest) with ⟨w, hw⟩
      have hmc := hmeas c (List.mem_cons_self c rest)
      obtain ⟨N1, N2, N3, N4⟩ := hnode t c cx cy hOK ⟨w, hw⟩ hmc
      have hstructr : structProj (MindMap.layout_node t (f + 1) c cx cy).1.nodes =
          structProj t.nodes := ((layout_struct (f + 1)).1 t c cx cy).1
      have hcnr : c ∉ rest := (List.nodup_cons.mp hnd).1
      have hndr : rest.Nodup := (List.nodup_cons.mp hnd).2
      have hr2 : (MindMap.layout_node t (f + 1) c cx cy).2 = subH t.nodes c := by
        rw [(layout_height (f + 1)).1 t c cx cy]
        exact subtreeH_eq_subH hOK hmc
      have hOKr : LayoutOK (MindMap.layout_node t (f + 1) c cx cy).1.nodes :=
        layoutOK_congr hstructr.symm hOK
      have hpresr : ∀ d ∈ rest, ∃ w2, NodeMap.find?
          (MindMap.layout_node t (f + 1) c cx cy).1.nodes d = some w2 := by
        intro d hd
        rcases hpres d (List.mem_cons_of_mem _ hd) with ⟨w2, hw2⟩
        rcases find?_struct_transfer hstructr.symm hw2 with ⟨w3, hw3, _⟩
        exact ⟨w3, hw3⟩
      have hmeasr : ∀ d ∈ rest, Set.ncard {u |
          u ∈ NodeMap.keys (MindMap.layout_node t (f + 1) c cx cy).1.nodes ∧
          Desc (MindMap.layout_node t (f + 1) c cx cy).1.nodes d u} ≤ f + 1 := by
        intro d hd
        rw [← measure_congr hstructr.symm d]
        exact hmeas d (List.mem_cons_of_mem _ hd)
      have hdisjr : ∀ c1 c2, c1 ∈ rest → c2 ∈ rest → c1 ≠ c2 → ∀ j,
          Desc (MindMap.layout_node t (f + 1) c cx cy).1.nodes c1 j →
          Desc (MindMap.layout_node t (f + 1) c cx cy).1.nodes c2 j → False :=
        fun c1 c2 h1 h2 hne j hd1 hd2 =>
          hdisj c1 c2 (List.mem_cons_of_mem _ h1) (List.mem_cons_of_mem _ h2)
            hne j (desc_congr hstructr hd1) (desc_congr hstructr hd2)
      obtain ⟨D1, D2, D3, D4⟩ := ihc (MindMap.layout_node t (f + 1) c cx cy).1
        cx (cy + (MindMap.layout_node t (f + 1) c cx cy).2)
        hOKr hpresr hmeasr hndr hdisjr
      have hstep := layout_children_cons t (f + 1) c rest cx cy
      have hsubc : ∀ d, subH (MindMap.layout_node t (f + 1) c cx cy).1.nodes d =
          subH t.nodes d := fun d => subH_congr hstructr d
      have hUn : ∀ j, Desc t.nodes c j →
          NodeMap.find? (MindMap.layout_children
            (MindMap.layout_node t (f + 1) c cx cy).1 (f + 1) rest cx
            (cy + (MindMap.layout_node t (f + 1) c cx cy).2)).1.nodes j =
          NodeMap.find? (MindMap.layout_node t (f + 1) c cx cy).1.nodes j := by
        intro j hdj
        apply D1 j
        intro d hd hdj'
        exact hdisj c d (List.mem_cons_self c rest) (List.mem_cons_of_mem _ hd)
          (fun e => hcnr (e ▸ hd)) j hdj (desc_congr hstructr hdj')
      refine ⟨?_, ?_, ?_, ?_⟩
      · intro j hall
        rw [hstep]
        have h1 := D1 j (fun d hd hdj' =>
          hall d (List.mem_cons_of_mem _ hd) (desc_congr hstructr hdj'))
        rw [h1]
        exact N1 j (hall c (List.mem_cons_self c rest))
      · intro i hi
        rw [hstep]
        cases i with
        | zero =>
          rcases N2 w hw with ⟨n, hfn, hnx, hny⟩
          refine ⟨n, w, hw, ?_, hnx, ?_⟩
          · show NodeMap.find? (MindMap.layout_children
                (MindMap.layout_node t (f + 1) c cx cy).1 (f + 1) rest cx
                (cy + (MindMap.layout_node t (f + 1) c cx cy).2)).1.nodes c =
              some n
            rw [hUn c Desc.refl]
            exact hfn
          · show n.y = (cy + (((c :: rest).take 0).map
                (fun d => subH t.nodes d)).sum) +
              (if w.children.isEmpty then 0 else subH t.nodes c / 2)
            rw [List.take_zero, List.map_nil, List.sum_nil, add_zero]
            exact hny
        | succ i =>
          have hi' : i < rest.length := by
            simp only [List.length_cons] at hi
            omega
          rcases D2 i hi' with ⟨n, n0', hf0', hfn, hnx, hny⟩
          rcases find?_struct_transfer hstructr hf0' with ⟨n0, hf0, hsn⟩
          refine ⟨n, n0, hf0, ?_, hnx, ?_⟩
          · show NodeMap.find? (MindMap.layout_children
                (MindMap.layout_node t (f + 1) c cx cy).1 (f + 1) rest cx
                (cy + (MindMap.layout_node t (f + 1) c cx cy).2)).1.nodes
                (rest.get ⟨i, hi'⟩) = some n
            exact hfn
          · show n.y = (cy + (((c :: rest).take (i + 1)).map
                (fun d => subH t.nodes d)).sum) +
              (if n0.children.isEmpty then 0
                else subH t.nodes (rest.get ⟨i, hi'⟩) / 2)
            rw [hr2] at hny
            simp only [hsubc] at hny
            rw [show n0'.children = n0.children from
              (show n0.children = n0'.children from
                congrArg NodeStruct.children hsn).symm] at hny
            rw [List.take_succ_cons, List.map_cons, List.sum_cons, hny]
            ring
      · intro u nu c' nc' hex hfu hcc hfc
        rw [hstep] at hfu hfc
        rcases hex with ⟨c0, hc0m, hdu⟩
        rcases List.mem_cons.mp hc0m with rfl | hc0r
        · have hfu' : NodeMap.find?
              (MindMap.layout_node t (f + 1) c0 cx cy).1.nodes u = some nu := by
            rw [← hUn u hdu]
            exact hfu
          rcases find?_struct_transfer hstructr hfu' with ⟨nu0, hfu0, hsnu⟩
          have hdc' : Desc t.nodes c0 c' :=
            Desc.trans hdu (Desc.step u c' nu0 Desc.refl hfu0
              (by rw [show nu0.children = nu.children from
                congrArg NodeStruct.children hsnu]; exact hcc))
          have hfc' : NodeMap.find?
              (MindMap.layout_node t (f + 1) c0 cx cy).1.nodes c' = some nc' := by
            rw [← hUn c' hdc']
            exact hfc
          exact N3 u nu c' nc' hdu hfu' hcc hfc'
        · exact D3 u nu c' nc' ⟨c0, hc0r, desc_congr hstructr.symm hdu⟩
            hfu hcc hfc
      · intro u nu hex hfu i hi
        rw [hstep] at hfu ⊢
        rcases hex with ⟨c0, hc0m, hdu⟩
        rcases List.mem_cons.mp hc0m with rfl | hc0r
        · have hfu' : NodeMap.find?
              (MindMap.layout_node t (f + 1) c0 cx cy).1.nodes u = some nu := by
            rw [← hUn u hdu]
            exact hfu
          rcases N4 u nu hdu hfu' i hi with ⟨nc, n0c, hf0, hfR, heq⟩
          rcases find?_struct_transfer hstructr hfu' with ⟨nu0, hfu0, hsnu⟩
          have hdm : nu.children.get ⟨i, hi⟩ ∈ nu.children :=
            List.get_mem nu.children i hi
          have hdd : Desc t.nodes c0 (nu.children.get ⟨i, hi⟩) :=
            Desc.trans hdu (Desc.step u _ nu0 Desc.refl hfu0
              (by rw [show nu0.children = nu.children from
                congrArg NodeStruct.children hsnu]; exact hdm))
          refine ⟨nc, n0c, hf0, ?_, heq⟩
          rw [hUn _ hdd]
          exact hfR
        · rcases D4 u nu ⟨c0, hc0r, desc_congr hstructr.symm hdu⟩ hfu i hi with
            ⟨nc, n0', hf0', hfR, heq⟩
          rcases find?_struct_transfer hstructr hf0' with ⟨n0c, hf0, hsn⟩
          refine ⟨nc, n0c, hf0, hfR, ?_⟩
          simp only [hsubc] at heq
          rw [show n0'.children = n0c.children from
            (show n0c.children = n0'.children from
              congrArg NodeStruct.children hsn).symm] at heq
          exact heq

theorem node_eq_of_struct {n1 n2 : Node} (h : Node.struct n1 = Node.struct n2)
    (hx : n1.x = n2.x) (hy : n1.y = n2.y) : n1 = n2 := by
  cases n1
  cases n2
  simp only [Node.struct, NodeStruct.mk.injEq] at h
  simp_all

theorem struct_set_pos (n : Node) (a b : Rat) :
    Node.struct { n with x := a, y := b } = Node.struct n := rfl

theorem desc_root {t : MindMap} (h : Invariant t) :
    ∀ k n, NodeMap.find? t.nodes k = some n → Desc t.nodes t.root_id k := by
  have hF := findOK_of_mapOK h.1
  intro k n hk
  refine desc_of_chainB ?_ (k + 1) k (hF.upChain k n hk)
  intro a na q hfa hpa
  rcases (contains_iff_find? _ _).mp (hF.parentMem a na q hfa hpa) with ⟨w, hw⟩
  exact ⟨w, hw, (hF.bidir q w a na hw hfa).mpr hpa⟩

theorem compute_layout_struct (t : MindMap) :
    structProj (MindMap.compute_layout t).nodes = structProj t.nodes ∧
    (MindMap.compute_layout t).root_id = t.root_id ∧
    (MindMap.compute_layout t).selected_node_id = t.selected_node_id ∧
    (MindMap.compute_layout t).next_id = t.next_id :=
  (layout_struct t.nodes.length).1 t t.root_id 0 0

theorem compute_layout_post {t : MindMap} (h : Invariant t) :
    layoutNodePost t.nodes (MindMap.compute_layout t).nodes t.root_id 0 0 := by
  have hOK := layoutOK_of_invariant h
  rcases (contains_iff_find? _ _).mp h.1.rootMem with ⟨nr, hroot⟩
  exact (layout_pos t.nodes.length).1 t t.root_id 0 0 hOK ⟨nr, hroot⟩
    (measure_le_length _ _)

theorem nodeMap_ext {m : NodeMap} : ∀ {m' : NodeMap},
    NodeMap.keys m = NodeMap.keys m' → (NodeMap.keys m).Nodup →
    (∀ j, NodeMap.find? m j = NodeMap.find? m' j) → m = m' := by
  induction m with
  | nil =>
    intro m' hk _ _
    cases m' with
    | nil => rfl
    | cons kv rest => exact absurd hk (by simp [NodeMap.keys])
  | cons kv rest ih =>
    intro m' hk hnd hp
    cases m' with
    | nil => exact absurd hk (by simp [NodeMap.keys])
    | cons kv' rest' =>
      obtain ⟨a, n⟩ := kv
      obtain ⟨a', n'⟩ := kv'
      simp only [NodeMap.keys, List.map_cons, List.cons.injEq] at hk
      obtain ⟨ha, hrest0⟩ := hk
      have hrest : NodeMap.keys rest = NodeMap.keys rest' := hrest0
      have hndc : (a :: NodeMap.keys rest).Nodup := hnd
      have hndk : a ∉ NodeMap.keys rest ∧ (NodeMap.keys rest).Nodup :=
        List.nodup_cons.mp hndc
      have h1 := hp a
      rw [NodeMap.find?, NodeMap.find?, if_pos rfl, if_pos ha.symm] at h1
      have hn : n = n' := Option.some.inj h1
      have hp' : ∀ j, NodeMap.find? rest j = NodeMap.find? rest' j := by
        intro j
        by_cases hja : j = a
        · subst hja
          have h2 : NodeMap.find? rest j = none :=
            (find?_eq_none_iff rest j).mpr hndk.1
          have h3 : NodeMap.find? rest' j = none :=
            (find?_eq_none_iff rest' j).mpr (by rw [← hrest]; exact hndk.1)
          rw [h2, h3]
        · have h2 := hp j
          rw [NodeMap.find?, NodeMap.find?, if_neg (fun e => hja e.symm),
            if_neg (fun e => hja (ha ▸ e).symm)] at h2
          exact h2
      rw [ha, hn, ih hrest hndk.2 hp']

/-- Paired-run determinism of the layout pass: two runs on structurally equal
stores either both skip a key or write it to the same value, regardless of
the positions previously stored. -/
theorem layout_det (fuel : Nat) :
    (∀ t1 t2 k x sy, structProj t1.nodes = structProj t2.nodes →
      ∀ j,
        (NodeMap.find? (MindMap.layout_node t1 fuel k x sy).1.nodes j =
            NodeMap.find? t1.nodes j ∧
          NodeMap.find? (MindMap.layout_node t2 fuel k x sy).1.nodes j =
            NodeMap.find? t2.nodes j) ∨
        NodeMap.find? (MindMap.layout_node t1 fuel k x sy).1.nodes j =
          NodeMap.find? (MindMap.layout_node t2 fuel k x sy).1.nodes j) ∧
    (∀ cs t1 t2 cx cy, structProj t1.nodes = structProj t2.nodes →
      ∀ j,
        (NodeMap.find? (MindMap.layout_children t1 fuel cs cx cy).1.nodes j =
            NodeMap.find? t1.nodes j ∧
          NodeMap.find? (MindMap.layout_children t2 fuel cs cx cy).1.nodes j =
            NodeMap.find? t2.nodes j) ∨
        NodeMap.find? (MindMap.layout_children t1 fuel cs cx cy).1.nodes j =
          NodeMap.find? (MindMap.layout_children t2 fuel cs cx cy).1.nodes j) := by
  induction fuel with
  | zero =>
    constructor
    · intro t1 t2 k x sy _ j
      left
      constructor
      · rw [layout_node_zero]
      · rw [layout_node_zero]
    · intro cs t1 t2 cx cy hs j
      induction cs generalizing t1 t2 cx cy with
      | nil =>
        left
        constructor
        · rw [layout_children_nil]
        · rw [layout_children_nil]
      | cons c rest ihc =>
        rw [layout_children_cons, layout_children_cons, layout_node_zero,
          layout_node_zero]
        exact ihc t1 t2 cx (cy + 0) hs
  | succ f ih =>
    have hnode : ∀ t1 t2 k x sy, structProj t1.nodes = structProj t2.nodes →
        ∀ j,
        (NodeMap.find? (MindMap.layout_node t1 (f + 1) k x sy).1.nodes j =
            NodeMap.find? t1.nodes j ∧
          NodeMap.find? (MindMap.layout_node t2 (f + 1) k x sy).1.nodes j =
            NodeMap.find? t2.nodes j) ∨
        NodeMap.find? (MindMap.layout_node t1 (f + 1) k x sy).1.nodes j =
          NodeMap.find? (MindMap.layout_node t2 (f + 1) k x sy).1.nodes j := by
      intro t1 t2 k x sy hs j
      cases hf1 : NodeMap.find? t1.nodes k with
      | none =>
        have hf2 : NodeMap.find? t2.nodes k = none := by
          have hc := find?_struct_congr hs k
          rw [hf1] at hc
          cases hf2 : NodeMap.find? t2.nodes k with
          | none => rfl
          | some n2 =>
            rw [hf2] at hc
            exact absurd hc (by simp)
        left
        constructor
        · simp only [layout_node_succ, hf1]
        · simp only [layout_node_succ, hf2]
      | some n1 =>
        rcases find?_struct_transfer hs hf1 with ⟨n2, hf2, hs21⟩
        have hch : n2.children = n1.children :=
          congrArg NodeStruct.children hs21
        have hwid : nodeWidth n2 = nodeWidth n1 := nodeWidth_struct hs21
        by_cases he : n1.children.isEmpty
        · -- childless in both runs: a single update at k
          have he2 : n2.children.isEmpty = true := by rw [hch]; exact he
          have hr1 : (MindMap.layout_node t1 (f + 1) k x sy).1.nodes =
              NodeMap.update t1.nodes k
                (fun n => { n with x := x, y := sy }) := by
            simp only [layout_node_succ, hf1, he, if_true]
          have hr2 : (MindMap.layout_node t2 (f + 1) k x sy).1.nodes =
              NodeMap.update t2.nodes k
                (fun n => { n with x := x, y := sy }) := by
            simp only [layout_node_succ, hf2, he2, if_true]
          by_cases hjk : j = k
          · right
            subst hjk
            rw [hr1, hr2, find?_update, if_pos rfl, find?_update, if_pos rfl,
              hf1, hf2, Option.map_some', Option.map_some']
            have : ({ n1 with x := x, y := sy } : Node) =
                { n2 with x := x, y := sy } :=
              node_eq_of_struct (by rw [struct_set_pos, struct_set_pos]
                                    exact hs21.symm) rfl rfl
            rw [this]
          · left
            constructor
            · rw [hr1, find?_update, if_neg hjk]
            · rw [hr2, find?_update, if_neg hjk]
        · -- node with children in both runs
          have he2 : n2.children.isEmpty = false := by
            rw [hch]
            simpa using he
          have heb : n1.children.isEmpty = false := by simpa using he
          have hr1 : (MindMap.layout_node t1 (f + 1) k x sy).1.nodes =
              NodeMap.update
                (MindMap.layout_children t1 f n1.children
                  (x + nodeWidth n1 + 50) sy).1.nodes k
                (fun n =>
                  { n with
                      x := x,
                      y := sy + ((MindMap.layout_children t1 f n1.children
                          (x + nodeWidth n1 + 50) sy).2 - sy) / 2 }) := by
            simp only [layout_node_succ, hf1, heb, Bool.false_eq_true, if_false]
          have hr2 : (MindMap.layout_node t2 (f + 1) k x sy).1.nodes =
              NodeMap.update
                (MindMap.layout_children t2 f n1.children
                  (x + nodeWidth n1 + 50) sy).1.nodes k
                (fun n =>
                  { n with
                      x := x,
                      y := sy + ((MindMap.layout_children t2 f n1.children
                          (x + nodeWidth n1 + 50) sy).2 - sy) / 2 }) := by
            simp only [layout_node_succ, hf2, he2, heb, Bool.false_eq_true,
              if_false, hch, hwid]
          have hsum2 : (MindMap.layout_children t2 f n1.children
              (x + nodeWidth n1 + 50) sy).2 =
            (MindMap.layout_children t1 f n1.children
              (x + nodeWidth n1 + 50) sy).2 := by
            rw [(layout_height f).2 n1.children t1 (x + nodeWidth n1 + 50) sy,
              (layout_height f).2 n1.children t2 (x + nodeWidth n1 + 50) sy]
            rw [show n1.children.map (fun c => subtreeH t2.nodes f c) =
                n1.children.map (fun c => subtreeH t1.nodes f c) from
              List.map_congr_left (fun c _ => (subtreeH_congr hs f c).symm)]
          by_cases hjk : j = k
          · right
            subst hjk
            have hks1 : ∃ w1, NodeMap.find? (MindMap.layout_children t1 f
                n1.children (x + nodeWidth n1 + 50) sy).1.nodes j = some w1 ∧
                Node.struct w1 = Node.struct n1 := by
              have hstr := ((layout_struct f).2 n1.children t1
                (x + nodeWidth n1 + 50) sy).1
              rcases find?_struct_transfer hstr.symm hf1 with ⟨w1, hw1, hsw⟩
              exact ⟨w1, hw1, hsw⟩
            have hks2 : ∃ w2, NodeMap.find? (MindMap.layout_children t2 f
                n1.children (x + nodeWidth n1 + 50) sy).1.nodes j = some w2 ∧
                Node.struct w2 = Node.struct n2 := by
              have hstr := ((layout_struct f).2 n1.children t2
                (x + nodeWidth n1 + 50) sy).1
              rcases find?_struct_transfer hstr.symm hf2 with ⟨w2, hw2, hsw⟩
              exact ⟨w2, hw2, hsw⟩
            rcases hks1 with ⟨w1, hw1, hsw1⟩
            rcases hks2 with ⟨w2, hw2, hsw2⟩
            rw [hr1, hr2, find?_update, if_pos rfl, find?_update, if_pos rfl,
              hw1, hw2, Option.map_some', Option.map_some', hsum2]
            have : ({ w1 with
                x := x,
                y := sy + ((MindMap.layout_children t1 f n1.children
                    (x + nodeWidth n1 + 50) sy).2 - sy) / 2 } : Node) =
              { w2 with
                x := x,
                y := sy + ((MindMap.layout_children t1 f n1.children
                    (x + nodeWidth n1 + 50) sy).2 - sy) / 2 } :=
              node_eq_of_struct ((struct_set_pos w1 _ _).trans (hsw1.trans
                (hs21.symm.trans (hsw2.symm.trans
                  (struct_set_pos w2 _ _).symm)))) rfl rfl
            rw [this]
          · rcases ih.2 n1.children t1 t2 (x + nodeWidth n1 + 50) sy hs j with
              ⟨hu1, hu2⟩ | heq
            · left
              constructor
              · rw [hr1, find?_update, if_neg hjk]
                exact hu1
              · rw [hr2, find?_update, if_neg hjk]
                exact hu2
            · right
              rw [hr1, hr2, find?_update, if_neg hjk, find?_update, if_neg hjk]
              exact heq
    refine ⟨hnode, ?_⟩
    intro cs
    induction cs with
    | nil =>
      intro t1 t2 cx cy hs j
      left
      constructor
      · rw [layout_children_nil]
      · rw [layout_children_nil]
    | cons c rest ihc =>
      intro t1 t2 cx cy hs j
      have hstr1 : structProj (MindMap.layout_node t1 (f + 1) c cx cy).1.nodes =
          structProj t1.nodes := ((layout_struct (f + 1)).1 t1 c cx cy).1
      have hstr2 : structProj (MindMap.layout_node t2 (f + 1) c cx cy).1.nodes =
          structProj t2.nodes := ((layout_struct (f + 1)).1 t2 c cx cy).1
      have hs' : structProj (MindMap.layout_node t1 (f + 1) c cx cy).1.nodes =
          structProj (MindMap.layout_node t2 (f + 1) c cx cy).1.nodes := by
        rw [hstr1, hstr2, hs]
      have hh : (MindMap.layout_node t2 (f + 1) c cx cy).2 =
          (MindMap.layout_node t1 (f + 1) c cx cy).2 := by
        rw [(layout_height (f + 1)).1 t1 c cx cy,
          (layout_height (f + 1)).1 t2 c cx cy, subtreeH_congr hs]
      rw [layout_children_cons, layout_children_cons, hh]
      rcases ihc (MindMap.layout_node t1 (f + 1) c cx cy).1
          (MindMap.layout_node t2 (f + 1) c cx cy).1 cx
          (cy + (MindMap.layout_node t1 (f + 1) c cx cy).2) hs' j with
        ⟨hu1, hu2⟩ | heq
      · rcases hnode t1 t2 c cx cy hs j with ⟨hv1, hv2⟩ | heq2
        · left
          exact ⟨hu1.trans hv1, hu2.trans hv2⟩
        · right
          rw [hu1, hu2]
          exact heq2
      · right
        exact heq

theorem sum_take_mono {g : List Rat} (h0 : ∀ x ∈ g, 0 ≤ x) {a b : Nat}
    (hab : a ≤ b) : (g.take a).sum ≤ (g.take b).sum := by
  rw [show b = a + (b - a) from by omega, List.take_add, List.sum_append]
  have h1 : 0 ≤ ((g.drop a).take (b - a)).sum :=
    List.sum_nonneg (fun x hx =>
      h0 x (List.drop_subset a g (List.take_subset _ _ hx)))
  linarith

/-- The vertical geometry of a laid-out tree: leaf subtree height is 50; an
inner node's subtree height is the sum of its children's and its y sits half
a subtree height below its band top; the root band starts at 0; the band of
the i-th child starts at the parent's band top plus the heights of the
earlier siblings; and the half-open bands of distinct siblings are
disjoint. -/
theorem layout_bands {t : MindMap} (h : Invariant t) :
    (∀ k n, NodeMap.find? (MindMap.compute_layout t).nodes k = some n →
      n.children.isEmpty →
      subH (MindMap.compute_layout t).nodes k = 50) ∧
    (∀ k n, NodeMap.find? (MindMap.compute_layout t).nodes k = some n →
      ¬ n.children.isEmpty →
      subH (MindMap.compute_layout t).nodes k =
        (n.children.map (fun c =>
          subH (MindMap.compute_layout t).nodes c)).sum ∧
      n.y = bandStart (MindMap.compute_layout t).nodes k +
        subH (MindMap.compute_layout t).nodes k / 2) ∧
    (bandStart (MindMap.compute_layout t).nodes t.root_id = 0) ∧
    (∀ u nu, NodeMap.find? (MindMap.compute_layout t).nodes u = some nu →
      ∀ i, (hi : i < nu.children.length) →
      bandStart (MindMap.compute_layout t).nodes (nu.children.get ⟨i, hi⟩) =
        bandStart (MindMap.compute_layout t).nodes u +
          ((nu.children.take i).map (fun d =>
            subH (MindMap.compute_layout t).nodes d)).sum) ∧
    (∀ u nu, NodeMap.find? (MindMap.compute_layout t).nodes u = some nu →
      ∀ i j, (hi : i < nu.children.length) → (hj : j < nu.children.length) →
      i ≠ j → ∀ p : Rat,
      bandStart (MindMap.compute_layout t).nodes (nu.children.get ⟨i, hi⟩) ≤ p →
      p < bandStart (MindMap.compute_layout t).nodes (nu.children.get ⟨i, hi⟩) +
        subH (MindMap.compute_layout t).nodes (nu.children.get ⟨i, hi⟩) →
      bandStart (MindMap.compute_layout t).nodes (nu.children.get ⟨j, hj⟩) ≤ p →
      p < bandStart (MindMap.compute_layout t).nodes (nu.children.get ⟨j, hj⟩) +
        subH (MindMap.compute_layout t).nodes (nu.children.get ⟨j, hj⟩) →
      False) := by
  have hE := (compute_layout_struct t).1
  have hOK := layoutOK_of_invariant h
  have hOKc : LayoutOK (MindMap.compute_layout t).nodes :=
    layoutOK_congr hE.symm hOK
  have hsub : ∀ d, subH (MindMap.compute_layout t).nodes d =
      subH t.nodes d := fun d => subH_congr hE d
  obtain ⟨N1, N2, N3, N4⟩ := compute_layout_post h
  have hbandLeaf : ∀ k n,
      NodeMap.find? (MindMap.compute_layout t).nodes k = some n →
      n.children.isEmpty = true →
      bandStart (MindMap.compute_layout t).nodes k = n.y := by
    intro k n hk he
    rw [bandStart, hk]
    show (if n.children.isEmpty then n.y else _) = n.y
    rw [if_pos he]
  have hbandInner : ∀ k n,
      NodeMap.find? (MindMap.compute_layout t).nodes k = some n →
      n.children.isEmpty = false →
      bandStart (MindMap.compute_layout t).nodes k =
        n.y - subH (MindMap.compute_layout t).nodes k / 2 := by
    intro k n hk he
    rw [bandStart, hk]
    show (if n.children.isEmpty then n.y
        else n.y - subtreeH (MindMap.compute_layout t).nodes
          (MindMap.compute_layout t).nodes.length k / 2) = _
    rw [he]
    simp only [Bool.false_eq_true, if_false]
    rw [show subtreeH (MindMap.compute_layout t).nodes
        (MindMap.compute_layout t).nodes.length k =
      subH (MindMap.compute_layout t).nodes k from rfl]
  have hA : ∀ k n,
      NodeMap.find? (MindMap.compute_layout t).nodes k = some n →
      n.children.isEmpty →
      subH (MindMap.compute_layout t).nodes k = 50 :=
    fun k n hk he => subH_leaf hk he
  have hB : ∀ k n,
      NodeMap.find? (MindMap.compute_layout t).nodes k = some n →
      ¬ n.children.isEmpty →
      subH (MindMap.compute_layout t).nodes k =
        (n.children.map (fun c =>
          subH (MindMap.compute_layout t).nodes c)).sum ∧
      n.y = bandStart (MindMap.compute_layout t).nodes k +
        subH (MindMap.compute_layout t).nodes k / 2 := by
    intro k n hk he
    refine ⟨subH_children hOKc hk he, ?_⟩
    rw [hbandInner k n hk (by simpa using he)]
    ring
  have hD : ∀ u nu,
      NodeMap.find? (MindMap.compute_layout t).nodes u = some nu →
      ∀ i, (hi : i < nu.children.length) →
      bandStart (MindMap.compute_layout t).nodes (nu.children.get ⟨i, hi⟩) =
        bandStart (MindMap.compute_layout t).nodes u +
          ((nu.children.take i).map (fun d =>
            subH (MindMap.compute_layout t).nodes d)).sum := by
    intro u nu hfu i hi
    rcases find?_struct_transfer hE hfu with ⟨nu0, hfu0, hsnu⟩
    have hdu : Desc t.nodes t.root_id u := desc_root h u nu0 hfu0
    rcases N4 u nu hdu hfu i hi with ⟨nc, n0c, hf0c, hfc, heq⟩
    have hcstr : Node.struct nc = Node.struct n0c := by
      have hc := find?_struct_congr hE (nu.children.get ⟨i, hi⟩)
      rw [hfc, hf0c] at hc
      simp only [Option.map_some'] at hc
      exact Option.some.inj hc
    have hcch : nc.children = n0c.children :=
      congrArg NodeStruct.children hcstr
    have hne : nu.children.isEmpty = false := by
      cases hcc : nu.children.isEmpty
      · rfl
      · rw [List.isEmpty_iff.mp hcc] at hi
        exact absurd hi (by simp)
    have hbu : bandStart (MindMap.compute_layout t).nodes u =
        nu.y - subH (MindMap.compute_layout t).nodes u / 2 :=
      hbandInner u nu hfu hne
    have hband : bandStart (MindMap.compute_layout t).nodes
        (nu.children.get ⟨i, hi⟩) =
        nc.y - (if n0c.children.isEmpty then 0
          else subH t.nodes (nu.children.get ⟨i, hi⟩) / 2) := by
      cases hcc : n0c.children.isEmpty
      · rw [hbandInner _ nc hfc (by rw [hcch]; exact hcc)]
        simp only [Bool.false_eq_true, if_false]
        rw [hsub]
      · rw [hbandLeaf _ nc hfc (by rw [hcch]; exact hcc)]
        simp only [if_true]
        ring
    rw [hband, heq, hbu, hsub u]
    have hmap : (nu.children.take i).map (fun d =>
        subH (MindMap.compute_layout t).nodes d) =
      (nu.children.take i).map (fun d => subH t.nodes d) :=
      List.map_congr_left (fun d _ => hsub d)
    rw [hmap]
  refine ⟨hA, hB, ?_, hD, ?_⟩
  · -- root band starts at 0
    rcases (contains_iff_find? _ _).mp h.1.rootMem with ⟨nr, hroot⟩
    rcases N2 nr hroot with ⟨n, hfn, _, hy⟩
    have hnstr : Node.struct n = Node.struct nr := by
      have hc := find?_struct_congr hE t.root_id
      rw [hfn, hroot] at hc
      simp only [Option.map_some'] at hc
      exact Option.some.inj hc
    have hnch : n.children = nr.children := congrArg NodeStruct.children hnstr
    cases hcc : nr.children.isEmpty
    · rw [hbandInner _ n hfn (by rw [hnch]; exact hcc), hy, hcc]
      simp only [Bool.false_eq_true, if_false]
      rw [hsub]
      ring
    · rw [hbandLeaf _ n hfn (by rw [hnch]; exact hcc), hy, hcc]
      simp only [if_true]
      ring
  · -- sibling bands are pairwise disjoint
    intro u nu hfu i j hi hj hne p hi1 hi2 hj1 hj2
    have hpos : ∀ l, (hl : l < nu.children.length) →
        (50 : Rat) ≤ subH (MindMap.compute_layout t).nodes
          (nu.children.get ⟨l, hl⟩) := by
      intro l hl
      rcases hOKc.childp u nu _ hfu (List.get_mem nu.children l hl) with
        ⟨w, hw, _⟩
      exact subH_pos hOKc hw
    have hkey : ∀ a b, (ha : a < nu.children.length) →
        (hb : b < nu.children.length) → a < b →
        bandStart (MindMap.compute_layout t).nodes (nu.children.get ⟨a, ha⟩) +
          subH (MindMap.compute_layout t).nodes (nu.children.get ⟨a, ha⟩) ≤
        bandStart (MindMap.compute_layout t).nodes (nu.children.get ⟨b, hb⟩) := by
      intro a b ha hb hab
      rw [hD u nu hfu a ha, hD u nu hfu b hb]
      have hglen : (nu.children.map (fun d =>
          subH (MindMap.compute_layout t).nodes d)).length =
          nu.children.length := List.length_map _ _
      have hga : a < (nu.children.map (fun d =>
          subH (MindMap.compute_layout t).nodes d)).length := by omega
      have htake : ∀ c, (nu.children.take c).map (fun d =>
          subH (MindMap.compute_layout t).nodes d) =
          ((nu.children.map (fun d =>
            subH (MindMap.compute_layout t).nodes d)).take c) :=
        fun c => by rw [List.map_take]
      rw [htake a, htake b]
      have hstep : ((nu.children.map (fun d =>
          subH (MindMap.compute_layout t).nodes d)).take (a + 1)).sum =
          ((nu.children.map (fun d =>
            subH (MindMap.compute_layout t).nodes d)).take a).sum +
          (nu.children.map (fun d =>
            subH (MindMap.compute_layout t).nodes d)).get ⟨a, hga⟩ :=
        List.sum_take_succ _ a hga
      have hget : (nu.children.map (fun d =>
          subH (MindMap.compute_layout t).nodes d)).get ⟨a, hga⟩ =
          subH (MindMap.compute_layout t).nodes (nu.children.get ⟨a, ha⟩) := by
        rw [List.get_eq_getElem, List.get_eq_getElem, List.getElem_map]
      have hmono : ((nu.children.map (fun d =>
          subH (MindMap.compute_layout t).nodes d)).take (a + 1)).sum ≤
          ((nu.children.map (fun d =>
            subH (MindMap.compute_layout t).nodes d)).take b).sum := by
        refine sum_take_mono ?_ (by omega)
        intro x hx
        rcases List.mem_map.mp hx with ⟨d, hd, rfl⟩
        rcases List.mem_iff_get.mp hd with ⟨⟨l, hl⟩, hgl⟩
        have := hpos l hl
        rw [hgl] at this
        linarith
      rw [hstep, hget] at hmono
      linarith
    rcases Nat.lt_or_ge i j with hij | hij
    · have := hkey i j hi hj hij
      linarith
    · have hji : j < i := by omega
      have := hkey j i hj hi hji
      linarith

theorem mindMap_ext {a b : MindMap} (h1 : a.nodes = b.nodes)
    (h2 : a.root_id = b.root_id) (h3 : a.selected_node_id = b.selected_node_id)
    (h4 : a.next_id = b.next_id) : a = b := by
  cases a
  cases b
  simp_all

theorem get_congr {l l2 : List Nat} (h : l = l2) {i : Nat}
    (hi : i < l.length) :
    l.get ⟨i, hi⟩ = l2.get ⟨i, by rw [← h]; exact hi⟩ := by
  subst h
  rfl

/-- C5: after compute_layout on a tree satisfying the structural invariants,
the root sits at x = 0; the width of a node is the deterministic function
max(100, content_length * 8 + icon_count * 20 + 20) of its content byte
length and icon count; every child of a node placed at x is placed at
x + that node's width + 50; and consequently x strictly increases from any
node to any proper descendant, in particular along every root-to-node
path. -/
theorem c5_horizontal_positions {t : MindMap} (h : Invariant t) :
    (∀ node : Node, nodeWidth node =
      max 100 ((node.content.utf8ByteSize : Rat) * 8 +
        (node.icons.length : Rat) * 20 + 20)) ∧
    (∃ n, NodeMap.find? (MindMap.compute_layout t).nodes t.root_id = some n ∧
      n.x = 0) ∧
    (∀ u nu c nc, NodeMap.find? (MindMap.compute_layout t).nodes u = some nu →
      c ∈ nu.children →
      NodeMap.find? (MindMap.compute_layout t).nodes c = some nc →
      nc.x = nu.x + nodeWidth nu + 50) ∧
    (∀ u v nu nv, Desc (MindMap.compute_layout t).nodes u v → ¬ u = v →
      NodeMap.find? (MindMap.compute_layout t).nodes u = some nu →
      NodeMap.find? (MindMap.compute_layout t).nodes v = some nv →
      nu.x < nv.x) := by
  have hE := (compute_layout_struct t).1
  obtain ⟨N1, N2, N3, N4⟩ := compute_layout_post h
  have hedge : ∀ u nu c nc,
      NodeMap.find? (MindMap.compute_layout t).nodes u = some nu →
      c ∈ nu.children →
      NodeMap.find? (MindMap.compute_layout t).nodes c = some nc →
      nc.x = nu.x + nodeWidth nu + 50 := by
    intro u nu c nc hfu hc hfc
    rcases find?_struct_transfer hE hfu with ⟨nu0, hfu0, _⟩
    exact N3 u nu c nc (desc_root h u nu0 hfu0) hfu hc hfc
  refine ⟨?_, ?_, hedge, ?_⟩
  · intro node
    rw [nodeWidth, max_comm]
  · rcases (contains_iff_find? _ _).mp h.1.rootMem with ⟨nr, hroot⟩
    rcases N2 nr hroot with ⟨n, hfn, hx, _⟩
    exact ⟨n, hfn, hx⟩
  · intro u v nu nv hd hne hfu hfv
    have hkey : ∀ v2, Desc (MindMap.compute_layout t).nodes u v2 →
        ∀ nv2, NodeMap.find? (MindMap.compute_layout t).nodes v2 = some nv2 →
        u = v2 ∨ nu.x < nv2.x := by
      intro v2 hd2
      induction hd2 with
      | refl =>
        intro nv2 _
        exact Or.inl rfl
      | step w c n hdw hfw hcw ih =>
        intro nv2 hfc
        have hx := hedge w n c nv2 hfw hcw hfc
        have hwge : (100 : Rat) ≤ nodeWidth n := nodeWidth_ge n
        rcases ih n hfw with he | hlt
        · right
          have hnun : nu = n := by
            rw [he] at hfu
            exact Option.some.inj (hfu.symm.trans hfw)
          rw [hnun, hx]
          linarith
        · right
          rw [hx]
          linarith
    rcases hkey v hd nv hfv with he | hlt
    · exact absurd he hne
    · exact hlt

theorem c5_horizontal_positions_witness :
    Invariant T2 ∧
    (∃ n, NodeMap.find? (MindMap.compute_layout T2).nodes T2.root_id = some n ∧
      n.x = 0) :=
  ⟨by decide, (c5_horizontal_positions (by decide)).2.1⟩

/-- C6 (amended): after compute_layout on a tree satisfying the structural
invariants, a childless node has subtree height 50; a node with children has
subtree height equal to the sum of its children's subtree heights and its y
equal to the top of its vertical band plus half its subtree height; the
root's band starts at 0; the band of the i-th child starts at its parent's
band top plus the subtree heights of the earlier siblings, which is the
start_y its caller supplies (the y itself for a childless node); and the
half-open vertical bands [band top, band top + subtree height) of two
distinct siblings share no point.  The original sentence, with intervals
centered at the stored y, is refuted by the counterexample. -/
theorem c6_vertical_intervals {t : MindMap} (h : Invariant t) :
    (∀ k n, NodeMap.find? (MindMap.compute_layout t).nodes k = some n →
      n.children.isEmpty →
      subH (MindMap.compute_layout t).nodes k = 50) ∧
    (∀ k n, NodeMap.find? (MindMap.compute_layout t).nodes k = some n →
      ¬ n.children.isEmpty →
      subH (MindMap.compute_layout t).nodes k =
        (n.children.map (fun c =>
          subH (MindMap.compute_layout t).nodes c)).sum ∧
      n.y = bandStart (MindMap.compute_layout t).nodes k +
        subH (MindMap.compute_layout t).nodes k / 2) ∧
    (bandStart (MindMap.compute_layout t).nodes t.root_id = 0) ∧
    (∀ u nu, NodeMap.find? (MindMap.compute_layout t).nodes u = some nu →
      ∀ i, (hi : i < nu.children.length) →
      bandStart (MindMap.compute_layout t).nodes (nu.children.get ⟨i, hi⟩) =
        bandStart (MindMap.compute_layout t).nodes u +
          ((nu.children.take i).map (fun d =>
            subH (MindMap.compute_layout t).nodes d)).sum) ∧
    (∀ u nu, NodeMap.find? (MindMap.compute_layout t).nodes u = some nu →
      ∀ i j, (hi : i < nu.children.length) → (hj : j < nu.children.length) →
      i ≠ j → ∀ p : Rat,
      bandStart (MindMap.compute_layout t).nodes (nu.children.get ⟨i, hi⟩) ≤ p →
      p < bandStart (MindMap.compute_layout t).nodes (nu.children.get ⟨i, hi⟩) +
        subH (MindMap.compute_layout t).nodes (nu.children.get ⟨i, hi⟩) →
      bandStart (MindMap.compute_layout t).nodes (nu.children.get ⟨j, hj⟩) ≤ p →
      p < bandStart (MindMap.compute_layout t).nodes (nu.children.get ⟨j, hj⟩) +
        subH (MindMap.compute_layout t).nodes (nu.children.get ⟨j, hj⟩) →
      False) :=
  layout_bands h

theorem c6_vertical_intervals_witness :
    Invariant Tc6 ∧
    bandStart (MindMap.compute_layout Tc6).nodes Tc6.root_id = 0 :=
  ⟨by decide, (c6_vertical_intervals (by decide)).2.2.1⟩

/-- C6, original wording refuted: on the tree Tc6 (root 0 with children
[1, 4], node 1 with children [2, 3], built by four add_child calls), the
laid-out positions give node 1 the center y = 50 with subtree extent 100 and
its sibling node 4 the center y = 100 with subtree extent 50; the intervals
(center minus half extent, center plus half extent) are [0, 100] and
[75, 125], which share the point 80, so the spec's sibling intervals
overlap. -/
theorem c6_vertical_intervals_counterexample :
    Invariant Tc6 ∧
    ¬ SpecSiblingIntervalsDisjoint (MindMap.compute_layout Tc6) := by
  have hInv : Invariant Tc6 := by decide
  refine ⟨hInv, ?_⟩
  intro hspec
  have hE := (compute_layout_struct Tc6).1
  have hOKT : LayoutOK Tc6.nodes := layoutOK_of_invariant hInv
  have hfR : NodeMap.find? Tc6.nodes 0 = some NcR := by decide
  have hf1 : NodeMap.find? Tc6.nodes 1 = some Nc1 := by decide
  have hf2 : NodeMap.find? Tc6.nodes 2 = some Nc2 := by decide
  have hf3 : NodeMap.find? Tc6.nodes 3 = some Nc3 := by decide
  have hf4 : NodeMap.find? Tc6.nodes 4 = some Nc4 := by decide
  have hs2 : subH Tc6.nodes 2 = 50 := subH_leaf hf2 (by decide)
  have hs3 : subH Tc6.nodes 3 = 50 := subH_leaf hf3 (by decide)
  have hs4 : subH Tc6.nodes 4 = 50 := subH_leaf hf4 (by decide)
  have hs1 : subH Tc6.nodes 1 = 100 := by
    rw [subH_children hOKT hf1 (by decide),
      show Nc1.children = [2, 3] from rfl, List.map_cons, List.map_cons,
      List.map_nil, List.sum_cons, List.sum_cons, List.sum_nil, hs2, hs3]
    norm_num
  obtain ⟨hbA, hbB, hbC, hbD, hbE⟩ := layout_bands hInv
  have hsubc : ∀ d, subH (MindMap.compute_layout Tc6).nodes d =
      subH Tc6.nodes d := fun d => subH_congr hE d
  rcases find?_struct_transfer hE.symm hfR with ⟨n0, hfn0, hstr0⟩
  rcases find?_struct_transfer hE.symm hf1 with ⟨n1, hfn1, hstr1⟩
  rcases find?_struct_transfer hE.symm hf4 with ⟨n4, hfn4, hstr4⟩
  have hch0 : n0.children = [1, 4] := congrArg NodeStruct.children hstr0
  have hch1 : n1.children = [2, 3] := congrArg NodeStruct.children hstr1
  have hch4 : n4.children = [] := congrArg NodeStruct.children hstr4
  have hi0 : 0 < n0.children.length := by rw [hch0]; decide
  have hi1 : 1 < n0.children.length := by rw [hch0]; decide
  have hg0 : n0.children.get ⟨0, hi0⟩ = 1 := by
    rw [get_congr hch0]
    rfl
  have hg1 : n0.children.get ⟨1, hi1⟩ = 4 := by
    rw [get_congr hch0]
    rfl
  have hbC0 : bandStart (MindMap.compute_layout Tc6).nodes 0 = 0 := hbC
  have hD0 := hbD 0 n0 hfn0 0 hi0
  have hD1 := hbD 0 n0 hfn0 1 hi1
  rw [hg0] at hD0
  rw [hg1] at hD1
  have htake0 : n0.children.take 0 = [] := List.take_zero n0.children
  have htake1 : n0.children.take 1 = [1] := by
    rw [hch0]
    rfl
  have hband1 : bandStart (MindMap.compute_layout Tc6).nodes 1 = 0 := by
    rw [hD0, hbC0, htake0, List.map_nil, List.sum_nil]
    norm_num
  have hband4 : bandStart (MindMap.compute_layout Tc6).nodes 4 = 100 := by
    rw [hD1, hbC0, htake1, List.map_cons, List.map_nil, List.sum_cons,
      List.sum_nil, hsubc, hs1]
    norm_num
  have hy1 : n1.y = 50 := by
    have hb := hbB 1 n1 hfn1 (by rw [hch1]; decide)
    rw [hb.2, hband1, hsubc, hs1]
    norm_num
  have hy4 : n4.y = 100 := by
    have hleaf : bandStart (MindMap.compute_layout Tc6).nodes 4 = n4.y := by
      rw [bandStart, hfn4]
      show (if n4.children.isEmpty then n4.y else _) = n4.y
      rw [if_pos (by rw [hch4]; rfl)]
    rw [← hleaf, hband4]
  have hmem1 : (1 : Nat) ∈ n0.children := by rw [hch0]; decide
  have hmem4 : (4 : Nat) ∈ n0.children := by rw [hch0]; decide
  refine hspec 0 n0 1 n1 4 n4 hfn0 hmem1 hmem4 (by decide) hfn1 hfn4 80
    ⟨?_, ?_, ?_, ?_⟩
  · rw [hy1, hsubc, hs1]
    norm_num
  · rw [hy1, hsubc, hs1]
    norm_num
  · rw [hy4, hsubc, hs4]
    norm_num
  · rw [hy4, hsubc, hs4]
    norm_num

/-- C7: compute_layout is deterministic and idempotent — on a tree
satisfying the structural invariants, a second compute_layout with no
intervening mutation returns the very same tree (in particular every node
keeps exactly the x and y of the first run): the positions written depend
only on the structure, content lengths and icon counts, never on the
previously stored positions. -/
theorem c7_layout_idempotent {t : MindMap} (h : Invariant t) :
    MindMap.compute_layout (MindMap.compute_layout t) =
      MindMap.compute_layout t := by
  have hsp := (compute_layout_struct t).1
  have hpoint : ∀ j, NodeMap.find?
      (MindMap.compute_layout (MindMap.compute_layout t)).nodes j =
      NodeMap.find? (MindMap.compute_layout t).nodes j := by
    intro j
    have hroot : (MindMap.compute_layout t).root_id = t.root_id :=
      (compute_layout_struct t).2.1
    have hlen : (MindMap.compute_layout t).nodes.length = t.nodes.length :=
      length_eq_of_structProj hsp
    have hcl : MindMap.compute_layout (MindMap.compute_layout t) =
        (MindMap.layout_node (MindMap.compute_layout t) t.nodes.length
          t.root_id 0 0).1 := by
      rw [MindMap.compute_layout, hroot, hlen]
    rw [hcl]
    rcases (layout_det t.nodes.length).1 t (MindMap.compute_layout t)
        t.root_id 0 0 hsp.symm j with ⟨h1, h2⟩ | heq
    · exact h2
    · exact heq.symm
  have hext : (MindMap.compute_layout (MindMap.compute_layout t)).nodes =
      (MindMap.compute_layout t).nodes := by
    refine nodeMap_ext ?_ ?_ hpoint
    · exact keys_eq_of_structProj
        (compute_layout_struct (MindMap.compute_layout t)).1
    · rw [keys_eq_of_structProj
          (compute_layout_struct (MindMap.compute_layout t)).1,
        keys_eq_of_structProj hsp]
      exact h.1.keysNodup
  exact mindMap_ext hext
    (compute_layout_struct (MindMap.compute_layout t)).2.1
    (compute_layout_struct (MindMap.compute_layout t)).2.2.1
    (compute_layout_struct (MindMap.compute_layout t)).2.2.2

theorem c7_layout_idempotent_witness :
    Invariant T2 ∧
    MindMap.compute_layout (MindMap.compute_layout T2) =
      MindMap.compute_layout T2 :=
  ⟨by decide, c7_layout_idempotent (by decide)⟩
